import Mathlib

/-!
# Flow123d: output staging layer

A shallow embedding of the output-data staging code of Flow123d
(`src/io/output_data.cc`, `src/io/output.h`, `src/io/output_msh.cc`) and of the
common part of fields (`src/fields/field_common.hh`), together with the
properties of the specification that concern them.

Conventions of the embedding:

* an output stream is the text written to it so far (`String`); a method
  writing to a stream returns the extended text;
* a raw pointer `const ElemType *` is the function giving the element read at
  each offset (`Nat → α`);
* a C++ exception or a fatal `xprintf` is an `Except.error`;
* methods that are not `const` in the source return the object next to their
  result, so that frame properties can be stated;
* the element type `ElemType` is a type parameter `α`; what the stream
  insertion operator prints for one element is a parameter `fmt`;
* a division of integers by zero stops the program: the operation has no
  result (`none`, or `Abort.division_by_zero`);
* `double` is an exact field where a property states the mathematical value of
  a result, and `Binary64` (every operation rounded to the nearest number with
  a significand of 53 binary digits) where the rounded result itself matters.
-/

namespace Flow123d

/-! ## Data model of `OutputData<Value>` (src/io/output_data.cc) -/

/-- Modelled from the spec: the component counts of `NumCompValueType`, declared
in `io/output_data.hh` which is not among the sources. The spec fixes them:
1 for a scalar, 3 for a fixed vector, 9 for a fixed 3x3 tensor. -/
def N_SCALAR : Nat := 1

/-- Modelled from the spec: component count of a fixed vector, see `N_SCALAR`. -/
def N_VECTOR : Nat := 3

/-- Modelled from the spec: component count of a fixed 3x3 tensor, see `N_SCALAR`. -/
def N_TENSOR : Nat := 9

/-- Failures raised by the output layer. `PrgErr` is the fatal program error
reported through `xprintf(PrgErr, ...)`, carrying the formatted message;
`ExcOutputVariableVector` carries `EI_FieldName`; `AssertLT` is a failed
`ASSERT_LT(a, b).error()`. -/
inductive OutputError where
  | PrgErr (msg : String)
  | ExcOutputVariableVector (field_name : String)
  | AssertLT (a b : Nat)
  deriving DecidableEq, Repr

/-- Modelled from the spec: `xprintf` with message type `PrgErr` (declared in
`system/xio.h`, not among the sources). Per the spec every fatal error aborts
the current run with a descriptive message; nothing after the call is
executed. -/
def xprintf_PrgErr {β : Type} (msg : String) : Except OutputError β :=
  Except.error (OutputError.PrgErr msg)

/-- State of an `OutputData<Value>` object. `data_` is the `CacheData` table (a
vector of rows), of which row 0 is the flat buffer; `arr_ptr` is the scratch
array obtained from `malloc`. -/
structure OutputData (α : Type) where
  field_name : String
  output_field_name : String
  n_values : Nat
  n_elem_ : Nat
  n_rows : Nat
  n_cols : Nat
  data_ : List (List α)
  arr_ptr : Nat → α

/-- Modelled from the spec: `ElementDataCache<T>::create_data_cache(size_of_cache,
row_vec_size)` (defined in `io/element_data_cache.cc`, not among the sources)
builds `size_of_cache` rows of `row_vec_size` elements each. The initial
content `fill` of a fresh row is a parameter. -/
def create_data_cache {α : Type} (fill : α) (size_of_cache row_vec_size : Nat) :
    List (List α) :=
  List.replicate size_of_cache (List.replicate row_vec_size fill)

/-- The flat buffer `*( this->data_[0].get() )`. -/
def OutputData.vec {α : Type} (d : OutputData α) : List α :=
  d.data_.headD []

/-- Constructor `OutputData<Value>::OutputData(field_name, n_rows, n_cols, size)`,
output_data.cc lines 14-51. `fill` is the initial content of the buffer and
`scratch` the content of the memory returned by `malloc`. The call
`set_vtk_type<ElemType>()` only records a type tag for the VTK writer and has
no counterpart in the state kept here. -/
def OutputData.construct {α : Type} (fill : α) (scratch : Nat → α)
    (field_name : String) (n_rows n_cols size : Nat) :
    Except OutputError (OutputData α) := do
  let n_values := size
  let shape : Nat × Nat × Nat ←
    if n_cols = 1 then
      if n_rows = 1 then
        pure (N_SCALAR, 1, 1)
      else
        if n_rows > 1 then
          if n_rows > 3 then
            xprintf_PrgErr
              ("Do not support output of vectors with fixed size >3. Field: "
                ++ field_name ++ "\n")
          else
            pure (N_VECTOR, 3, 1)
        else
          Except.error (OutputError.ExcOutputVariableVector field_name)
    else
      pure (N_TENSOR, 3, 3)
  pure
    { field_name := field_name
      output_field_name := field_name
      n_values := n_values
      n_elem_ := shape.1
      n_rows := shape.2.1
      n_cols := shape.2.2
      data_ := create_data_cache fill 1 (n_values * shape.1)
      arr_ptr := scratch }

/-! ## Slot operations (output_data.cc lines 143-173) -/

/-- Compound division `raw /= divisor` of an element by an `unsigned int`
count, as the element type provides it: the new content of `raw`, or `none`
when the division is not defined and the program is stopped there (a division
of integers by zero). -/
class CountDiv (α : Type) where
  divCount : α → Nat → Option α

/-- The element type `double`, in exact arithmetic: the count is converted to
the element type and divides; a floating-point division never stops the
program. (For a zero count a `double` becomes an infinity or a NaN, which
exact arithmetic does not have: the quotient by zero given here is not the
code's.) -/
instance instCountDivDivisionRing {α : Type} [DivisionRing α] : CountDiv α where
  divCount x divisor := some (x / (divisor : α))

/-- The element type `int` (32 bits): in `raw /= divisor` with an `unsigned int`
divisor both operands are converted to `unsigned int`, divided there, and the
quotient is converted back to `int`. The division by zero is not defined; the
processor stops the program. -/
instance instCountDivInt : CountDiv Int where
  divCount raw divisor :=
    if divisor % 2 ^ 32 = 0 then none
    else
      let q : Int := (raw % 2 ^ 32) / ((divisor : Int) % 2 ^ 32)
      some (if q < 2 ^ 31 then q else q - 2 ^ 32)

/-- The element type `unsigned int` (32 bits): the unsigned quotient; the
division by zero is not defined and stops the program. -/
instance instCountDivNat : CountDiv Nat where
  divCount raw divisor :=
    if divisor % 2 ^ 32 = 0 then none
    else some ((raw % 2 ^ 32) / (divisor % 2 ^ 32))

/-- Modelled from the spec: the member template `operate(idx, value, func)`
is declared in `io/output_data.hh`, which is not among the sources. Per the
spec it visits exactly the `n_elem_`-wide slice at position `idx` of the flat
buffer, applying `func` to the buffer entry `n_elem_*idx + j` and to the
`j`-th element behind `value`, for `j = 0 .. n_elem_-1`. The C++ functor
assigns through its reference argument; here it returns the new entry. -/
def OutputData.operate {α : Type} (d : OutputData α) (idx : Nat) (value : Nat → α)
    (func : α → α → α) : OutputData α :=
  { d with
    data_ := d.data_.modifyHead (fun vec =>
      (List.range d.n_elem_).foldl
        (fun v j => v.modify (fun raw => func raw (value j)) (d.n_elem_ * idx + j)) vec) }

/-- Method `store_value(idx, value)`: functor `raw = val`. -/
def OutputData.store_value {α : Type} (d : OutputData α) (idx : Nat) (value : Nat → α) :
    OutputData α :=
  d.operate idx value (fun _ val => val)

/-- Method `add(idx, value)`: functor `raw += val`. -/
def OutputData.add {α : Type} [Add α] (d : OutputData α) (idx : Nat) (value : Nat → α) :
    OutputData α :=
  d.operate idx value (fun raw val => raw + val)

/-- Method `zero(idx)`: functor `raw = 0`, the value argument is `arr_ptr`. -/
def OutputData.zero {α : Type} [Zero α] (d : OutputData α) (idx : Nat) : OutputData α :=
  d.operate idx d.arr_ptr (fun _ _ => 0)

/-- Method `normalize(idx, divisor)`: functor `raw /= divisor`, the value
argument is `arr_ptr`; `divisor` is an `unsigned int`, a number below 2^32.
The result is `none` when the division is not defined at an entry of the
slot, where the program is stopped. -/
def OutputData.normalize {α : Type} [CountDiv α] (d : OutputData α) (idx divisor : Nat) :
    Option (OutputData α) :=
  if (List.range d.n_elem_).all (fun j =>
      match d.vec[d.n_elem_ * idx + j]? with
      | some raw => (CountDiv.divCount raw divisor).isSome
      | none => true) then
    some (d.operate idx d.arr_ptr (fun raw _ => (CountDiv.divCount raw divisor).getD raw))
  else none

/-! ## Serialisation (output_data.cc lines 63-125) -/

/-- One loop body `out_stream << vec[i] << " "`. Reading `vec[i]` past the end
of the vector is undefined in C++; the embedding writes nothing there. -/
def put_elem {α : Type} (fmt : α → String) (vec : List α) (out_stream : String) (i : Nat) :
    String :=
  match vec[i]? with
  | some x => out_stream ++ fmt x ++ " "
  | none => out_stream

/-- The inner loop `for (i = n_elem_*idx; i < n_elem_*(idx+1); ++i)` shared by the
printing methods, with body `body`. -/
def slot_loop {σ : Type} (n_elem_ idx : Nat) (body : σ → Nat → σ) (init : σ) : σ :=
  (List.range' (n_elem_ * idx) (n_elem_ * (idx + 1) - n_elem_ * idx)).foldl body init

/-- Method `print_ascii(out_stream, idx)`. -/
def OutputData.print_ascii {α : Type} (fmt : α → String) (d : OutputData α)
    (out_stream : String) (idx : Nat) : Except OutputError (OutputData α × String) :=
  if idx < d.n_values then
    Except.ok (d, slot_loop d.n_elem_ idx (put_elem fmt d.vec) out_stream)
  else
    Except.error (OutputError.AssertLT idx d.n_values)

/-- Method `print_ascii_all(out_stream)`. -/
def OutputData.print_ascii_all {α : Type} (fmt : α → String) (d : OutputData α)
    (out_stream : String) : OutputData α × String :=
  (d, (List.range d.n_values).foldl
        (fun out idx => slot_loop d.n_elem_ idx (put_elem fmt d.vec) out) out_stream)

/-- One loop body `out_stream.write(&vec[i], sizeof(ElemType))`; `raw` gives the
object representation of an element as characters. -/
def write_elem {α : Type} (raw : α → String) (vec : List α) (out_stream : String) (i : Nat) :
    String :=
  match vec[i]? with
  | some x => out_stream ++ raw x
  | none => out_stream

/-- Method `print_binary_all(out_stream, print_data_size)`. `sizeof_elem` is
`sizeof(ElemType)` and `raw_size` the object representation of an
`unsigned long long`. -/
def OutputData.print_binary_all {α : Type} (raw : α → String) (raw_size : Nat → String)
    (sizeof_elem : Nat) (d : OutputData α) (out_stream : String) (print_data_size : Bool) :
    OutputData α × String :=
  let out1 :=
    if print_data_size then
      let data_byte_size := d.n_values * d.n_elem_ * sizeof_elem
      out_stream ++ raw_size data_byte_size
    else out_stream
  (d, (List.range d.n_values).foldl
        (fun out idx => slot_loop d.n_elem_ idx (write_elem raw d.vec) out) out1)

/-- Method `print_all_yaml(out_stream, precision)`. `to_yaml` stands for
`field_value_to_yaml(Value::from_raw(value, ptr), precision)` applied to what
lies behind `ptr = &vec[n_elem_ * idx]`. -/
def OutputData.print_all_yaml {α : Type} (to_yaml : List α → Nat → String) (d : OutputData α)
    (out_stream : String) (precision : Nat) : OutputData α × String :=
  let out1 := out_stream ++ "[ "
  let out2 := (List.range d.n_values).foldl
    (fun out idx =>
      let out_sep := if idx ≠ 0 then out ++ ", " else out
      out_sep ++ to_yaml (d.vec.drop (d.n_elem_ * idx)) precision) out1
  (d, out2 ++ " ]")

/-- Consistency of an `OutputData`: the cache table has its single row and the
flat buffer holds `n_values * n_elem_` entries. -/
def OutputData.wf {α : Type} (d : OutputData α) : Prop :=
  d.data_.length = 1 ∧ d.vec.length = d.n_values * d.n_elem_

instance instDecidableWf {α : Type} (d : OutputData α) : Decidable d.wf := by
  unfold OutputData.wf; infer_instance

/-- Reads `n` consecutive elements behind a pointer. -/
def read_ptr {α : Type} (value : Nat → α) (n : Nat) : List α :=
  (List.range n).map value

/-- A pointer to the first element of an array holding `l`; offsets past the
array read `dflt`. -/
def ptr_of {α : Type} (dflt : α) (l : List α) : Nat → α :=
  fun j => l.getD j dflt

/-! ## Registration of field data (src/io/output.h)

The header `output.h` carries its own, older `OutputData<T>` and the function
template `OutputTime::compute_field_data`. They live in the namespace `Legacy`
here, to keep them apart from the class of `output_data.cc`. -/

namespace Legacy

/-- Discrete space of the staged data (`OutputTime::RefType`). -/
inductive RefType where
  | NODE_DATA
  | CORNER_DATA
  | ELEM_DATA
  deriving DecidableEq, Repr

/-- The alternatives told apart by `typeid(Value)`; `Other` is any value type
that matches none of the six comparisons. -/
inductive ValueType where
  | Integer
  | IntVector
  | Enum
  | EnumVector
  | Scalar
  | Vector
  | Other
  deriving DecidableEq, Repr

/-- A mesh node as reached through a `Node *`: `index` is its position in
`mesh->node_vector` (what `node_vector.index(ptr)` returns) and `point` is
`node->point()`. -/
structure Node (P : Type) where
  index : Nat
  point : P
  deriving DecidableEq, Repr

/-- A mesh element: `node` is the array `ele->node[]` of its `n_nodes()` nodes,
`centre` is `ele->centre()`. -/
structure Element (P : Type) where
  node : List (Node P)
  centre : P
  deriving DecidableEq, Repr

/-- Method `ele->n_nodes()`. -/
def Element.n_nodes {P : Type} (ele : Element P) : Nat :=
  ele.node.length

/-- The part of `Mesh` the function reads: `n_nodes` is `mesh->n_nodes()` and
`element` the element vector visited by `FOR_ELEMENTS`. -/
structure Mesh (P : Type) where
  n_nodes : Nat
  element : List (Element P)
  deriving DecidableEq, Repr

/-- Method `mesh->n_elements()`. -/
def Mesh.n_elements {P : Type} (mesh : Mesh P) : Nat :=
  mesh.element.length

/-- The part of `Field<spacedim, Value>` the function reads: `id` stands for the
address of the field object, `value p i` for
`field->value(p, mesh->element_accessor(i))`, `time` for `field->time()` and
`mesh` for `field->mesh()`. -/
structure Field (P α : Type) where
  id : Nat
  value : P → Nat → α
  time : Int
  mesh : Mesh P

/-- State of the `OutputData<T>` of output.h (with its base `OutputDataBase`);
`field` is the address of the field the data were copied from. -/
structure OutputData (α : Type) where
  field : Nat
  items_count : Nat
  vector_items_count : Nat
  _data : List α
  deriving DecidableEq, Repr

/-- Constructor `OutputData<T>::OutputData(field, items_count, vector_items_count)`,
output.h lines 164-173. The array `new T[vector_items_count * items_count]` is
not initialised; `heap` gives its content. -/
def OutputData.construct {α : Type} (heap : Nat → α) (field items_count vector_items_count : Nat) :
    OutputData α :=
  { field := field
    items_count := items_count
    _data := (List.range (vector_items_count * items_count)).map heap
    vector_items_count := vector_items_count }

/-- An update through the reference returned by `operator[] (idx)`: `f` maps the
old content of `_data[idx]` to the new one. The `assert(idx < items_count)` of
the operator is a debugging aid without effect on the result. -/
def OutputData.update {α : Type} (d : OutputData α) (idx : Nat) (f : α → α) : OutputData α :=
  { d with _data := d._data.modify f idx }

/-- The part of `OutputTime` the function touches. -/
structure OutputTime (P α : Type) where
  rank : Int
  mesh : Option (Mesh P)
  node_data : List (OutputData α)
  corner_data : List (OutputData α)
  elem_data : List (OutputData α)
  time : Int
  deriving DecidableEq, Repr

/-- The vector of staged data of one discrete space. -/
def OutputTime.data_vector {P α : Type} (ot : OutputTime P α) : RefType → List (OutputData α)
  | RefType.NODE_DATA => ot.node_data
  | RefType.CORNER_DATA => ot.corner_data
  | RefType.ELEM_DATA => ot.elem_data

/-- Replaces the vector of staged data of one discrete space. -/
def OutputTime.set_data_vector {P α : Type} (ot : OutputTime P α) (ref_type : RefType)
    (v : List (OutputData α)) : OutputTime P α :=
  match ref_type with
  | RefType.NODE_DATA => { ot with node_data := v }
  | RefType.CORNER_DATA => { ot with corner_data := v }
  | RefType.ELEM_DATA => { ot with elem_data := v }

/-- Modelled from the spec: `OutputTime::output_data_by_field(field, ref_type)`
is defined outside the sources. Per the spec a staging buffer is created the
first time a field is registered for a discrete space and reused afterwards:
the lookup returns the buffer of that space that was copied from `field`, if
there is one, and `NULL` (here `none`) otherwise. -/
def OutputTime.output_data_by_field {P α : Type} (ot : OutputTime P α) (field : Nat)
    (ref_type : RefType) : Option (OutputData α) :=
  (ot.data_vector ref_type).find? (fun od => od.field == field)

/-- Writes through the pointer returned by `output_data_by_field`: the first
buffer in `v` copied from `field` is replaced by its image under `f`. -/
def update_by_field {α : Type} (field : Nat) (f : OutputData α → OutputData α) :
    List (OutputData α) → List (OutputData α)
  | [] => []
  | od :: rest =>
    if od.field == field then f od :: rest else od :: update_by_field field f rest

/-- Local variables of `compute_field_data` that the copy loops change. -/
structure Locals (α : Type) where
  output_data : OutputData α
  count : List Nat
  corner_index : Nat
  ele_index : Nat

/-- The switch on `ref_type` that computes `item_count`, output.h lines 234-248. -/
def item_count {P : Type} (mesh : Mesh P) : RefType → Nat
  | RefType.NODE_DATA => mesh.n_nodes
  | RefType.CORNER_DATA =>
    mesh.element.foldl (fun item_count ele => item_count + ele.n_nodes) 0
  | RefType.ELEM_DATA => mesh.n_elements

/-- How a call ends when it does not return: by the `throw` of a message, or
stopped by the processor at a division of integers by zero. -/
inductive Abort where
  | thrown (message : String)
  | division_by_zero
  deriving DecidableEq, Repr

/-- The chain of `typeid` tests that allocates the buffer, output.h lines
250-267; the string is the thrown message. -/
def new_output_data {α : Type} (heap : Nat → α) (vt : ValueType) (field item_count : Nat) :
    Except String (OutputData α) :=
  match vt with
  | ValueType.Integer => Except.ok (OutputData.construct heap field item_count 1)
  | ValueType.IntVector => Except.ok (OutputData.construct heap field item_count 3)
  | ValueType.Enum => Except.ok (OutputData.construct heap field item_count 1)
  | ValueType.EnumVector => Except.ok (OutputData.construct heap field item_count 3)
  | ValueType.Scalar => Except.ok (OutputData.construct heap field item_count 1)
  | ValueType.Vector => Except.ok (OutputData.construct heap field item_count 3)
  | ValueType.Other => Except.error "Try to register unsupported data type."

/-- Whether one of the six `typeid` tests inside the copy loops succeeds; for
any other value type the loop bodies leave the buffer alone. -/
def ValueType.known : ValueType → Bool
  | ValueType.Other => false
  | _ => true

/-- NODE_DATA, first loop (lines 289-304): clears the buffer and the counters. -/
def node_init {α : Type} [Zero α] (vt : ValueType) (item_count : Nat) (s : Locals α) : Locals α :=
  (List.range item_count).foldl
    (fun s node_id =>
      { s with
        output_data :=
          if vt.known then s.output_data.update node_id (fun _ => 0) else s.output_data
        count := s.count.set node_id 0 })
    s

/-- NODE_DATA, second loop (lines 307-326): adds the field value at each node of
each element to the slot of the node and counts the contributions. The
variable `ele_index` is read but not advanced by this loop. -/
def node_accumulate {P α : Type} [Add α] (vt : ValueType) (field : Field P α) (mesh : Mesh P)
    (s : Locals α) : Locals α :=
  mesh.element.foldl
    (fun s ele =>
      ele.node.foldl
        (fun s node =>
          let node_index := node.index
          { s with
            output_data :=
              if vt.known then
                s.output_data.update node_index (fun raw => raw + field.value node.point s.ele_index)
              else s.output_data
            count := s.count.modify (fun c => c + 1) node.index })
        s)
    s

/-- NODE_DATA, third loop (lines 329-343): divides each slot by its counter.
The loop ends at the first division that is not defined: for the integer
types, at the first node whose counter is 0. -/
def node_mean {α : Type} [CountDiv α] (vt : ValueType) (item_count : Nat) (s : Locals α) :
    Except Abort (Locals α) :=
  (List.range item_count).foldlM
    (fun s node_id =>
      if vt.known then
        match s.output_data._data[node_id]? with
        | some raw =>
          match CountDiv.divCount raw (s.count.getD node_id 0) with
          | some quotient =>
            Except.ok { s with output_data := s.output_data.update node_id (fun _ => quotient) }
          | none => Except.error Abort.division_by_zero
        | none => Except.ok s
      else Except.ok s)
    s

/-- CORNER_DATA loop (lines 347-366). -/
def corner_copy {P α : Type} (vt : ValueType) (field : Field P α) (mesh : Mesh P)
    (s : Locals α) : Locals α :=
  mesh.element.foldl
    (fun s ele =>
      let s1 := ele.node.foldl
        (fun s node =>
          { s with
            output_data :=
              if vt.known then
                s.output_data.update s.corner_index (fun _ => field.value node.point s.ele_index)
              else s.output_data
            corner_index := s.corner_index + 1 })
        s
      { s1 with ele_index := s1.ele_index + 1 })
    s

/-- ELEM_DATA loop (lines 369-384). -/
def elem_copy {P α : Type} (vt : ValueType) (field : Field P α) (mesh : Mesh P)
    (s : Locals α) : Locals α :=
  mesh.element.foldl
    (fun s ele =>
      { s with
        output_data :=
          if vt.known then
            s.output_data.update s.ele_index (fun _ => field.value ele.centre s.ele_index)
          else s.output_data
        ele_index := s.ele_index + 1 })
    s

/-- The switch "Copy data to array", output.h lines 282-386, applied to the
buffer `output_data`. The counter array `new unsigned int[item_count]` is not
initialised; `heap_count` gives its content. The result is the buffer after
the loops, or how the program was stopped inside them. -/
def copy_data {P α : Type} [Zero α] [Add α] [CountDiv α] (heap_count : Nat → Nat)
    (ref_type : RefType) (vt : ValueType) (field : Field P α) (mesh : Mesh P)
    (item_count : Nat) (output_data : OutputData α) : Except Abort (OutputData α) :=
  let s : Locals α :=
    { output_data := output_data
      count := (List.range item_count).map heap_count
      corner_index := 0
      ele_index := 0 }
  match ref_type with
  | RefType.NODE_DATA =>
    match node_mean vt item_count (node_accumulate vt field mesh (node_init vt item_count s)) with
    | Except.ok s => Except.ok s.output_data
    | Except.error stop => Except.error stop
  | RefType.CORNER_DATA => Except.ok (corner_copy vt field mesh s).output_data
  | RefType.ELEM_DATA => Except.ok (elem_copy vt field mesh s).output_data

/-- Function template `OutputTime::compute_field_data(ref_type, field, output_time)`,
output.h lines 206-392. `vt` is the template argument `Value` as seen by
`typeid`; `output_time = none` is the null pointer; `heap` and `heap_count`
give the content of freshly allocated arrays. The result is the state of
`*output_time` afterwards, or how the call ended without returning: by the
thrown message, or stopped at a division by zero in the copy loops. -/
def compute_field_data {P α : Type} [Zero α] [Add α] [CountDiv α]
    (heap : Nat → α) (heap_count : Nat → Nat) (vt : ValueType)
    (ref_type : RefType) (field : Field P α) (output_time : Option (OutputTime P α)) :
    Except Abort (Option (OutputTime P α)) :=
  match output_time with
  | none => Except.ok none
  | some ot =>
    if ot.rank ≠ 0 then Except.ok (some ot)
    else
      let mesh := field.mesh
      let ot1 : OutputTime P α :=
        match ot.mesh with
        | none => { ot with mesh := some mesh }
        | some _ => ot
      let n := item_count mesh ref_type
      let staged : Except Abort (OutputTime P α) :=
        match ot1.output_data_by_field field.id ref_type with
        | none =>
          match new_output_data heap vt field.id n with
          | Except.error msg => Except.error (Abort.thrown msg)
          | Except.ok output_data =>
            match copy_data heap_count ref_type vt field mesh n output_data with
            | Except.error stop => Except.error stop
            | Except.ok copied =>
              Except.ok (ot1.set_data_vector ref_type (ot1.data_vector ref_type ++ [copied]))
        | some output_data =>
          match copy_data heap_count ref_type vt field mesh n output_data with
          | Except.error stop => Except.error stop
          | Except.ok copied =>
            Except.ok (ot1.set_data_vector ref_type
              (update_by_field field.id (fun _ => copied) (ot1.data_vector ref_type)))
      match staged with
      | Except.error stop => Except.error stop
      | Except.ok ot2 =>
        if ot2.time < field.time then Except.ok (some { ot2 with time := field.time })
        else Except.ok (some ot2)

/-- The values of a field at the corners of a run of elements, in
element-then-local-node order; `ele_index` is the index of the first element
of the run. -/
def corner_values {P α : Type} (field : Field P α) : Nat → List (Element P) → List α
  | _, [] => []
  | ele_index, ele :: rest =>
    ele.node.map (fun node => field.value node.point ele_index) ++
      corner_values field (ele_index + 1) rest

/-- Overwrites the consecutive positions `c, c+1, ...` of a list by the given
values, one assignment after the other. -/
def write_run {α : Type} : Nat → List α → List α → List α
  | _, [], l => l
  | c, x :: xs, l => write_run (c + 1) xs (l.modify (fun _ => x) c)

/-- The content of the buffer staged for `field` in the space `ref_type` once a
call of `compute_field_data` has returned; `none` if the call did not return,
had no output stream, or staged nothing for the field. -/
def staged_data {P α : Type} (r : Except Abort (Option (OutputTime P α))) (field : Nat)
    (ref_type : RefType) : Option (List α) :=
  match r with
  | Except.ok (some ot) => (ot.output_data_by_field field ref_type).map (fun od => od._data)
  | _ => none

/-- The field values that the specification averages at a node: for every
element in mesh order and every local node of it that is the node
`node_index`, the field value taken on that element at the node. -/
def incident_values {P α : Type} (field : Field P α) (node_index : Nat) :
    Nat → List (Element P) → List α
  | _, [] => []
  | ele_index, ele :: rest =>
    ((ele.node.filter (fun node => node.index == node_index)).map
        (fun node => field.value node.point ele_index)) ++
      incident_values field node_index (ele_index + 1) rest

/-- The node value as the specification words it: the sum of the incident
values divided by their number. -/
def node_mean_spec {P : Type} (field : Field P Int) (node_index : Nat) : Int :=
  (incident_values field node_index 0 field.mesh.element).sum /
    ((incident_values field node_index 0 field.mesh.element).length : Int)

end Legacy

/-- The `n_elem_` entries of slot `idx` of the flat buffer, in buffer order. -/
def OutputData.slot {α : Type} (d : OutputData α) (idx : Nat) : List α :=
  (d.vec.drop (d.n_elem_ * idx)).take d.n_elem_

/-- The loop of the unit test (output_test.cpp lines 281-282) that stores the
same value at every index: `for (i < n_values) store_value(i, value)`. -/
def OutputData.store_value_all {α : Type} (d : OutputData α) (value : Nat → α) : OutputData α :=
  (List.range d.n_values).foldl (fun d i => d.store_value i value) d

/-- The text written for a sequence of elements: each element as printed by the
stream, followed by one space. -/
def put_all {α : Type} (fmt : α → String) (xs : List α) (out_stream : String) : String :=
  xs.foldl (fun acc x => acc ++ fmt x ++ " ") out_stream

/-- The averaging sequence on one slot: `zero(idx)`, then `add(idx, v)` for each
value of `vs` in turn, then `normalize(idx, k)` with `k` the number of values. -/
def OutputData.average_into {α : Type} [Zero α] [Add α] [CountDiv α] (d : OutputData α)
    (idx : Nat) (vs : List (Nat → α)) : Option (OutputData α) :=
  (vs.foldl (fun d v => d.add idx v) (d.zero idx)).normalize idx vs.length

/-! ## Value range (output_data.cc lines 128-140) -/

/-- The library constant `std::numeric_limits<double>::max()`, the largest
finite double, as an exact rational. -/
def numeric_limits_double_max : ℚ := (2 ^ 53 - 1) * 2 ^ 971

/-- The library constant `std::numeric_limits<double>::min()`: for a floating
type this is the smallest positive normalised value, 2 to the power -1022. -/
def numeric_limits_double_min : ℚ := 1 / 2 ^ 1022

/-- One loop body of `get_min_max_range`: the two `if` statements on `vec[i]`.
`to_double` is the conversion of an element to `double`; the pair is
`(min, max)`. -/
def min_max_step {α : Type} (to_double : α → ℚ) (vec : List α) (mm : ℚ × ℚ) (i : Nat) : ℚ × ℚ :=
  match vec[i]? with
  | some x =>
    let min := if to_double x < mm.1 then to_double x else mm.1
    let max := if to_double x > mm.2 then to_double x else mm.2
    (min, max)
  | none => mm

/-- Method `get_min_max_range(min, max)`; the result carries the object and the
values left in the two reference arguments. Doubles are exact rationals. -/
def OutputData.get_min_max_range {α : Type} (to_double : α → ℚ) (d : OutputData α) :
    OutputData α × ℚ × ℚ :=
  let min := numeric_limits_double_max
  let max := numeric_limits_double_min
  (d, (List.range d.n_values).foldl
        (fun mm idx => slot_loop d.n_elem_ idx (min_max_step to_double d.vec) mm) (min, max))

/-! ## GMSH writer: data lines (output_msh.cc lines 163-188) -/

/-- The operations of the output file stream that the writer uses, over an
arbitrary representation `σ` of the stream: insertion of a text, insertion of
an unsigned number, `std::endl`, and `precision(n)`. -/
structure OStream (σ : Type) where
  str : σ → String → σ
  uint : σ → Nat → σ
  endl : σ → σ
  precision : σ → Nat → σ

/-- What the writer reads of an element of the output mesh. -/
structure OutputElement where
  n_nodes : Nat
  deriving DecidableEq, Repr

/-- Loop state of the corner branch of `write_msh_ascii_data`. -/
structure CornerLoop (σ : Type) where
  file : σ
  i_corner : Nat

/-- The loop `for (j < it->n_nodes()) output_data->print_ascii(file, i_corner++)`. -/
def print_corners {σ : Type} (print_ascii : σ → Nat → σ) (n_nodes : Nat) (s : CornerLoop σ) :
    CornerLoop σ :=
  (List.range n_nodes).foldl
    (fun s _ => { file := print_ascii s.file s.i_corner, i_corner := s.i_corner + 1 }) s

/-- Body of the loop over the elements in the corner branch of
`write_msh_ascii_data`: the head of the line, the corner values, the line end.
Reading `id_vec[i]` or `*it` past the end is undefined in C++; the embedding
reads 0 there. -/
def corner_step {σ : Type} (os : OStream σ) (print_ascii : σ → Nat → σ)
    (output_mesh : List OutputElement) (id_vec : List Nat) (s : CornerLoop σ) (i : Nat) :
    CornerLoop σ :=
  let it := output_mesh.getD i ⟨0⟩
  let file := os.str (os.uint (os.str (os.uint s.file (id_vec.getD i 0)) " ") it.n_nodes) " "
  let s1 := print_corners print_ascii it.n_nodes { s with file := file }
  { s1 with file := os.endl s1.file }

/-- Method `OutputMSH::write_msh_ascii_data(id_cache, output_data, discont)`.
`id_vec` is row 0 of `id_cache`, `output_mesh` the elements visited by the
iterator `it`, `print_ascii` and `n_values` the virtual methods of
`output_data`, `file` the stream `_base_file`; the result is the stream
afterwards. `std::numeric_limits<double>::digits10` is 15. -/
def write_msh_ascii_data {σ : Type} (os : OStream σ) (print_ascii : σ → Nat → σ)
    (n_values : Nat) (output_mesh : List OutputElement) (id_vec : List Nat) (file : σ)
    (discont : Bool) : σ :=
  let file := os.precision file 15
  if discont then
    ((List.range id_vec.length).foldl (corner_step os print_ascii output_mesh id_vec)
      { file := file, i_corner := 0 }).file
  else
    (List.range n_values).foldl
      (fun file i => os.endl (print_ascii (os.str (os.uint file (id_vec.getD i 0)) " ") i))
      file

/-- What happens to the stream, recorded one event per operation. -/
inductive StreamEvent where
  | text (s : String)
  | number (n : Nat)
  | newline
  | precision (n : Nat)
  | print_ascii (idx : Nat)
  deriving DecidableEq, Repr

/-- The stream that records the operations applied to it, in order. -/
def recorder : OStream (List StreamEvent) where
  str file s := file ++ [StreamEvent.text s]
  uint file n := file ++ [StreamEvent.number n]
  endl file := file ++ [StreamEvent.newline]
  precision file n := file ++ [StreamEvent.precision n]

/-- The virtual `print_ascii` on the recording stream: records its index. -/
def record_print_ascii (file : List StreamEvent) (idx : Nat) : List StreamEvent :=
  file ++ [StreamEvent.print_ascii idx]

/-- The indices of the `print_ascii` calls among recorded events, in order. -/
def printed_indices : List StreamEvent → List Nat
  | [] => []
  | StreamEvent.print_ascii idx :: rest => idx :: printed_indices rest
  | _ :: rest => printed_indices rest

/-- The corner records as the specification words them: for each element in
mesh order one line made of the element id, the node count `n`, then
`print_ascii` for the `n` corner indices from `i_corner` on, then the line
end. -/
def corner_records {σ : Type} (os : OStream σ) (print_ascii : σ → Nat → σ) :
    Nat → List (Nat × OutputElement) → σ → σ
  | _, [], file => file
  | i_corner, (id, ele) :: rest, file =>
    let head := os.str (os.uint (os.str (os.uint file id) " ") ele.n_nodes) " "
    let body := (List.range' i_corner ele.n_nodes).foldl print_ascii head
    corner_records os print_ascii (i_corner + ele.n_nodes) rest (os.endl body)

/-! ## GMSH writer: placeholders for inactive fields (output_msh.cc lines 32-75, 94-102, 325-348) -/

/-- The discrete spaces that index `output_data_vec_` and `dummy_data_list_`
(`OutputTime::DiscreteSpace`). -/
inductive DiscreteSpace where
  | NODE_DATA
  | CORNER_DATA
  | ELEM_DATA
  | NATIVE_DATA
  deriving DecidableEq, Repr

/-- What the writer sees of an object behind an `OutputDataPtr`: the members
`field_input_name_`, `n_elem_`, `n_values_` of `ElementDataCacheBase`, and
whether the dynamic type of the object is `DummyOutputData`. -/
structure ElementDataCacheBase where
  field_input_name_ : String
  n_elem_ : Nat
  n_values_ : Nat
  is_dummy : Bool
  deriving DecidableEq, Repr

/-- Constructor `DummyOutputData(field_name_in, n_elem_in)`. -/
def DummyOutputData (field_name_in : String) (n_elem_in : Nat) : ElementDataCacheBase :=
  { field_input_name_ := field_name_in
    n_elem_ := n_elem_in
    n_values_ := 1
    is_dummy := true }

/-- Method `DummyOutputData::print_ascii(out_stream, idx)`: the loop
`for (i < n_elem_) out_stream << 0 << " "`. -/
def DummyOutputData.print_ascii (d : ElementDataCacheBase) (out_stream : String) (_idx : Nat) :
    String :=
  (List.range d.n_elem_).foldl (fun out _ => out ++ "0" ++ " ") out_stream

/-- Method `DummyOutputData::print_ascii_all(out_stream)`: the same loop. -/
def DummyOutputData.print_ascii_all (d : ElementDataCacheBase) (out_stream : String) : String :=
  (List.range d.n_elem_).foldl (fun out _ => out ++ "0" ++ " ") out_stream

/-- The part of the state of `OutputMSH` used here; the two tables are indexed
by the discrete space. -/
structure OutputMSH where
  enable_refinement_ : Bool
  header_written : Bool
  dummy_data_list_ : DiscreteSpace → List ElementDataCacheBase
  output_data_vec_ : DiscreteSpace → List ElementDataCacheBase

/-- Constructor `OutputMSH::OutputMSH()`; `output_data_vec_` belongs to the base
class and is passed in. -/
def OutputMSH.construct (output_data_vec_ : DiscreteSpace → List ElementDataCacheBase) :
    OutputMSH :=
  { enable_refinement_ := false
    header_written := false
    dummy_data_list_ := fun _ => []
    output_data_vec_ := output_data_vec_ }

/-- Body of the loop over `dummy_data_list` in `add_dummy_fields`. The state is
`data_list` and the iterator `data_it`, kept as a position in `data_list`;
`data_it == data_list.end()` is the position past the last entry. (In C++ a
`push_back` may move the storage of the vector under the iterator; the
embedding follows the positions.) -/
def add_dummy_step (s : List ElementDataCacheBase × Nat) (dummy : ElementDataCacheBase) :
    List ElementDataCacheBase × Nat :=
  match s.1[s.2]? with
  | none => (s.1 ++ [dummy], s.2)
  | some data =>
    if dummy.field_input_name_ = data.field_input_name_ then (s.1, s.2 + 1)
    else (s.1 ++ [dummy], s.2)

/-- Body of the loop over the discrete spaces in `add_dummy_fields`, on the two
lists of one space; the result is `(dummy_data_list, data_list)` afterwards. -/
def add_dummy_fields_space (dummy_data_list data_list : List ElementDataCacheBase) :
    List ElementDataCacheBase × List ElementDataCacheBase :=
  let dummy_data_list :=
    if dummy_data_list.length = 0 then
      data_list.foldl
        (fun acc out_ptr => acc ++ [DummyOutputData out_ptr.field_input_name_ out_ptr.n_elem_])
        dummy_data_list
    else dummy_data_list
  (dummy_data_list, (dummy_data_list.foldl add_dummy_step (data_list, 0)).1)

/-- The vector `space_types` of `add_dummy_fields`. -/
def space_types : List DiscreteSpace :=
  [DiscreteSpace.NODE_DATA, DiscreteSpace.CORNER_DATA, DiscreteSpace.ELEM_DATA]

/-- Method `OutputMSH::add_dummy_fields()`. -/
def OutputMSH.add_dummy_fields (m : OutputMSH) : OutputMSH :=
  space_types.foldl
    (fun m type_idx =>
      let r := add_dummy_fields_space (m.dummy_data_list_ type_idx) (m.output_data_vec_ type_idx)
      { m with
        dummy_data_list_ := Function.update m.dummy_data_list_ type_idx r.1
        output_data_vec_ := Function.update m.output_data_vec_ type_idx r.2 })
    m

/-- The field names of a list of output data, in order. -/
def field_names (l : List ElementDataCacheBase) : List String :=
  l.map (fun p => p.field_input_name_)

/-! ## Common part of fields (src/fields/field_common.hh)

Time values are of a linearly ordered type `T`; `last_time_` is `none` while it
holds the initial value minus infinity. -/

/-- Left and right time limit (`enum class LimitSide`). -/
inductive LimitSide where
  | left
  | right
  deriving DecidableEq, Repr

/-- Result of the last `set_time` (`enum class TimeStatus`). -/
inductive TimeStatus where
  | changed
  | constant
  | changed_forced
  | unknown
  deriving DecidableEq, Repr

/-- Exceptions and failed assertions raised by the field classes. -/
inductive FieldError where
  | ExcInputMessage (msg : String)
  | AssertFailed (msg : String)
  | ExcNonascendingTime (field : String)
  | ExcMissingFieldValue (input_name field_name : String) (reg_id : Nat)
  deriving DecidableEq, Repr

/-- The members of `FieldCommon::SharedData` that the embedded methods use. -/
structure SharedData where
  n_comp_ : Nat
  comp_names_ : List String
  input_name_ : String
  input_description_ : String
  input_default_ : String
  list_idx_ : Nat
  is_fully_initialized_ : Bool
  deriving DecidableEq, Repr

/-- State of a `FieldCommon` object; `shared_` is the block behind the shared
pointer. -/
structure FieldCommon (T : Type) where
  name_ : String
  shared_ : SharedData
  set_time_result_ : TimeStatus
  last_time_ : Option T
  last_limit_side_ : LimitSide
  is_jump_time_ : Bool
  component_index_ : Nat
  multifield_ : Bool
  deriving DecidableEq, Repr

/-- Getter `input_name()`. -/
def FieldCommon.input_name {T : Type} (f : FieldCommon T) : String :=
  f.shared_.input_name_

/-- Getter `name()`. -/
def FieldCommon.name {T : Type} (f : FieldCommon T) : String :=
  f.name_

/-- Getter `n_comp()`: the size of `comp_names_`. -/
def FieldCommon.n_comp {T : Type} (f : FieldCommon T) : Nat :=
  f.shared_.comp_names_.length

/-- Algorithm `std::unique`: of every run of equal neighbours the first is
kept. -/
def std_unique : List String → List String
  | [] => []
  | [a] => [a]
  | a :: b :: rest => if a = b then std_unique (b :: rest) else a :: std_unique (b :: rest)

/-- Algorithm `std::sort` on strings: the ascending arrangement. -/
def std_sort (l : List String) : List String :=
  l.insertionSort (fun a b => a ≤ b)

/-- Method `set_components(names)`, field_common.hh lines 201-224. When the
exception is thrown the object is in the state it had at the `THROW`, which
the error carries along. -/
def FieldCommon.set_components {T : Type} (f : FieldCommon T) (names : List String) :
    Except (FieldError × FieldCommon T) (FieldCommon T) :=
  if f.multifield_ then
    let cpy := std_unique (std_sort names)
    if names.length ≠ cpy.length then
      Except.error
        (FieldError.ExcInputMessage
          ("The field " ++ f.input_name ++ " has set non-unique names of components."), f)
    else
      Except.ok
        { f with shared_ := { f.shared_ with n_comp_ := names.length, comp_names_ := names } }
  else
    Except.ok
      { f with
        shared_ :=
          { f.shared_ with
            n_comp_ := if f.shared_.n_comp_ ≠ 0 then names.length else 0
            comp_names_ := names } }

/-- Method `full_comp_name(i_comp)`, lines 272-282. The `ASSERT_LT` in it only
builds the assertion object; reading `comp_names_[i_comp]` out of range is
undefined and gives `none` here. -/
def FieldCommon.full_comp_name {T : Type} (f : FieldCommon T) (i_comp : Nat) : Option String :=
  match f.shared_.comp_names_[i_comp]? with
  | some comp_name => some (if comp_name = "" then f.name else comp_name ++ "_" ++ f.name)
  | none => none

/-- Method `changed()`, lines 357-366. -/
def FieldCommon.changed {T : Type} (f : FieldCommon T) : Except FieldError Bool :=
  if f.set_time_result_ ≠ TimeStatus.unknown then
    Except.ok (f.set_time_result_ = TimeStatus.changed ||
      f.set_time_result_ = TimeStatus.changed_forced)
  else Except.error (FieldError.AssertFailed "Invalid time status.")

/-- Method `set_time_result_changed()`, lines 751-753. -/
def FieldCommon.set_time_result_changed {T : Type} (f : FieldCommon T) : FieldCommon T :=
  { f with set_time_result_ := TimeStatus.changed_forced }

/-- Method `is_jump_time()`. -/
def FieldCommon.is_jump_time {T : Type} (f : FieldCommon T) : Bool :=
  f.is_jump_time_

/-- Method `set_history_changed()`: `last_time_` back to minus infinity. -/
def FieldCommon.set_history_changed {T : Type} (f : FieldCommon T) : FieldCommon T :=
  { f with last_time_ := none }

/-! ## Time dispatch of a field (specification section 4.1)

`FieldCommon::set_time` is pure virtual; its implementation in the class
template `Field` is outside the sources. -/

/-- Modelled from the spec: one entry of the `input_list` of a field (section
3): a time, a region selector (`none` selects all regions) and the identity of
the algorithm descriptor. -/
structure Descriptor (T : Type) where
  time : T
  region : Option Nat
  algorithm : Nat
  deriving DecidableEq, Repr

/-- Modelled from the spec: the data of a Field (section 3) that `set_time`
works on: the common part with `last_time`, `last_limit_side`,
`set_time_result` and `is_jump_time`; the regions the field is declared over;
the `input_list`; the algorithm built from the default value, if one is
declared; and the active algorithm of each region. -/
structure Field (T : Type) where
  common : FieldCommon T
  regions : List Nat
  input_list : List (Descriptor T)
  default_algorithm : Option Nat
  active : List (Nat × Nat)
  deriving DecidableEq, Repr

/-- Modelled from the spec: the latest descriptor for region `reg` among those
whose time satisfies `visible`; of two descriptors with equal time the later
one in the list wins. -/
def Field.latest {T : Type} [LinearOrder T] (f : Field T) (reg : Nat) (visible : T → Bool) :
    Option (Descriptor T) :=
  f.input_list.foldl
    (fun best d =>
      if (d.region = none ∨ d.region = some reg) ∧ visible d.time = true then
        match best with
        | none => some d
        | some b => if b.time ≤ d.time then some d else some b
      else best)
    none

/-- Modelled from the spec: the algorithm resolved for a region at `time` on
the given side. A descriptor exactly at `time` is visible to a right-side
query; for a left-side query an earlier descriptor is preferred. Without any
descriptor the declared default is used. -/
def Field.resolve {T : Type} [LinearOrder T] (f : Field T) (reg : Nat) (time : T)
    (limit_side : LimitSide) : Option Nat :=
  let at_or_before := (f.latest reg (fun t => decide (t ≤ time))).map (fun d => d.algorithm)
  let before := (f.latest reg (fun t => decide (t < time))).map (fun d => d.algorithm)
  let found :=
    match limit_side with
    | LimitSide.right => at_or_before
    | LimitSide.left => before.orElse (fun _ => at_or_before)
  found.orElse (fun _ => f.default_algorithm)

/-- The active algorithm of a region. -/
def Field.active_on {T : Type} (f : Field T) (reg : Nat) : Option Nat :=
  (f.active.find? (fun ra => ra.1 == reg)).map (fun ra => ra.2)

/-- Modelled from the spec: `set_time(time, limit_side)` (section 4.1, and the
idempotence property of section 8). Re-evaluating at the same (time, side) is
a no-op that reports `changed()`. A time before `last_time` is the
non-ascending-time error. On the first call every region must resolve to an
algorithm or the default, else the missing-field-value error. Otherwise each
region gets the resolved algorithm; the result, cached as `set_time_result`,
is true iff the active algorithm of some region changed; `is_jump_time` is set
when the left and right resolutions differ for some region. -/
def Field.set_time {T : Type} [LinearOrder T] (f : Field T) (time : T) (limit_side : LimitSide) :
    Except FieldError (Field T × Bool) :=
  if f.common.last_time_ = some time ∧ f.common.last_limit_side_ = limit_side then
    match f.common.changed with
    | Except.ok c => Except.ok (f, c)
    | Except.error e => Except.error e
  else if (match f.common.last_time_ with
      | some last => decide (time < last)
      | none => false) = true then
    Except.error (FieldError.ExcNonascendingTime f.common.name)
  else
    match (if f.common.shared_.is_fully_initialized_ then none
        else f.regions.find? (fun reg => (f.resolve reg time limit_side).isNone)) with
    | some reg =>
      Except.error (FieldError.ExcMissingFieldValue f.common.input_name f.common.name reg)
    | none =>
      let resolved : List (Nat × Nat) :=
        f.regions.filterMap (fun reg =>
          match f.resolve reg time limit_side with
          | some a => some (reg, a)
          | none => (f.active_on reg).map (fun a => (reg, a)))
      let changed : Bool :=
        f.regions.any (fun reg =>
          decide (f.active_on reg ≠ (resolved.find? (fun ra => ra.1 == reg)).map (fun ra => ra.2)))
      let jump : Bool :=
        f.regions.any (fun reg =>
          decide (f.resolve reg time LimitSide.left ≠ f.resolve reg time LimitSide.right))
      Except.ok
        ({ f with
            common :=
              { f.common with
                shared_ := { f.common.shared_ with is_fully_initialized_ := true }
                set_time_result_ := if changed then TimeStatus.changed else TimeStatus.constant
                last_time_ := some time
                last_limit_side_ := limit_side
                is_jump_time_ := jump }
            active := resolved },
          changed)

/-! ## Pade approximant of the decay matrix (src/reaction/pade_approximant.cc) -/

/-- Product of two `unsigned int` values: the result is reduced modulo 2^32. -/
def umul (a b : Nat) : Nat :=
  (a * b) % 2 ^ 32

/-- The loop `while (k > 1) { fact *= k; k--; }` of `factorial`, by recursion on
the loop variable `k`. -/
def factorial_loop : Nat → Nat → Nat
  | 0, fact => fact
  | k + 1, fact => if k + 1 > 1 then factorial_loop k (umul fact (k + 1)) else fact

/-- Method `PadeApproximant::factorial(int k)`, lines 339-350. For negative `k`
the loop body never runs (the old-style `ASSERT` is a debugging aid). -/
def PadeApproximant.factorial (k : Int) : Nat :=
  factorial_loop k.toNat 1

/-- State of a `PadeApproximant` as far as the embedded methods read it. -/
structure PadeApproximant where
  nom_pol_deg : Int
  den_pol_deg : Int
  n_substances_ : Nat
  deriving DecidableEq, Repr

/-- The value assigned to `nominator_coefs[j]` (lines 130-131): the numerator is
an `unsigned int` product converted to `double`, the divisor an `unsigned int`
product. Doubles are exact rationals. -/
def PadeApproximant.nominator_coef (pa : PadeApproximant) (nom_fact nom_den_fact : Nat)
    (j : Nat) : ℚ :=
  ((umul (PadeApproximant.factorial (pa.nom_pol_deg + pa.den_pol_deg - j)) nom_fact : Nat) : ℚ) /
    ((umul (umul nom_den_fact (PadeApproximant.factorial j))
      (PadeApproximant.factorial (pa.nom_pol_deg - j)) : Nat) : ℚ)

/-- The value assigned to `denominator_coefs[i]` (lines 137-139). -/
def PadeApproximant.denominator_coef (pa : PadeApproximant) (den_fact nom_den_fact : Nat)
    (i : Nat) : ℚ :=
  let sign : Int := if i % 2 = 0 then 1 else -1
  (sign : ℚ) *
      ((umul (PadeApproximant.factorial (pa.nom_pol_deg + pa.den_pol_deg - i)) den_fact : Nat) : ℚ) /
    ((umul (umul nom_den_fact (PadeApproximant.factorial i))
      (PadeApproximant.factorial (pa.den_pol_deg - i)) : Nat) : ℚ)

/-- Method `compute_exp_coefs(nominator_degree, denominator_degree,
nominator_coefs, denominator_coefs)`, lines 117-142; the result is the content
of the two vectors afterwards. An assignment to a vector position past its
end is undefined in C++ and changes nothing here. -/
def PadeApproximant.compute_exp_coefs (pa : PadeApproximant)
    (nominator_degree denominator_degree : Nat) (nominator_coefs denominator_coefs : List ℚ) :
    List ℚ × List ℚ :=
  let nom_fact := PadeApproximant.factorial nominator_degree
  let den_fact := PadeApproximant.factorial denominator_degree
  let nom_den_fact := PadeApproximant.factorial (nominator_degree + denominator_degree : Nat)
  let nominator_coefs :=
    (List.range (nominator_degree + 1)).reverse.foldl
      (fun v j => v.set j (pa.nominator_coef nom_fact nom_den_fact j)) nominator_coefs
  let denominator_coefs :=
    (List.range (denominator_degree + 1)).reverse.foldl
      (fun v i => v.set i (pa.denominator_coef den_fact nom_den_fact i)) denominator_coefs
  (nominator_coefs, denominator_coefs)

/-- Method `evaluate_matrix_polynomial(polynomial_matrix, reaction_matrix, coefs)`,
lines 144-157: the Horner loop `for (i = coefs.size()-1; i >= 0; i--)`. The
matrices are square of size `n_substances_`; the result is `polynomial_matrix`
afterwards. -/
def PadeApproximant.evaluate_matrix_polynomial {α : Type} [CommRing α] {n_substances_ : Nat}
    (polynomial_matrix reaction_matrix : Matrix (Fin n_substances_) (Fin n_substances_) α)
    (coefs : List α) : Matrix (Fin n_substances_) (Fin n_substances_) α :=
  let identity : Matrix (Fin n_substances_) (Fin n_substances_) α := 1
  (List.range coefs.length).reverse.foldl
    (fun polynomial_matrix i => coefs.getD i 0 • identity + polynomial_matrix * reaction_matrix)
    polynomial_matrix

/-! ## Intersection points (src/intersection/intersectionpoint.cpp) -/

/-- The local coordinates of an `IntersectionPoint<2,3>`: `local_coords1` has 3
entries (on the triangle), `local_coords2` has 4 (on the tetrahedron).
Coordinates that are not NaN form a linear order `α`. -/
structure IntersectionPoint (α : Type) where
  local_coords1 : Fin 3 → α
  local_coords2 : Fin 4 → α

/-- Getter `getLC1()`. -/
def IntersectionPoint.getLC1 {α : Type} (ip : IntersectionPoint α) : Fin 3 → α :=
  ip.local_coords1

/-- The comparison `IntersectionPoint<2,3>::operator<`, lines 12-16. -/
def IntersectionPoint.lt {α : Type} [LinearOrder α] (self ip : IntersectionPoint α) : Bool :=
  decide (self.local_coords1 1 < ip.getLC1 1) ||
    (decide (self.local_coords1 1 = ip.getLC1 1) &&
      decide (self.local_coords1 2 < ip.getLC1 2))

/-! ## The arithmetic of `double` -/

/-- The loop of `bit_length`; `fuel` bounds the number of halvings. -/
def bit_length_loop : Nat → Nat → Nat
  | 0, _ => 0
  | fuel + 1, n => if n = 0 then 0 else bit_length_loop fuel (n / 2) + 1

/-- The number of binary digits of `n`: the least `a` with `n < 2^a`. -/
def bit_length (n : Nat) : Nat := bit_length_loop n n

/-- The integer nearest to `num / den`, the even one of the two when
`num / den` lies half way between them. -/
def round_half_even (num den : Nat) : Nat :=
  let fl := num / den
  let r := num % den
  if 2 * r < den then fl
  else if den < 2 * r then fl + 1
  else if fl % 2 = 0 then fl else fl + 1

/-- The positive rational `num / den` rounded to the nearest number with a
significand of `p` binary digits, ties to the even significand. With
`2^L <= num / den < 2^(L+1)` the result is the multiple of `2^(L-p+1)` nearest
to `num / den`. -/
def round_positive (p num den : Nat) : ℚ :=
  let a := bit_length num
  let b := bit_length den
  let ge : Bool :=
    if b ≤ a then decide (den * 2 ^ (a - b) ≤ num) else decide (den ≤ num * 2 ^ (b - a))
  let L : Int := if ge then (a : Int) - b else (a : Int) - b - 1
  let e : Int := L - ((p : Int) - 1)
  if 0 ≤ e then ((round_half_even num (den * 2 ^ e.toNat) * 2 ^ e.toNat : Nat) : ℚ)
  else ((round_half_even (num * 2 ^ (-e).toNat) den : Nat) : ℚ) / ((2 ^ (-e).toNat : Nat) : ℚ)

/-- Rounding to `double`: the nearest number with a significand of 53 binary
digits, ties to the even significand (IEEE 754 binary64 in its default
rounding mode). The exponent is not bounded: a result of the code that
overflows to an infinity or falls into the subnormal range is outside this
embedding. -/
def round64 (q : ℚ) : ℚ :=
  if q = 0 then 0
  else if q < 0 then -(round_positive 53 q.num.natAbs q.den)
  else round_positive 53 q.num.natAbs q.den

/-- A finite `double`, given by its value. Every arithmetic operation returns
the exact result rounded to `double`; infinities, NaN and the quotient by
zero are outside this embedding. -/
structure Binary64 where
  val : ℚ
  deriving DecidableEq

instance instAddBinary64 : Add Binary64 where
  add a b := ⟨round64 (a.val + b.val)⟩

instance instSubBinary64 : Sub Binary64 where
  sub a b := ⟨round64 (a.val - b.val)⟩

instance instMulBinary64 : Mul Binary64 where
  mul a b := ⟨round64 (a.val * b.val)⟩

instance instDivBinary64 : Div Binary64 where
  div a b := ⟨round64 (a.val / b.val)⟩

/-- The conversion of an integer literal such as `6.0`. -/
instance instNatCastBinary64 : NatCast Binary64 where
  natCast n := ⟨round64 n⟩

/-! ## Element geometry (src/mesh/accessors_impl.hh lines 68-106) -/

/-- The function `fabs` of an element type. -/
class Fabs (α : Type) where
  fabs : α → α

/-- Exact arithmetic: the absolute value. -/
instance instFabsLinearOrderedField {α : Type} [LinearOrderedField α] : Fabs α where
  fabs x := |x|

/-- The function `fabs` on `double`: the sign is cleared, nothing is rounded. -/
instance instFabsBinary64 : Fabs Binary64 where
  fabs x := ⟨|x.val|⟩

/-- A point or vector of `arma::vec3`. -/
structure Vec3 (α : Type) where
  x : α
  y : α
  z : α
  deriving DecidableEq, Repr

/-- Difference of two vectors. -/
def Vec3.sub {α : Type} [Sub α] (a b : Vec3 α) : Vec3 α :=
  ⟨a.x - b.x, a.y - b.y, a.z - b.z⟩

/-- The classification returned by `field_result` (`FieldResult`). -/
inductive FieldResult where
  | result_none
  | result_other
  | result_constant
  | result_zeros
  | result_ones
  | result_eye
  deriving DecidableEq, Repr

/-- The statements of `assembly_linear_system` that act on the object or on its
collaborators, one constructor per call or assignment. The bodies of the
called methods are outside the sources. -/
inductive DarcyCall where
  | START_TIMER (tag : String)
  | start_mass_assembly
  | VecScatterBegin
  | VecScatterEnd
  | start_add_assembly
  | create_assembly
  | mat_zero_entries
  | rhs_zero_entries
  | assembly_source_term
  | assembly_mh_matrix
  | finish_assembly
  | set_matrix_changed
  | set_solution_changed_for_scatter
  | VecSwap
  | finish_mass_assembly
  deriving DecidableEq, Repr

/-- The local variable `is_steady` of `assembly_linear_system` (line 172);
`storativity_result` is the value of
`data_.storativity.field_result(region_set("BULK"))`. -/
def is_steady (storativity_result : FieldResult) : Bool :=
  storativity_result == FieldResult.result_zeros

/-- The calls and assignments that `assembly_linear_system` performs, in order.
`has_balance` is `balance_ != nullptr`, `is_bddc` is
`typeid(*schur0) == typeid(LinSys_BDDC)`. -/
def assembly_linear_system_calls (storativity_result : FieldResult) (has_balance is_bddc : Bool) :
    List DarcyCall :=
  [DarcyCall.START_TIMER "RicharsLMH::assembly_linear_system"] ++
  (if has_balance then [DarcyCall.start_mass_assembly] else []) ++
  [DarcyCall.VecScatterBegin, DarcyCall.VecScatterEnd] ++
  [DarcyCall.START_TIMER "full assembly"] ++
  (if !is_bddc then [DarcyCall.start_add_assembly] else []) ++
  [DarcyCall.create_assembly, DarcyCall.mat_zero_entries, DarcyCall.rhs_zero_entries,
    DarcyCall.assembly_source_term, DarcyCall.assembly_mh_matrix, DarcyCall.finish_assembly,
    DarcyCall.set_matrix_changed] ++
  (if !is_steady storativity_result then
    [DarcyCall.START_TIMER "fix time term", DarcyCall.set_solution_changed_for_scatter,
      DarcyCall.VecSwap]
   else []) ++
  (if has_balance then [DarcyCall.finish_mass_assembly] else [])

/-- Method `DarcyFlowLMH_Unsteady::assembly_linear_system()` on a state of type
`σ`: `exec` carries out one call or assignment. -/
def assembly_linear_system {σ : Type} (exec : σ → DarcyCall → σ) (storativity_result : FieldResult)
    (has_balance is_bddc : Bool) (state : σ) : σ :=
  (assembly_linear_system_calls storativity_result has_balance is_bddc).foldl exec state

/-! ## GMSH writer: time frames (output_msh.cc lines 112-120, 191-314) -/

/-- The input record of a mesh, as far as `get_reader` reads it: the value of
the key `mesh_file`, as a string. -/
structure MeshRecord where
  mesh_file : String
  deriving DecidableEq, Repr

/-- The two reader classes. -/
inductive ReaderKind where
  | GmshMeshReader
  | VtkMeshReader
  deriving DecidableEq, Repr

/-- A reader object behind a shared pointer: `object_id` tells objects apart
(two objects made by two `make_shared` calls differ in it). -/
structure BaseMeshReader where
  kind : ReaderKind
  object_id : Nat
  mesh_rec : MeshRecord
  deriving DecidableEq, Repr

/-- The exception `BaseMeshReader::ExcWrongExtension` with its two error
infos. -/
structure ExcWrongExtension where
  EI_FileExtension : String
  EI_MeshFile : String
  deriving DecidableEq, Repr

/-- State of `ReaderInstances`: the `reader_table_` (a map from the file path to
the reader, kept as a list of its entries) and the number of reader objects
made so far. -/
structure ReaderInstances where
  reader_table_ : List (String × BaseMeshReader)
  n_objects : Nat
  deriving DecidableEq, Repr

/-- Method `ReaderInstances::get_reader(mesh_rec)`, lines 27-45. `extension`
stands for `FilePath::extension()`, defined outside the sources. The result
is the returned pointer and the state afterwards, or the exception and the
state at the `THROW`. -/
def ReaderInstances.get_reader (extension : String → String) (ri : ReaderInstances)
    (mesh_rec : MeshRecord) :
    Except (ExcWrongExtension × ReaderInstances) (BaseMeshReader × ReaderInstances) :=
  let file_path := mesh_rec.mesh_file
  match ri.reader_table_.lookup file_path with
  | none =>
    let made : Option BaseMeshReader :=
      if extension file_path = ".msh" then
        some ⟨ReaderKind.GmshMeshReader, ri.n_objects, mesh_rec⟩
      else if extension file_path = ".vtu" then
        some ⟨ReaderKind.VtkMeshReader, ri.n_objects, mesh_rec⟩
      else none
    match made with
    | some reader_ptr =>
      Except.ok (reader_ptr,
        { reader_table_ := ri.reader_table_ ++ [(file_path, reader_ptr)]
          n_objects := ri.n_objects + 1 })
    | none => Except.error (⟨extension file_path, file_path⟩, ri)
  | some reader => Except.ok (reader, ri)

/-- Every path in the table has one of the two accepted extensions. -/
def ReaderInstances.extensions_ok (extension : String → String) (ri : ReaderInstances) : Prop :=
  ∀ entry ∈ ri.reader_table_, extension entry.1 = ".msh" ∨ extension entry.1 = ".vtu"

/-- The state after one request, whether it returned or threw. -/
def ReaderInstances.after_request (extension : String → String) (ri : ReaderInstances)
    (mesh_rec : MeshRecord) : ReaderInstances :=
  match ri.get_reader extension mesh_rec with
  | Except.ok (_, ri) => ri
  | Except.error (_, ri) => ri

/-- The state after a sequence of requests, each exception being caught by
the caller. -/
def ReaderInstances.after_requests (extension : String → String) (ri : ReaderInstances)
    (requests : List MeshRecord) : ReaderInstances :=
  requests.foldl (ReaderInstances.after_request extension) ri

/-! ## Incidence of nodes and elements (src/mesh/topology.cc lines 104-139) -/

namespace Topology

/-- A node of the mesh as far as `node_to_element` uses it: the counter
`n_elements`, the array `element` of the incident elements (an entry is `none`
until it is assigned) and the auxiliary counter `aux`. -/
structure Node where
  n_elements : Nat
  element : List (Option Nat)
  aux : Nat
  deriving DecidableEq, Repr

/-- An element: `node[li]` for `li < n_nodes`, each a position in the node
vector of the mesh. -/
structure Element where
  node : List Nat
  deriving DecidableEq, Repr

/-- The mesh: its nodes and its elements, in iteration order. -/
structure Mesh where
  node_vector : List Node
  element : List Element
  deriving DecidableEq, Repr

/-- Body of the counting loop: `nod = ele->node[li]; (nod->n_elements)++`.
The result is `none` when `nod` points outside the node vector. -/
def count_node (node_vector : List Node) (nod : Nat) : Option (List Node) :=
  if nod < node_vector.length then
    some (node_vector.modify (fun n => { n with n_elements := n.n_elements + 1 }) nod)
  else none

/-- Body of the allocating loop. -/
def allocate (nod : Node) : Node :=
  if nod.n_elements = 0 then nod
  else { nod with element := List.replicate nod.n_elements none, aux := 0 }

/-- Body of the last loop: `nod->element[nod->aux] = ele; (nod->aux)++`. The
result is `none` when `nod` points outside the node vector or `nod->aux` is
outside the array. -/
def set_pointer (ele : Nat) (node_vector : List Node) (nod : Nat) : Option (List Node) :=
  match node_vector[nod]? with
  | none => none
  | some n =>
    if n.aux < n.element.length then
      some (node_vector.set nod
        { n with element := n.element.set n.aux (some ele), aux := n.aux + 1 })
    else none

/-- Function `node_to_element(mesh)`, lines 104-139. An element is named by
its position in the iteration over the elements. -/
def node_to_element (mesh : Mesh) : Option Mesh := do
  let node_vector := mesh.node_vector.map (fun nod => { nod with n_elements := 0 })
  let node_vector ← mesh.element.foldlM (fun nv ele => ele.node.foldlM count_node nv) node_vector
  let node_vector := node_vector.map allocate
  let node_vector ← mesh.element.enum.foldlM
    (fun nv (e : Nat × Element) => e.2.node.foldlM (set_pointer e.1) nv) node_vector
  return { mesh with node_vector := node_vector }

/-- The pairs (element, node) for every element and every local node index,
in iteration order. -/
def pairs (i : Nat) (element : List Element) : List (Nat × Nat) :=
  (element.enumFrom i).flatMap (fun e => e.2.node.map (fun nod => (e.1, nod)))

/-- The elements of the pairs whose node is `k`, in order. -/
def incident_of (ps : List (Nat × Nat)) (k : Nat) : List Nat :=
  (ps.filter (fun p => decide (p.2 = k))).map Prod.fst

/-- The elements incident with node `k`, once per local node index, in mesh
iteration order. -/
def incident (mesh : Mesh) (k : Nat) : List Nat :=
  incident_of (pairs 0 mesh.element) k

end Topology

/-! ## Sample objects -/

/-- Memory content that reads as zero everywhere. -/
def zero_mem : Nat → Int := fun _ => 0

/-- The object built for a 3-vector field over 4 values. -/
def sample_vector_data : OutputData Int :=
  { field_name := "velocity"
    output_field_name := "velocity"
    n_values := 4
    n_elem_ := 3
    n_rows := 3
    n_cols := 1
    data_ := [List.replicate 12 0]
    arr_ptr := zero_mem }

/-- The object built for a value shape padded to 3x3, over 2 values. -/
def sample_tensor_data (field_name : String) : OutputData Int :=
  { field_name := field_name
    output_field_name := field_name
    n_values := 2
    n_elem_ := 9
    n_rows := 3
    n_cols := 3
    data_ := [List.replicate 18 0]
    arr_ptr := zero_mem }

/-- A scalar buffer of the element type `int` over 2 values, holding stale
content. -/
def sample_integer_data : OutputData Int :=
  { field_name := "region_id"
    output_field_name := "region_id"
    n_values := 2
    n_elem_ := 1
    n_rows := 1
    n_cols := 1
    data_ := [[5, 6]]
    arr_ptr := zero_mem }

/-- A scalar buffer of the element type `unsigned int` over 2 values. -/
def sample_enum_data : OutputData Nat :=
  { field_name := "material"
    output_field_name := "material"
    n_values := 2
    n_elem_ := 1
    n_rows := 1
    n_cols := 1
    data_ := [[5, 6]]
    arr_ptr := fun _ => 0 }

/-- A scalar buffer over 3 values in exact arithmetic, holding stale content. -/
def sample_scalar_data : OutputData ℚ :=
  { field_name := "pressure"
    output_field_name := "pressure"
    n_values := 3
    n_elem_ := 1
    n_rows := 1
    n_cols := 1
    data_ := [[5, 6, 7]]
    arr_ptr := fun _ => 9 }

/-- A mesh of two line elements sharing their middle node: nodes 0, 1, 2 with
points 0, 1, 2 and elements (0, 1) and (1, 2). -/
def sample_mesh : Legacy.Mesh Nat :=
  { n_nodes := 3
    element :=
      [ { node := [⟨0, 0⟩, ⟨1, 1⟩], centre := 0 },
        { node := [⟨1, 1⟩, ⟨2, 2⟩], centre := 1 } ] }

/-- An integer field on `sample_mesh` that is 10 on element 0 and 20 on
element 1, at every point. -/
def sample_field : Legacy.Field Nat Int :=
  { id := 7
    value := fun _ i => if i = 0 then 10 else 20
    time := 0
    mesh := sample_mesh }

/-- An output stream on rank 0 with nothing staged yet. -/
def sample_output_time : Legacy.OutputTime Nat Int :=
  { rank := 0, mesh := none, node_data := [], corner_data := [], elem_data := [], time := 0 }

/-- A scalar buffer whose two values are both negative. -/
def sample_negative_data : OutputData ℚ :=
  { field_name := "pressure_head"
    output_field_name := "pressure_head"
    n_values := 2
    n_elem_ := 1
    n_rows := 1
    n_cols := 1
    data_ := [[-1, -2]]
    arr_ptr := fun _ => 0 }

/-- Output data of a scalar field with the given name, over 5 values. -/
def sample_cache (name : String) : ElementDataCacheBase :=
  { field_input_name_ := name, n_elem_ := 1, n_values_ := 5, is_dummy := false }

/-- A GMSH writer in a later time frame: the first frame recorded the node
fields "a", "b", "c"; now only "a" and "c" are present. -/
def sample_msh : OutputMSH :=
  { enable_refinement_ := false
    header_written := true
    dummy_data_list_ := fun sp =>
      match sp with
      | DiscreteSpace.NODE_DATA =>
        [DummyOutputData "a" 1, DummyOutputData "b" 1, DummyOutputData "c" 1]
      | _ => []
    output_data_vec_ := fun sp =>
      match sp with
      | DiscreteSpace.NODE_DATA => [sample_cache "a", sample_cache "c"]
      | _ => [] }

/-- A GMSH writer in its first time frame, with the node fields "a" and "b". -/
def sample_msh_first : OutputMSH :=
  OutputMSH.construct (fun sp =>
    match sp with
    | DiscreteSpace.NODE_DATA => [sample_cache "a", sample_cache "b"]
    | _ => [])

/-- A multifield with two named components, last set to time 0 without a
change. -/
def sample_common : FieldCommon Int :=
  { name_ := "conc"
    shared_ :=
      { n_comp_ := 2
        comp_names_ := ["A", ""]
        input_name_ := "conc"
        input_description_ := ""
        input_default_ := "0.0"
        list_idx_ := 0
        is_fully_initialized_ := true }
    set_time_result_ := TimeStatus.constant
    last_time_ := some 0
    last_limit_side_ := LimitSide.left
    is_jump_time_ := false
    component_index_ := 0
    multifield_ := true }

/-- A field over region 1 before its first `set_time`, with one descriptor at
time 0 on all regions, and no default. -/
def sample_time_field : Field Int :=
  { common :=
      { sample_common with
        shared_ := { sample_common.shared_ with is_fully_initialized_ := false }
        set_time_result_ := TimeStatus.unknown
        last_time_ := none
        multifield_ := false }
    regions := [1]
    input_list := [{ time := 0, region := none, algorithm := 5 }]
    default_algorithm := none
    active := [] }

/-- The state of `sample_time_field` after `set_time(0, right)`. -/
def sample_time_field_set : Field Int :=
  { sample_time_field with
    common :=
      { sample_time_field.common with
        shared_ := { sample_time_field.common.shared_ with is_fully_initialized_ := true }
        set_time_result_ := TimeStatus.changed
        last_time_ := some 0
        last_limit_side_ := LimitSide.right
        is_jump_time_ := false }
    active := [(1, 5)] }

/-- The approximant with both polynomial degrees 2 (the default) for three
substances. -/
def sample_pade : PadeApproximant :=
  { nom_pol_deg := 2, den_pol_deg := 2, n_substances_ := 3 }

/-- Two intersection points with integer coordinates. -/
def sample_ip (a b : Int) : IntersectionPoint Int :=
  { local_coords1 := fun i => if i = 1 then a else if i = 2 then b else 0
    local_coords2 := fun _ => 0 }

/-- The characters after the last four removed: the last four characters of a
path, standing for its extension. -/
def sample_extension (path : String) : String :=
  String.mk (path.data.drop (path.data.length - 4))

/-- An empty table of readers. -/
def sample_readers : ReaderInstances :=
  { reader_table_ := [], n_objects := 0 }

/-- A mesh of five nodes with arbitrary contents and three elements; node 4
belongs to no element. -/
def sample_topology : Topology.Mesh :=
  { node_vector :=
      [⟨7, [], 3⟩, ⟨0, [some 9], 1⟩, ⟨2, [none], 0⟩, ⟨1, [], 0⟩, ⟨5, [some 8], 2⟩]
    element := [⟨[0, 1, 2]⟩, ⟨[1, 2, 3]⟩, ⟨[1]⟩] }

/-! # Properties -/

/-! ## The constructor: shapes and failures -/

/-- C1: whenever the constructor succeeds, the component count is 1 for a 1x1
shape, 3 (stored shape 3x1) for a column of 2 or 3 rows, and 9 (stored shape
3x3) when `n_cols` is not 1; it is always one of 1, 3, 9; the object has
`size` values and its flat buffer has exactly `size * n_elem_` entries. -/
theorem construct_component_count {α : Type} (fill : α) (scratch : Nat → α)
    (field_name : String) (n_rows n_cols size : Nat) (d : OutputData α)
    (h : OutputData.construct fill scratch field_name n_rows n_cols size = Except.ok d) :
    (n_rows = 1 ∧ n_cols = 1 → d.n_elem_ = 1) ∧
    (n_cols = 1 ∧ (n_rows = 2 ∨ n_rows = 3) →
      d.n_elem_ = 3 ∧ d.n_rows = 3 ∧ d.n_cols = 1) ∧
    (n_cols ≠ 1 → d.n_elem_ = 9 ∧ d.n_rows = 3 ∧ d.n_cols = 3) ∧
    (d.n_elem_ = 1 ∨ d.n_elem_ = 3 ∨ d.n_elem_ = 9) ∧
    d.n_values = size ∧ d.data_.length = 1 ∧ d.vec.length = size * d.n_elem_ := by
  unfold OutputData.construct at h
  by_cases hc : n_cols = 1
  · by_cases hr1 : n_rows = 1
    · simp [hc, hr1, bind, Except.bind, pure, Except.pure] at h
      subst h
      simp [N_SCALAR, OutputData.vec, create_data_cache, hc, hr1]
    · by_cases hr : n_rows > 1
      · by_cases hr3 : n_rows > 3
        · simp [hc, hr1, hr, hr3, bind, Except.bind, xprintf_PrgErr] at h
        · simp [hc, hr1, hr, hr3, bind, Except.bind, pure, Except.pure] at h
          subst h
          simp [N_VECTOR, OutputData.vec, create_data_cache, hc, hr1]
      · simp [hc, hr1, hr, bind, Except.bind] at h
  · simp [hc, bind, Except.bind, pure, Except.pure] at h
    subst h
    simp [N_TENSOR, OutputData.vec, create_data_cache, hc]

/-- Witness for C1: a 3-vector field over 4 values. -/
theorem construct_component_count_witness :
    OutputData.construct 0 zero_mem "velocity" 3 1 4 = Except.ok sample_vector_data ∧
    sample_vector_data.n_elem_ = 3 ∧ sample_vector_data.vec.length = 4 * 3 :=
  have h := construct_component_count 0 zero_mem "velocity" 3 1 4 sample_vector_data rfl
  ⟨rfl, (h.2.1 ⟨rfl, Or.inr rfl⟩).1, by simpa using h.2.2.2.2.2.2⟩

/-- C2: a column shape with more than 3 rows is refused by the constructor: the
result is the fatal program error whose message names the field, and no
object (hence no buffer) comes into being. -/
theorem construct_rejects_long_vector {α : Type} (fill : α) (scratch : Nat → α)
    (field_name : String) (n_rows size : Nat) (h : n_rows > 3) :
    OutputData.construct fill scratch field_name n_rows 1 size =
      Except.error (OutputError.PrgErr
        ("Do not support output of vectors with fixed size >3. Field: "
          ++ field_name ++ "\n")) := by
  have h1 : n_rows ≠ 1 := by omega
  have h2 : n_rows > 1 := by omega
  simp [OutputData.construct, h1, h2, h, bind, Except.bind, xprintf_PrgErr]

/-- Witness for C2: a 4-vector. -/
theorem construct_rejects_long_vector_witness :
    4 > 3 ∧
    OutputData.construct 0 zero_mem "flux" 4 1 7 =
      Except.error (OutputError.PrgErr
        ("Do not support output of vectors with fixed size >3. Field: " ++ "flux" ++ "\n")) :=
  ⟨by decide, construct_rejects_long_vector 0 zero_mem "flux" 4 7 (by decide)⟩

/-- Counterexample to C3: the shape 2x5 is not rejected; the constructor
returns an object with 9 components per value. -/
theorem construct_accepts_2x5 :
    OutputData.construct 0 zero_mem "conductivity" 2 5 2 =
      Except.ok (sample_tensor_data "conductivity") ∧
    (sample_tensor_data "conductivity").n_elem_ = 9 :=
  ⟨rfl, rfl⟩

/-- C3 (amended): for every shape with `n_cols` different from 1, whatever
`n_rows` is, the constructor succeeds and yields the 3x3 layout: 9 components
per value and a buffer of `size * 9` entries. -/
theorem construct_matrix_shape {α : Type} (fill : α) (scratch : Nat → α)
    (field_name : String) (n_rows n_cols size : Nat) (h : n_cols ≠ 1) :
    OutputData.construct fill scratch field_name n_rows n_cols size =
      Except.ok
        { field_name := field_name
          output_field_name := field_name
          n_values := size
          n_elem_ := 9
          n_rows := 3
          n_cols := 3
          data_ := [List.replicate (size * 9) fill]
          arr_ptr := scratch } := by
  simp [OutputData.construct, h, bind, Except.bind, pure, Except.pure, N_TENSOR,
    create_data_cache]

/-- Witness for C3 (amended): a 2x2 tensor. -/
theorem construct_matrix_shape_witness :
    2 ≠ 1 ∧
    OutputData.construct 0 zero_mem "anisotropy" 2 2 2 =
      Except.ok (sample_tensor_data "anisotropy") :=
  ⟨by decide, construct_matrix_shape 0 zero_mem "anisotropy" 2 2 2 (by decide)⟩

/-! ## Slot operations: what a slot holds afterwards -/

/-- A run of updates at the consecutive positions `base, base+1, ...` changes
position `i` by the update of its own offset, and no other position. -/
theorem getElem?_foldl_modify {α : Type} (g : Nat → α → α) (base n : Nat) (v : List α)
    (i : Nat) :
    ((List.range n).foldl (fun v j => v.modify (g j) (base + j)) v)[i]? =
      if base ≤ i ∧ i < base + n then (v[i]?).map (g (i - base)) else v[i]? := by
  induction n with
  | zero =>
    have : ¬ (base ≤ i ∧ i < base) := by omega
    simp [this]
  | succ n ih =>
    rw [List.range_succ, List.foldl_append]
    simp only [List.foldl_cons, List.foldl_nil, List.getElem?_modify, ih]
    by_cases h1 : base + n = i
    · have h2 : ¬ (base ≤ i ∧ i < base + n) := by omega
      have h3 : base ≤ i ∧ i < base + (n + 1) := by omega
      have h4 : i - base = n := by omega
      simp [h1, h2, h3, h4]
    · by_cases h2 : base ≤ i ∧ i < base + n
      · have h3 : base ≤ i ∧ i < base + (n + 1) := by omega
        simp [h1, h2, h3]
      · have h3 : ¬ (base ≤ i ∧ i < base + (n + 1)) := by omega
        simp [h1, h2, h3]

/-- The flat buffer after `operate`. -/
theorem operate_vec {α : Type} (d : OutputData α) (idx : Nat) (value : Nat → α)
    (func : α → α → α) :
    (d.operate idx value func).vec =
      (List.range d.n_elem_).foldl
        (fun v j => v.modify (fun raw => func raw (value j)) (d.n_elem_ * idx + j)) d.vec := by
  unfold OutputData.operate OutputData.vec
  cases h : d.data_ with
  | nil =>
    simp only [List.modifyHead_nil, List.headD_nil]
    induction (List.range d.n_elem_) with
    | nil => rfl
    | cons a l ih => simpa using ih
  | cons r rest => simp

/-- Entry `i` of the flat buffer after `operate`. -/
theorem operate_getElem? {α : Type} (d : OutputData α) (idx : Nat) (value : Nat → α)
    (func : α → α → α) (i : Nat) :
    (d.operate idx value func).vec[i]? =
      if d.n_elem_ * idx ≤ i ∧ i < d.n_elem_ * idx + d.n_elem_ then
        (d.vec[i]?).map (fun raw => func raw (value (i - d.n_elem_ * idx)))
      else d.vec[i]? := by
  rw [operate_vec]
  exact getElem?_foldl_modify (fun j raw => func raw (value j)) (d.n_elem_ * idx) d.n_elem_ d.vec i

/-- The length of the flat buffer is not changed by `operate`. -/
theorem operate_vec_length {α : Type} (d : OutputData α) (idx : Nat) (value : Nat → α)
    (func : α → α → α) : (d.operate idx value func).vec.length = d.vec.length := by
  rw [operate_vec]
  generalize d.vec = v
  induction (List.range d.n_elem_) generalizing v with
  | nil => rfl
  | cons a l ih => simp [ih]

/-- Consistency is kept by `operate`. -/
theorem operate_wf {α : Type} (d : OutputData α) (idx : Nat) (value : Nat → α)
    (func : α → α → α) (h : d.wf) : (d.operate idx value func).wf := by
  refine ⟨?_, ?_⟩
  · have := h.1
    unfold OutputData.operate
    cases hd : d.data_ with
    | nil => simp [hd] at this
    | cons r rest => simpa [hd] using this
  · rw [operate_vec_length]
    exact h.2

/-- Inside a consistent object every entry of slot `idx < n_values` exists. -/
theorem wf_slot_lt {α : Type} (d : OutputData α) (h : d.wf) (idx j : Nat)
    (hidx : idx < d.n_values) (hj : j < d.n_elem_) :
    d.n_elem_ * idx + j < d.vec.length := by
  rw [h.2]
  calc d.n_elem_ * idx + j < d.n_elem_ * idx + d.n_elem_ := by omega
    _ = d.n_elem_ * (idx + 1) := by ring
    _ ≤ d.n_elem_ * d.n_values := Nat.mul_le_mul_left _ hidx
    _ = d.n_values * d.n_elem_ := Nat.mul_comm _ _

/-- Entry `j` of slot `idx` after `operate`, in a consistent object. -/
theorem operate_slot {α : Type} (d : OutputData α) (h : d.wf) (idx j : Nat)
    (hidx : idx < d.n_values) (hj : j < d.n_elem_) (value : Nat → α) (func : α → α → α) :
    ∃ raw, d.vec[d.n_elem_ * idx + j]? = some raw ∧
      (d.operate idx value func).vec[d.n_elem_ * idx + j]? = some (func raw (value j)) := by
  have hlt := wf_slot_lt d h idx j hidx hj
  refine ⟨d.vec[d.n_elem_ * idx + j], List.getElem?_eq_getElem hlt, ?_⟩
  rw [operate_getElem?]
  have hc : d.n_elem_ * idx ≤ d.n_elem_ * idx + j ∧
      d.n_elem_ * idx + j < d.n_elem_ * idx + d.n_elem_ := by omega
  simp [hc, List.getElem?_eq_getElem hlt]

/-- The entries of slot `idx` after `operate` on the same slot of a consistent
object: each old entry combined with the element at its offset. -/
theorem operate_slot_self {α : Type} (d : OutputData α) (h : d.wf) (idx : Nat)
    (hidx : idx < d.n_values) (value : Nat → α) (func : α → α → α) :
    (d.operate idx value func).slot idx =
      (List.range d.n_elem_).map (fun j => func ((d.slot idx).getD j (value j)) (value j)) := by
  apply List.ext_getElem?
  intro j
  unfold OutputData.slot
  have hn : (d.operate idx value func).n_elem_ = d.n_elem_ := rfl
  rw [hn]
  by_cases hj : j < d.n_elem_
  · obtain ⟨raw, h1, h2⟩ := operate_slot d h idx j hidx hj value func
    rw [List.getElem?_take_of_lt hj, List.getElem?_drop, h2]
    have h3 : ((List.drop (d.n_elem_ * idx) d.vec).take d.n_elem_)[j]? = some raw := by
      rw [List.getElem?_take_of_lt hj, List.getElem?_drop, h1]
    simp [hj, List.getD_eq_getElem?_getD, h3]
  · have hj2 : d.n_elem_ ≤ j := by omega
    rw [List.getElem?_eq_none, List.getElem?_eq_none]
    · simp; exact hj2
    · exact le_trans (List.length_take_le _ _) hj2

/-- The entries of another slot are not touched by `operate`. -/
theorem operate_slot_other {α : Type} (d : OutputData α) (idx i : Nat) (hne : i ≠ idx)
    (value : Nat → α) (func : α → α → α) :
    (d.operate i value func).slot idx = d.slot idx := by
  apply List.ext_getElem?
  intro j
  unfold OutputData.slot
  have hn : (d.operate i value func).n_elem_ = d.n_elem_ := rfl
  rw [hn]
  by_cases hj : j < d.n_elem_
  · rw [List.getElem?_take_of_lt hj, List.getElem?_take_of_lt hj, List.getElem?_drop,
      List.getElem?_drop, operate_getElem?]
    have hout : ¬ (d.n_elem_ * i ≤ d.n_elem_ * idx + j ∧
        d.n_elem_ * idx + j < d.n_elem_ * i + d.n_elem_) := by
      rcases Nat.lt_or_gt_of_ne hne with hlt | hgt
      · have : d.n_elem_ * (i + 1) ≤ d.n_elem_ * idx := Nat.mul_le_mul_left _ hlt
        have e : d.n_elem_ * (i + 1) = d.n_elem_ * i + d.n_elem_ := by ring
        omega
      · have : d.n_elem_ * (idx + 1) ≤ d.n_elem_ * i := Nat.mul_le_mul_left _ hgt
        have e : d.n_elem_ * (idx + 1) = d.n_elem_ * idx + d.n_elem_ := by ring
        omega
    simp [hout]
  · have hj2 : d.n_elem_ ≤ j := by omega
    rw [List.getElem?_eq_none (le_trans (List.length_take_le _ _) hj2),
      List.getElem?_eq_none (le_trans (List.length_take_le _ _) hj2)]

/-- After `store_value(idx, value)` slot `idx` holds the elements behind `value`. -/
theorem store_value_slot {α : Type} (d : OutputData α) (h : d.wf) (idx : Nat)
    (hidx : idx < d.n_values) (value : Nat → α) :
    (d.store_value idx value).slot idx = read_ptr value d.n_elem_ := by
  unfold OutputData.store_value
  rw [operate_slot_self d h idx hidx]
  rfl

/-! ## Printing -/

/-- The printing loop over the positions `s, s+1, ..., s+n-1` writes the
elements found there, in order, each followed by one space. -/
theorem foldl_put_elem {α : Type} (fmt : α → String) (vec : List α) (n s : Nat)
    (out : String) :
    (List.range' s n).foldl (put_elem fmt vec) out = put_all fmt ((vec.drop s).take n) out := by
  induction n generalizing s out with
  | zero => simp [put_all]
  | succ n ih =>
    rw [List.range'_succ, List.foldl_cons, ih]
    by_cases hs : s < vec.length
    · have hd : vec.drop s = vec[s] :: vec.drop (s + 1) := List.drop_eq_getElem_cons hs
      rw [hd, List.take_succ_cons]
      simp only [put_all, put_elem, List.getElem?_eq_getElem hs, List.foldl_cons]
    · have h1 : vec.drop s = [] := List.drop_eq_nil_of_le (by omega)
      have h2 : vec.drop (s + 1) = [] := List.drop_eq_nil_of_le (by omega)
      have h3 : vec[s]? = none := List.getElem?_eq_none (by omega)
      simp [put_all, put_elem, h1, h2, h3]

/-- The inner printing loop writes the entries of slot `idx`. -/
theorem slot_loop_put_elem {α : Type} (fmt : α → String) (d : OutputData α) (idx : Nat)
    (out : String) :
    slot_loop d.n_elem_ idx (put_elem fmt d.vec) out = put_all fmt (d.slot idx) out := by
  unfold slot_loop OutputData.slot
  have e : d.n_elem_ * (idx + 1) - d.n_elem_ * idx = d.n_elem_ := by
    rw [Nat.mul_succ]; omega
  rw [e, foldl_put_elem]

/-- What `print_ascii` returns for an index in range. -/
theorem print_ascii_eq {α : Type} (fmt : α → String) (d : OutputData α) (out : String)
    (idx : Nat) (hidx : idx < d.n_values) :
    d.print_ascii fmt out idx = Except.ok (d, put_all fmt (d.slot idx) out) := by
  unfold OutputData.print_ascii
  rw [if_pos hidx, slot_loop_put_elem]

/-- Storing a value at each index of a list of indices, one after the other,
keeps the shape and the consistency of the object. -/
theorem foldl_store_value_shape {α : Type} (value : Nat → α) (is_ : List Nat)
    (d : OutputData α) (h : d.wf) :
    let d1 := is_.foldl (fun d i => d.store_value i value) d
    d1.wf ∧ d1.n_values = d.n_values ∧ d1.n_elem_ = d.n_elem_ := by
  induction is_ generalizing d with
  | nil => exact ⟨h, rfl, rfl⟩
  | cons i rest ih =>
    have := ih (d.store_value i value) (operate_wf d i value _ h)
    exact this

/-- Storing a value at each index of a list of indices leaves in slot `idx`
that value if `idx` is in the list, and the old content otherwise. -/
theorem foldl_store_value_slot {α : Type} (value : Nat → α) (is_ : List Nat)
    (d : OutputData α) (h : d.wf) (idx : Nat) (hidx : idx < d.n_values) :
    (is_.foldl (fun d i => d.store_value i value) d).slot idx =
      if idx ∈ is_ then read_ptr value d.n_elem_ else d.slot idx := by
  induction is_ generalizing d with
  | nil => simp
  | cons i rest ih =>
    have hwf : (d.store_value i value).wf := operate_wf d i value _ h
    have hstep := ih (d.store_value i value) hwf hidx
    rw [List.foldl_cons, hstep]
    have hn : (d.store_value i value).n_elem_ = d.n_elem_ := rfl
    rw [hn]
    by_cases hmem : idx ∈ rest
    · simp [hmem]
    · by_cases hi : i = idx
      · subst hi
        simp [hmem, store_value_slot d h i hidx]
      · have hne : idx ≠ i := fun e => hi e.symm
        have := operate_slot_other d idx i hi value (fun _ val => val)
        simp [hmem, hne, OutputData.store_value, this]

/-- C4: in a consistent object and for `idx < n_values`, after
`store_value(idx, v)` the call `print_ascii(out, idx)` appends to the stream
exactly the `n_elem_` components of `v` in buffer order, each followed by one
space, and nothing else; and after the same value was stored at every index,
`print_ascii` appends that same text at every index. -/
theorem print_ascii_after_store_value {α : Type} (fmt : α → String) (d : OutputData α)
    (hwf : d.wf) (v : Nat → α) (out : String) (idx : Nat) (hidx : idx < d.n_values) :
    (d.store_value idx v).print_ascii fmt out idx =
      Except.ok (d.store_value idx v, put_all fmt (read_ptr v d.n_elem_) out) ∧
    (d.store_value_all v).print_ascii fmt out idx =
      Except.ok (d.store_value_all v, put_all fmt (read_ptr v d.n_elem_) out) := by
  constructor
  · have h1 : idx < (d.store_value idx v).n_values := hidx
    rw [print_ascii_eq fmt _ out idx h1, store_value_slot d hwf idx hidx]
  · have hs := foldl_store_value_shape v (List.range d.n_values) d hwf
    have h1 : idx < (d.store_value_all v).n_values := by
      unfold OutputData.store_value_all
      rw [hs.2.1]; exact hidx
    rw [print_ascii_eq fmt _ out idx h1]
    unfold OutputData.store_value_all
    rw [foldl_store_value_slot v _ d hwf idx hidx]
    simp [hidx]

/-- Witness for C4: the tensor [[1,2,0],[2,4,3],[0,3,5]] stored at index 1 of
a two-value tensor buffer prints as "1 2 0 2 4 3 0 3 5 ". -/
theorem print_ascii_after_store_value_witness :
    (sample_tensor_data "tensor").wf ∧ 1 < (sample_tensor_data "tensor").n_values ∧
    Except.map Prod.snd
      (((sample_tensor_data "tensor").store_value 1
          (ptr_of 0 [1, 2, 0, 2, 4, 3, 0, 3, 5])).print_ascii toString "" 1) =
      Except.ok "1 2 0 2 4 3 0 3 5 " := by
  refine ⟨by decide, by decide, ?_⟩
  rw [(print_ascii_after_store_value toString (sample_tensor_data "tensor") (by decide)
    (ptr_of 0 [1, 2, 0, 2, 4, 3, 0, 3, 5]) "" 1 (by decide)).1]
  simp only [Except.map, Except.ok.injEq]
  decide

/-! ## Frame of the slot operations -/

/-- Outside the slot `idx`, and in every field but the flat buffer, `operate`
changes nothing. -/
theorem operate_frame {α : Type} (d : OutputData α) (idx : Nat) (value : Nat → α)
    (func : α → α → α) :
    (∀ i, ¬ (idx * d.n_elem_ ≤ i ∧ i < (idx + 1) * d.n_elem_) →
      (d.operate idx value func).vec[i]? = d.vec[i]?) ∧
    (d.operate idx value func).vec.length = d.vec.length ∧
    (d.operate idx value func).data_.tail = d.data_.tail ∧
    (d.operate idx value func).n_values = d.n_values ∧
    (d.operate idx value func).n_elem_ = d.n_elem_ := by
  refine ⟨?_, operate_vec_length d idx value func, ?_, rfl, rfl⟩
  · intro i hi
    rw [operate_getElem?]
    have hout : ¬ (d.n_elem_ * idx ≤ i ∧ i < d.n_elem_ * idx + d.n_elem_) := by
      have e1 : idx * d.n_elem_ = d.n_elem_ * idx := Nat.mul_comm _ _
      have e2 : (idx + 1) * d.n_elem_ = d.n_elem_ * idx + d.n_elem_ := by ring
      omega
    simp [hout]
  · unfold OutputData.operate
    cases d.data_ <;> simp

/-- C5: each of `store_value(idx, v)`, `add(idx, v)`, `zero(idx)` and
`normalize(idx, divisor)` leaves every position of the flat buffer outside
`[idx*n_elem_, (idx+1)*n_elem_)` as it was, and does not change the length of
the buffer, the other rows of the cache table, `n_values` or `n_elem_`. -/
theorem slot_operations_frame {α : Type} [Zero α] [Add α] [CountDiv α] (d : OutputData α)
    (idx : Nat) (v : Nat → α) (divisor : Nat) (d1 : OutputData α)
    (hop : d1 = d.store_value idx v ∨ d1 = d.add idx v ∨ d1 = d.zero idx ∨
      d.normalize idx divisor = some d1) :
    (∀ i, ¬ (idx * d.n_elem_ ≤ i ∧ i < (idx + 1) * d.n_elem_) → d1.vec[i]? = d.vec[i]?) ∧
    d1.vec.length = d.vec.length ∧ d1.data_.tail = d.data_.tail ∧
    d1.n_values = d.n_values ∧ d1.n_elem_ = d.n_elem_ := by
  rcases hop with h | h | h | h
  · subst h
    exact operate_frame d idx v _
  · subst h
    exact operate_frame d idx v _
  · subst h
    exact operate_frame d idx d.arr_ptr _
  · unfold OutputData.normalize at h
    split at h
    · injection h with h
      subst h
      exact operate_frame d idx d.arr_ptr _
    · cases h

/-- Witness for C5: adding (7, 8, 9) at index 1 of the sample vector buffer. -/
theorem slot_operations_frame_witness :
    (sample_vector_data.add 1 (ptr_of 0 [7, 8, 9])).vec = [0, 0, 0, 7, 8, 9, 0, 0, 0, 0, 0, 0] ∧
    (∀ i, ¬ (1 * sample_vector_data.n_elem_ ≤ i ∧ i < (1 + 1) * sample_vector_data.n_elem_) →
      (sample_vector_data.add 1 (ptr_of 0 [7, 8, 9])).vec[i]? = sample_vector_data.vec[i]?) :=
  ⟨by decide,
   (slot_operations_frame sample_vector_data 1 (ptr_of 0 [7, 8, 9]) 1 _
      (Or.inr (Or.inl rfl))).1⟩

/-! ## Averaging on one slot -/

/-- A run of `add(idx, v)` calls accumulates, in each entry of slot `idx`, the
components of the added values on top of the old entry, and keeps the object
consistent and its shape. -/
theorem foldl_add_slot {α : Type} [Add α] (vs : List (Nat → α)) (d : OutputData α)
    (h : d.wf) (idx j : Nat) (hidx : idx < d.n_values) (hj : j < d.n_elem_) :
    let d1 := vs.foldl (fun d v => d.add idx v) d
    d1.wf ∧ d1.n_values = d.n_values ∧ d1.n_elem_ = d.n_elem_ ∧ d1.arr_ptr = d.arr_ptr ∧
    ∃ raw, d.vec[d.n_elem_ * idx + j]? = some raw ∧
      d1.vec[d.n_elem_ * idx + j]? = some (vs.foldl (fun acc v => acc + v j) raw) := by
  induction vs generalizing d with
  | nil =>
    refine ⟨h, rfl, rfl, rfl, ?_⟩
    exact ⟨_, List.getElem?_eq_getElem (wf_slot_lt d h idx j hidx hj),
      List.getElem?_eq_getElem (wf_slot_lt d h idx j hidx hj)⟩
  | cons v rest ih =>
    have hwf : (d.add idx v).wf := operate_wf d idx v _ h
    obtain ⟨raw, h1, h2⟩ := operate_slot d h idx j hidx hj v (fun raw val => raw + val)
    obtain ⟨g1, g2, g3, g4, raw1, g5, g6⟩ := ih (d.add idx v) hwf hidx hj
    refine ⟨g1, g2, g3, g4, raw, h1, ?_⟩
    have e : raw1 = raw + v j := by
      have : (d.add idx v).vec[d.n_elem_ * idx + j]? = some raw1 := g5
      rw [OutputData.add, h2] at this
      exact (Option.some.inj this).symm
    rw [List.foldl_cons]
    rw [e] at g6
    exact g6

/-- The averaging sequence on one slot of a consistent object, for an element
type at which the division by the number of values is defined: the sequence
returns, and every component of the slot holds the sum of the components of
the values, divided as the element type divides. -/
theorem average_into_value {α : Type} [Zero α] [Add α] [CountDiv α] (d : OutputData α)
    (hwf : d.wf) (idx : Nat) (hidx : idx < d.n_values) (vs : List (Nat → α))
    (hdef : ∀ raw : α, ∃ quotient, CountDiv.divCount raw vs.length = some quotient) :
    ∃ d1, d.average_into idx vs = some d1 ∧
      ∀ j, j < d.n_elem_ →
        d1.vec[d.n_elem_ * idx + j]? =
          CountDiv.divCount (vs.foldl (fun acc v => acc + v j) 0) vs.length := by
  have hall : ∀ d2 : OutputData α, (List.range d2.n_elem_).all (fun j =>
      match d2.vec[d2.n_elem_ * idx + j]? with
      | some raw => (CountDiv.divCount raw vs.length).isSome
      | none => true) = true := by
    intro d2
    rw [List.all_eq_true]
    intro j _
    cases d2.vec[d2.n_elem_ * idx + j]? with
    | none => rfl
    | some raw =>
      obtain ⟨quotient, hq⟩ := hdef raw
      simp [hq]
  unfold OutputData.average_into OutputData.normalize
  rw [if_pos (hall _)]
  refine ⟨_, rfl, ?_⟩
  intro j hj
  have hz : (d.zero idx).wf := operate_wf d idx _ _ hwf
  obtain ⟨raw0, _, z2⟩ := operate_slot d hwf idx j hidx hj d.arr_ptr (fun _ _ => (0 : α))
  obtain ⟨a1, a2, a3, _, raw1, a5, a6⟩ := foldl_add_slot vs (d.zero idx) hz idx j hidx hj
  have e0 : raw1 = 0 := by
    have : (d.zero idx).vec[d.n_elem_ * idx + j]? = some raw1 := a5
    rw [OutputData.zero, z2] at this
    exact (Option.some.inj this).symm
  have hidx1 : idx < (vs.foldl (fun d v => d.add idx v) (d.zero idx)).n_values := by
    rw [a2]; exact hidx
  have hj1 : j < (vs.foldl (fun d v => d.add idx v) (d.zero idx)).n_elem_ := by
    rw [a3]; exact hj
  obtain ⟨raw2, n1, n2⟩ := operate_slot _ a1 idx j hidx1 hj1
    (vs.foldl (fun d v => d.add idx v) (d.zero idx)).arr_ptr
    (fun raw _ => (CountDiv.divCount raw vs.length).getD raw)
  rw [a3] at n1 n2
  have hn : (d.zero idx).n_elem_ = d.n_elem_ := rfl
  rw [hn] at n1 n2 a6
  have e2 : raw2 = vs.foldl (fun acc v => acc + v j) 0 := by
    rw [a6, e0] at n1
    exact (Option.some.inj n1).symm
  rw [n2, e2]
  obtain ⟨quotient, hq⟩ := hdef (vs.foldl (fun acc v => acc + v j) 0)
  rw [hq]
  rfl

/-- For the element type `int`, a sum from 0 to below 2^31 divided by a count
from 1 to below 2^32 gives the integer quotient. -/
theorem divCount_int (sum : Int) (k : Nat) (h0 : 0 ≤ sum) (h1 : sum < 2 ^ 31) (hk0 : 0 < k)
    (hk : k < 2 ^ 32) : CountDiv.divCount sum k = some (sum / (k : Int)) := by
  have e1 : k % 2 ^ 32 = k := Nat.mod_eq_of_lt hk
  have e2 : sum % 2 ^ 32 = sum := Int.emod_eq_of_lt h0 (by omega)
  have e3 : (k : Int) % 2 ^ 32 = (k : Int) := Int.emod_eq_of_lt (by omega) (by omega)
  have e4 : sum / (k : Int) < 2 ^ 31 := lt_of_le_of_lt (Int.ediv_le_self _ h0) h1
  show (if k % 2 ^ 32 = 0 then none
    else some (if sum % 2 ^ 32 / ((k : Int) % 2 ^ 32) < 2 ^ 31
      then sum % 2 ^ 32 / ((k : Int) % 2 ^ 32)
      else sum % 2 ^ 32 / ((k : Int) % 2 ^ 32) - 2 ^ 32)) = some (sum / (k : Int))
  rw [e1, e2, e3, if_neg (by omega), if_pos e4]

/-- For the element type `unsigned int`, a sum below 2^32 divided by a count
from 1 to below 2^32 gives the integer quotient. -/
theorem divCount_nat (sum k : Nat) (h1 : sum < 2 ^ 32) (hk0 : 0 < k) (hk : k < 2 ^ 32) :
    CountDiv.divCount sum k = some (sum / k) := by
  have e1 : k % 2 ^ 32 = k := Nat.mod_eq_of_lt hk
  have e2 : sum % 2 ^ 32 = sum := Nat.mod_eq_of_lt h1
  show (if k % 2 ^ 32 = 0 then none else some (sum % 2 ^ 32 / (k % 2 ^ 32))) = some (sum / k)
  rw [e1, e2, if_neg (by omega)]

/-- For the element type `int` a negative sum is divided after its conversion
to `unsigned int`: the values -7 and -7 leave 2147483641 in the slot. -/
theorem average_into_negative_sum :
    (sample_integer_data.average_into 0 [fun _ => -7, fun _ => -7]).map
      (fun d => d.vec[0]?) = some (some 2147483641) := by
  decide

/-- C6 (counterexample): for the element type `int` the sequence `zero(0)`,
`add(0, 1)`, `add(0, 2)`, `normalize(0, 2)` leaves 1 in the slot, which is not
the arithmetic mean 3/2 of the two values. -/
theorem average_into_integer_not_mean :
    (sample_integer_data.average_into 0 [fun _ => 1, fun _ => 2]).map (fun d => d.vec[0]?) =
      some (some 1) ∧
    ((1 : Int) : ℚ) ≠ ((1 : ℚ) + 2) / 2 :=
  ⟨by decide, by norm_num⟩

/-- C6 (amended): in a consistent object, for `idx < n_values` and a non-empty
list of values `v_1 .. v_k` with `k < 2^32` (an `unsigned int`), the sequence
`zero(idx)`, `add(idx, v_1)`, ..., `add(idx, v_k)`, `normalize(idx, k)`
returns and leaves in every component `j` of slot `idx`: for the element type
`double` (exact arithmetic) the arithmetic mean `(v_1[j] + ... + v_k[j]) / k`;
for the element type `int`, when the components are non-negative and their
sums are below 2^31, the integer quotient of the sum by `k`; for the element
type `unsigned int`, when the sums are below 2^32, the integer quotient of
the sum by `k`. -/
theorem average_into_slot :
    (∀ {α : Type} [DivisionRing α] (d : OutputData α) (idx : Nat) (vs : List (Nat → α)),
      d.wf → idx < d.n_values → vs ≠ [] → vs.length < 2 ^ 32 →
      ∃ d1, d.average_into idx vs = some d1 ∧
        ∀ j, j < d.n_elem_ →
          d1.vec[d.n_elem_ * idx + j]? =
            some ((vs.map (fun v => v j)).sum / (vs.length : α))) ∧
    (∀ (d : OutputData Int) (idx : Nat) (vs : List (Nat → Int)),
      d.wf → idx < d.n_values → vs ≠ [] → vs.length < 2 ^ 32 →
      (∀ v ∈ vs, ∀ j, j < d.n_elem_ → 0 ≤ v j) →
      (∀ j, j < d.n_elem_ → (vs.map (fun v => v j)).sum < 2 ^ 31) →
      ∃ d1, d.average_into idx vs = some d1 ∧
        ∀ j, j < d.n_elem_ →
          d1.vec[d.n_elem_ * idx + j]? =
            some ((vs.map (fun v => v j)).sum / (vs.length : Int))) ∧
    (∀ (d : OutputData Nat) (idx : Nat) (vs : List (Nat → Nat)),
      d.wf → idx < d.n_values → vs ≠ [] → vs.length < 2 ^ 32 →
      (∀ j, j < d.n_elem_ → (vs.map (fun v => v j)).sum < 2 ^ 32) →
      ∃ d1, d.average_into idx vs = some d1 ∧
        ∀ j, j < d.n_elem_ →
          d1.vec[d.n_elem_ * idx + j]? = some ((vs.map (fun v => v j)).sum / vs.length)) := by
  refine ⟨?_, ?_, ?_⟩
  · intro α _ d idx vs hwf hidx _ _
    obtain ⟨d1, h1, h2⟩ := average_into_value d hwf idx hidx vs (fun raw => ⟨_, rfl⟩)
    refine ⟨d1, h1, ?_⟩
    intro j hj
    rw [h2 j hj, List.sum_eq_foldl, List.foldl_map]
    rfl
  · intro d idx vs hwf hidx hne hk hpos hsum
    have hk0 : 0 < vs.length := List.length_pos.mpr hne
    have hdef : ∀ raw : Int, ∃ quotient, CountDiv.divCount raw vs.length = some quotient := by
      intro raw
      show ∃ quotient, (if vs.length % 2 ^ 32 = 0 then none
        else some (if raw % 2 ^ 32 / ((vs.length : Int) % 2 ^ 32) < 2 ^ 31
          then raw % 2 ^ 32 / ((vs.length : Int) % 2 ^ 32)
          else raw % 2 ^ 32 / ((vs.length : Int) % 2 ^ 32) - 2 ^ 32)) = some quotient
      rw [Nat.mod_eq_of_lt hk, if_neg (by omega)]
      exact ⟨_, rfl⟩
    obtain ⟨d1, h1, h2⟩ := average_into_value d hwf idx hidx vs hdef
    refine ⟨d1, h1, ?_⟩
    intro j hj
    have hs : vs.foldl (fun acc v => acc + v j) 0 = (vs.map (fun v => v j)).sum := by
      rw [List.sum_eq_foldl, List.foldl_map]
    have hnn : 0 ≤ (vs.map (fun v => v j)).sum := by
      apply List.sum_nonneg
      intro x hx
      obtain ⟨v, hv, rfl⟩ := List.mem_map.mp hx
      exact hpos v hv j hj
    rw [h2 j hj, hs]
    exact divCount_int _ _ hnn (hsum j hj) hk0 hk
  · intro d idx vs hwf hidx hne hk hsum
    have hk0 : 0 < vs.length := List.length_pos.mpr hne
    have hdef : ∀ raw : Nat, ∃ quotient, CountDiv.divCount raw vs.length = some quotient := by
      intro raw
      show ∃ quotient, (if vs.length % 2 ^ 32 = 0 then none
        else some (raw % 2 ^ 32 / (vs.length % 2 ^ 32))) = some quotient
      rw [Nat.mod_eq_of_lt hk, if_neg (by omega)]
      exact ⟨_, rfl⟩
    obtain ⟨d1, h1, h2⟩ := average_into_value d hwf idx hidx vs hdef
    refine ⟨d1, h1, ?_⟩
    intro j hj
    have hs : vs.foldl (fun acc v => acc + v j) 0 = (vs.map (fun v => v j)).sum := by
      rw [List.sum_eq_foldl, List.foldl_map]
    rw [h2 j hj, hs]
    exact divCount_nat _ _ (hsum j hj) hk0 hk

/-- Witness for C6: the mean of 1 and 3 in slot 1 of a scalar buffer in exact
arithmetic is 2; the values 1 and 2 in slot 0 of an `int` buffer and of an
`unsigned int` buffer leave the quotient of 3 by 2. -/
theorem average_into_slot_witness :
    (∃ d1, sample_scalar_data.average_into 1 [fun _ => 1, fun _ => 3] = some d1 ∧
      ∀ j, j < sample_scalar_data.n_elem_ →
        d1.vec[sample_scalar_data.n_elem_ * 1 + j]? =
          some (([fun _ => 1, fun _ => 3].map (fun v : Nat → ℚ => v j)).sum /
            (([fun _ => 1, fun _ => 3] : List (Nat → ℚ)).length : ℚ))) ∧
    (∃ d1, sample_integer_data.average_into 0 [fun _ => 1, fun _ => 2] = some d1 ∧
      ∀ j, j < sample_integer_data.n_elem_ →
        d1.vec[sample_integer_data.n_elem_ * 0 + j]? =
          some (([fun _ => 1, fun _ => 2].map (fun v : Nat → Int => v j)).sum /
            (([fun _ => 1, fun _ => 2] : List (Nat → Int)).length : Int))) ∧
    (∃ d1, sample_enum_data.average_into 0 [fun _ => 1, fun _ => 2] = some d1 ∧
      ∀ j, j < sample_enum_data.n_elem_ →
        d1.vec[sample_enum_data.n_elem_ * 0 + j]? =
          some (([fun _ => 1, fun _ => 2].map (fun v : Nat → Nat => v j)).sum /
            ([fun _ => 1, fun _ => 2] : List (Nat → Nat)).length)) :=
  ⟨average_into_slot.1 sample_scalar_data 1 [fun _ => 1, fun _ => 3] (by decide) (by decide)
      (by simp) (by decide),
    average_into_slot.2.1 sample_integer_data 0 [fun _ => 1, fun _ => 2] (by decide) (by decide)
      (by simp) (by decide) (by intro v hv j _; simp at hv; rcases hv with h | h <;> simp [h])
      (by intro j _; norm_num),
    average_into_slot.2.2 sample_enum_data 0 [fun _ => 1, fun _ => 2] (by decide) (by decide)
      (by simp) (by decide) (by intro j _; norm_num)⟩

/-! ## Registration of field data -/

/-- C7 (evaluation at the failing input): on two elements sharing node 1, with
field value 10 on element 0 and 20 on element 1, the NODE_DATA branch stages
10 at every node,
whereas the mean over the incident elements is 15 at node 1 and 20 at node 2;
the CORNER_DATA branch on the same input does take the value 20 on element 1. -/
theorem node_data_reads_element_zero :
    Legacy.staged_data
      (Legacy.compute_field_data zero_mem (fun _ => 0) Legacy.ValueType.Integer
        Legacy.RefType.NODE_DATA sample_field (some sample_output_time))
      sample_field.id Legacy.RefType.NODE_DATA = some [10, 10, 10] ∧
    Legacy.node_mean_spec sample_field 1 = 15 ∧
    Legacy.node_mean_spec sample_field 2 = 20 ∧
    Legacy.staged_data
      (Legacy.compute_field_data zero_mem (fun _ => 0) Legacy.ValueType.Integer
        Legacy.RefType.CORNER_DATA sample_field (some sample_output_time))
      sample_field.id Legacy.RefType.CORNER_DATA = some [10, 10, 20, 20] := by
  refine ⟨by decide, by decide, by decide, by decide⟩

/-! ### Lookup of staged buffers -/

/-- Writing through the pointer found by the lookup: the lookup then finds the
written buffer, when the write keeps the field the buffer belongs to. -/
theorem find_update_by_field {α : Type} (field : Nat)
    (f : Legacy.OutputData α → Legacy.OutputData α)
    (hf : ∀ od, od.field = field → (f od).field = field)
    (v : List (Legacy.OutputData α)) :
    (Legacy.update_by_field field f v).find? (fun od => od.field == field) =
      (v.find? (fun od => od.field == field)).map f := by
  induction v with
  | nil => rfl
  | cons od rest ih =>
    unfold Legacy.update_by_field
    by_cases h : od.field = field
    · simp [h, hf od h]
    · simp [h, ih]

/-- A buffer appended to a vector without a buffer of its field is what the
lookup finds afterwards. -/
theorem find_append_new {α : Type} (field : Nat) (v : List (Legacy.OutputData α))
    (od : Legacy.OutputData α) (hnone : v.find? (fun od => od.field == field) = none)
    (hod : od.field = field) :
    (v ++ [od]).find? (fun od => od.field == field) = some od := by
  rw [List.find?_append, hnone]
  simp [hod]

/-- The vector of one space after it was replaced. -/
theorem data_vector_set_data_vector {P α : Type} (ot : Legacy.OutputTime P α)
    (ref_type : Legacy.RefType) (v : List (Legacy.OutputData α)) :
    (ot.set_data_vector ref_type v).data_vector ref_type = v := by
  cases ref_type <;> rfl

/-! ### The copy loops keep the identity and the size of the buffer -/

/-- A property kept by every step of a loop holds after the loop. -/
theorem foldl_keeps {σ β : Type} (I : σ → Prop) (f : σ → β → σ) (l : List β) (s : σ)
    (h0 : I s) (hstep : ∀ s x, I s → I (f s x)) : I (l.foldl f s) := by
  induction l generalizing s with
  | nil => exact h0
  | cons x rest ih => exact ih (f s x) (hstep s x h0)

/-- An update through `operator[]` changes neither the header fields nor the
length of the array. -/
theorem update_shape {α : Type} (d : Legacy.OutputData α) (idx : Nat) (f : α → α) :
    (d.update idx f).field = d.field ∧ (d.update idx f).items_count = d.items_count ∧
    (d.update idx f).vector_items_count = d.vector_items_count ∧
    (d.update idx f)._data.length = d._data.length := by
  simp [Legacy.OutputData.update]

/-- A property kept by every step of a loop that can stop holds after the
loop, when the loop runs to its end. -/
theorem foldlM_except_keeps {ε σ β : Type} (I : σ → Prop) (f : σ → β → Except ε σ)
    (l : List β) (s s1 : σ) (h0 : I s)
    (hstep : ∀ s x s1, I s → f s x = Except.ok s1 → I s1)
    (h : l.foldlM f s = Except.ok s1) : I s1 := by
  induction l generalizing s with
  | nil =>
    have : s1 = s := by
      injection h with h
      exact h.symm
    rw [this]
    exact h0
  | cons x rest ih =>
    rw [List.foldlM_cons] at h
    cases hx : f s x with
    | error e =>
      rw [hx] at h
      cases h
    | ok s2 =>
      rw [hx] at h
      exact ih s2 (hstep s x s2 h0 hx) h

/-- A loop whose every step returns runs to its end. -/
theorem foldlM_except_returns {ε σ β : Type} (f : σ → β → Except ε σ) (l : List β) (s : σ)
    (hstep : ∀ s x, ∃ s1, f s x = Except.ok s1) : ∃ s1, l.foldlM f s = Except.ok s1 := by
  induction l generalizing s with
  | nil => exact ⟨s, rfl⟩
  | cons x rest ih =>
    obtain ⟨s2, h2⟩ := hstep s x
    obtain ⟨s1, h1⟩ := ih s2
    refine ⟨s1, ?_⟩
    rw [List.foldlM_cons, h2]
    exact h1

/-- The copy loops, when they run to their end, change neither the header
fields of the buffer nor the length of its array. -/
theorem copy_data_shape {P α : Type} [Zero α] [Add α] [CountDiv α] (heap_count : Nat → Nat)
    (ref_type : Legacy.RefType) (vt : Legacy.ValueType) (field : Legacy.Field P α)
    (mesh : Legacy.Mesh P) (n : Nat) (od od1 : Legacy.OutputData α)
    (hcopy : Legacy.copy_data heap_count ref_type vt field mesh n od = Except.ok od1) :
    od1.field = od.field ∧ od1.items_count = od.items_count ∧
    od1.vector_items_count = od.vector_items_count ∧ od1._data.length = od._data.length := by
  -- the property carried through every loop
  let I : Legacy.Locals α → Prop := fun s =>
    s.output_data.field = od.field ∧ s.output_data.items_count = od.items_count ∧
    s.output_data.vector_items_count = od.vector_items_count ∧
    s.output_data._data.length = od._data.length
  have hupd : ∀ (s : Legacy.Locals α) (b : Bool) (idx : Nat) (f : α → α), I s →
      I { s with output_data := if b then s.output_data.update idx f else s.output_data } := by
    intro s b idx f hs
    cases b
    · exact hs
    · have := update_shape s.output_data idx f
      exact ⟨this.1.trans hs.1, this.2.1.trans hs.2.1, this.2.2.1.trans hs.2.2.1,
        this.2.2.2.trans hs.2.2.2⟩
  have hI : I (Legacy.Locals.mk od ((List.range n).map heap_count) 0 0) := ⟨rfl, rfl, rfl, rfl⟩
  cases ref_type with
  | NODE_DATA =>
    have h1 : I (Legacy.node_init vt n ⟨od, (List.range n).map heap_count, 0, 0⟩) := by
      unfold Legacy.node_init
      refine foldl_keeps I _ _ _ hI ?_
      intro s x hs
      exact hupd s vt.known x _ hs
    have h2 : I (Legacy.node_accumulate vt field mesh
        (Legacy.node_init vt n ⟨od, (List.range n).map heap_count, 0, 0⟩)) := by
      unfold Legacy.node_accumulate
      refine foldl_keeps I _ _ _ h1 ?_
      intro s ele hs
      refine foldl_keeps I _ _ _ hs ?_
      intro s node hs
      exact hupd s vt.known node.index _ hs
    simp only [Legacy.copy_data] at hcopy
    cases hm : Legacy.node_mean vt n (Legacy.node_accumulate vt field mesh
        (Legacy.node_init vt n ⟨od, (List.range n).map heap_count, 0, 0⟩)) with
    | error stop =>
      rw [hm] at hcopy
      cases hcopy
    | ok s3 =>
      rw [hm] at hcopy
      have h3 : I s3 := by
        unfold Legacy.node_mean at hm
        refine foldlM_except_keeps I _ _ _ _ h2 ?_ hm
        intro s x s1 hs hstep
        by_cases hk : vt.known = true
        · simp only [hk, if_true] at hstep
          cases hraw : s.output_data._data[x]? with
          | none =>
            simp only [hraw] at hstep
            injection hstep with hstep
            rw [← hstep]
            exact hs
          | some raw =>
            simp only [hraw] at hstep
            cases hq : CountDiv.divCount raw (s.count.getD x 0) with
            | none =>
              simp only [hq] at hstep
              cases hstep
            | some quotient =>
              simp only [hq] at hstep
              injection hstep with hstep
              rw [← hstep]
              exact hupd s true x _ hs
        · simp only [hk] at hstep
          injection hstep with hstep
          rw [← hstep]
          exact hs
      injection hcopy with hcopy
      rw [← hcopy]
      exact h3
  | CORNER_DATA =>
    have h1 : I (Legacy.corner_copy vt field mesh ⟨od, (List.range n).map heap_count, 0, 0⟩) := by
      unfold Legacy.corner_copy
      refine foldl_keeps I _ _ _ hI ?_
      intro s ele hs
      have : I (ele.node.foldl
          (fun s node =>
            { s with
              output_data :=
                if vt.known then
                  s.output_data.update s.corner_index
                    (fun _ => field.value node.point s.ele_index)
                else s.output_data
              corner_index := s.corner_index + 1 }) s) := by
        refine foldl_keeps I _ _ _ hs ?_
        intro s node hs
        exact hupd s vt.known s.corner_index _ hs
      exact this
    simp only [Legacy.copy_data] at hcopy
    injection hcopy with hcopy
    rw [← hcopy]
    exact h1
  | ELEM_DATA =>
    have h1 : I (Legacy.elem_copy vt field mesh ⟨od, (List.range n).map heap_count, 0, 0⟩) := by
      unfold Legacy.elem_copy
      refine foldl_keeps I _ _ _ hI ?_
      intro s ele hs
      exact hupd s vt.known s.ele_index _ hs
    simp only [Legacy.copy_data] at hcopy
    injection hcopy with hcopy
    rw [← hcopy]
    exact h1

/-- The loops of CORNER_DATA and ELEM_DATA always run to their end, and so
does the mean loop of NODE_DATA for an element type whose division by a count
is always defined. -/
theorem copy_data_returns {P α : Type} [Zero α] [Add α] [CountDiv α] (heap_count : Nat → Nat)
    (ref_type : Legacy.RefType) (vt : Legacy.ValueType) (field : Legacy.Field P α)
    (mesh : Legacy.Mesh P) (n : Nat) (od : Legacy.OutputData α)
    (hdiv : ref_type = Legacy.RefType.NODE_DATA →
      ∀ (raw : α) (c : Nat), ∃ quotient, CountDiv.divCount raw c = some quotient) :
    ∃ od1, Legacy.copy_data heap_count ref_type vt field mesh n od = Except.ok od1 := by
  cases ref_type with
  | NODE_DATA =>
    simp only [Legacy.copy_data]
    obtain ⟨s3, h3⟩ : ∃ s3, Legacy.node_mean vt n (Legacy.node_accumulate vt field mesh
        (Legacy.node_init vt n ⟨od, (List.range n).map heap_count, 0, 0⟩)) = Except.ok s3 := by
      unfold Legacy.node_mean
      apply foldlM_except_returns
      intro s x
      by_cases hk : vt.known = true
      · simp only [hk, if_true]
        cases hraw : s.output_data._data[x]? with
        | none => exact ⟨_, rfl⟩
        | some raw =>
          obtain ⟨quotient, hq⟩ := hdiv rfl raw (s.count.getD x 0)
          simp only [hq]
          exact ⟨_, rfl⟩
      · simp only [hk]
        exact ⟨_, rfl⟩
    rw [h3]
    exact ⟨_, rfl⟩
  | CORNER_DATA => exact ⟨_, rfl⟩
  | ELEM_DATA => exact ⟨_, rfl⟩

/-! ### The CORNER_DATA loop -/

/-- Entry `k` after a run of assignments to consecutive positions. -/
theorem getElem?_write_run {α : Type} (xs : List α) (c : Nat) (l : List α) (k : Nat) :
    (Legacy.write_run c xs l)[k]? =
      if c ≤ k ∧ k < c + xs.length then (l[k]?).bind (fun _ => xs[k - c]?) else l[k]? := by
  induction xs generalizing c l with
  | nil =>
    simp only [Legacy.write_run, List.length_nil]
    rw [if_neg (by omega)]
  | cons x rest ih =>
    unfold Legacy.write_run
    rw [ih, List.getElem?_modify]
    by_cases h1 : c = k
    · subst h1
      have h2 : ¬ (c + 1 ≤ c ∧ c < c + 1 + rest.length) := by omega
      have h3 : c ≤ c ∧ c < c + (x :: rest).length := by simp
      rw [if_neg h2, if_pos h3]
      cases l[c]? <;> simp
    · by_cases h2 : c + 1 ≤ k ∧ k < c + 1 + rest.length
      · have h3 : c ≤ k ∧ k < c + (x :: rest).length := by
          simp only [List.length_cons]; omega
        rw [if_pos h2, if_pos h3]
        have e : k - c = (k - (c + 1)) + 1 := by omega
        rw [e, List.getElem?_cons_succ]
        cases l[k]? <;> simp [h1]
      · have h3 : ¬ (c ≤ k ∧ k < c + (x :: rest).length) := by
          simp only [List.length_cons]; omega
        rw [if_neg h2, if_neg h3]
        cases l[k]? <;> simp [h1]

/-- The length of the list is kept by a run of assignments. -/
theorem length_write_run {α : Type} (xs : List α) (c : Nat) (l : List α) :
    (Legacy.write_run c xs l).length = l.length := by
  induction xs generalizing c l with
  | nil => rfl
  | cons x rest ih => simp [Legacy.write_run, ih]

/-- Two runs of assignments, one behind the other, are one run. -/
theorem write_run_append {α : Type} (xs ys : List α) (c : Nat) (l : List α) :
    Legacy.write_run c (xs ++ ys) l =
      Legacy.write_run (c + xs.length) ys (Legacy.write_run c xs l) := by
  induction xs generalizing c l with
  | nil => rfl
  | cons x rest ih =>
    show Legacy.write_run (c + 1) (rest ++ ys) (l.modify (fun _ => x) c) =
      Legacy.write_run (c + (rest.length + 1)) ys
        (Legacy.write_run (c + 1) rest (l.modify (fun _ => x) c))
    rw [ih, show c + 1 + rest.length = c + (rest.length + 1) by omega]

/-- The loop over the nodes of one element, for a value type known to the
`typeid` tests: it assigns the field values at the nodes to the positions from
`corner_index` on and advances `corner_index` by the number of nodes. -/
theorem corner_nodes_loop {P α : Type} (vt : Legacy.ValueType) (hvt : vt.known = true)
    (field : Legacy.Field P α) (nodes : List (Legacy.Node P)) (s : Legacy.Locals α) :
    nodes.foldl
        (fun s node =>
          { s with
            output_data :=
              if vt.known then
                s.output_data.update s.corner_index
                  (fun _ => field.value node.point s.ele_index)
              else s.output_data
            corner_index := s.corner_index + 1 }) s =
      { s with
        output_data :=
          { s.output_data with
            _data := Legacy.write_run s.corner_index
              (nodes.map (fun node => field.value node.point s.ele_index)) s.output_data._data }
        corner_index := s.corner_index + nodes.length } := by
  induction nodes generalizing s with
  | nil => rfl
  | cons node rest ih =>
    rw [List.foldl_cons, ih]
    simp only [hvt, if_true, Legacy.OutputData.update, List.map_cons, Legacy.write_run,
      List.length_cons]
    rw [show s.corner_index + 1 + rest.length = s.corner_index + (rest.length + 1) by omega]

/-- The CORNER_DATA loop, for a value type known to the `typeid` tests: it
assigns the corner values of the elements, in element-then-local-node order,
to the positions from `corner_index` on. -/
theorem corner_copy_loop {P α : Type} (vt : Legacy.ValueType) (hvt : vt.known = true)
    (field : Legacy.Field P α) (mesh : Legacy.Mesh P) (s : Legacy.Locals α) :
    (Legacy.corner_copy vt field mesh s).output_data._data =
      Legacy.write_run s.corner_index (Legacy.corner_values field s.ele_index mesh.element)
        s.output_data._data := by
  unfold Legacy.corner_copy
  simp only
  generalize mesh.element = elements
  induction elements generalizing s with
  | nil => rfl
  | cons ele rest ih =>
    rw [List.foldl_cons, corner_nodes_loop vt hvt, ih]
    simp only [Legacy.corner_values, write_run_append, List.length_map]

/-- The number of corner values of a run of elements is the sum of their node
counts. -/
theorem length_corner_values {P α : Type} (field : Legacy.Field P α) (ele_index : Nat)
    (elements : List (Legacy.Element P)) :
    (Legacy.corner_values field ele_index elements).length =
      (elements.map Legacy.Element.n_nodes).sum := by
  induction elements generalizing ele_index with
  | nil => rfl
  | cons ele rest ih =>
    simp [Legacy.corner_values, ih, Legacy.Element.n_nodes]

/-- The corner count computed by the CORNER_DATA case of the `item_count`
switch is the sum of the node counts of the elements. -/
theorem item_count_corner {P : Type} (mesh : Legacy.Mesh P) :
    Legacy.item_count mesh Legacy.RefType.CORNER_DATA =
      (mesh.element.map Legacy.Element.n_nodes).sum := by
  unfold Legacy.item_count
  have key : ∀ (l : List (Legacy.Element P)) (a : Nat),
      l.foldl (fun item_count ele => item_count + ele.n_nodes) a =
        a + (l.map Legacy.Element.n_nodes).sum := by
    intro l
    induction l with
    | nil => intro a; simp
    | cons ele rest ih =>
      intro a
      rw [List.foldl_cons, ih]
      simp [Nat.add_assoc]
  rw [key]
  simp

/-- The corner value of local node `j` of the `e`-th element of a run sits at
offset (sum of the node counts of the elements before it) + `j`. -/
theorem corner_values_getElem? {P α : Type} (field : Legacy.Field P α)
    (elements : List (Legacy.Element P)) (ele_index e j : Nat) (he : e < elements.length)
    (hj : j < elements[e].node.length) :
    (Legacy.corner_values field ele_index elements)[
        ((elements.take e).map Legacy.Element.n_nodes).sum + j]? =
      some (field.value (elements[e].node[j]).point (ele_index + e)) := by
  induction elements generalizing ele_index e with
  | nil => simp at he
  | cons ele rest ih =>
    cases e with
    | zero =>
      simp only [List.getElem_cons_zero] at hj
      simp only [Legacy.corner_values, List.take_zero, List.map_nil, List.sum_nil,
        Nat.zero_add, List.getElem_cons_zero, Nat.add_zero]
      rw [List.getElem?_append_left (by simpa using hj)]
      simp [List.getElem?_eq_getElem hj]
    | succ e =>
      simp only [List.getElem_cons_succ] at hj
      have he1 : e < rest.length := by simpa using he
      have := ih (ele_index + 1) e he1 hj
      simp only [Legacy.corner_values, List.take_succ_cons, List.map_cons, List.sum_cons,
        List.getElem_cons_succ]
      rw [List.getElem?_append_right (by simp [Legacy.Element.n_nodes]; omega)]
      have e1 : ele.n_nodes + (List.map Legacy.Element.n_nodes (List.take e rest)).sum + j -
          (List.map (fun node => field.value node.point ele_index) ele.node).length =
          (List.map Legacy.Element.n_nodes (List.take e rest)).sum + j := by
        simp [Legacy.Element.n_nodes]; omega
      rw [e1, this]
      congr 2
      omega

/-! ### What a call of `compute_field_data` stages -/

/-- On rank 0, a call of `compute_field_data` whose copy loops run to their end
returns normally and leaves, as the buffer of the field in the given space,
the result `od1` of the copy loops on the buffer `od0` it started from: the
buffer found by the lookup, or the freshly allocated one when the lookup
found none. -/
theorem compute_field_data_staged {P α : Type} [Zero α] [Add α] [CountDiv α]
    (heap : Nat → α) (heap_count : Nat → Nat) (vt : Legacy.ValueType)
    (ref_type : Legacy.RefType) (field : Legacy.Field P α) (ot : Legacy.OutputTime P α)
    (hrank : ot.rank = 0) (od0 od1 : Legacy.OutputData α)
    (h0 : ot.output_data_by_field field.id ref_type = some od0 ∨
      (ot.output_data_by_field field.id ref_type = none ∧
        Legacy.new_output_data heap vt field.id (Legacy.item_count field.mesh ref_type) =
          Except.ok od0))
    (hcopy : Legacy.copy_data heap_count ref_type vt field field.mesh
      (Legacy.item_count field.mesh ref_type) od0 = Except.ok od1) :
    ∃ ot1, Legacy.compute_field_data heap heap_count vt ref_type field (some ot) =
        Except.ok (some ot1) ∧
      ot1.output_data_by_field field.id ref_type = some od1 := by
  have hfind : ∀ (ot2 : Legacy.OutputTime P α) (t : Int),
      ({ ot2 with time := t } : Legacy.OutputTime P α).output_data_by_field field.id ref_type =
        ot2.output_data_by_field field.id ref_type := by
    intro ot2 t
    cases ref_type <;> rfl
  have hshape := copy_data_shape heap_count ref_type vt field field.mesh _ od0 od1 hcopy
  unfold Legacy.compute_field_data
  simp only []
  rw [if_neg (not_not.mpr hrank)]
  -- the stream with its mesh set has the same staged vectors
  generalize hota : (match ot.mesh with
    | none => ({ ot with mesh := some field.mesh } : Legacy.OutputTime P α)
    | some _ => ot) = ota
  have hvec : ota.data_vector ref_type = ot.data_vector ref_type := by
    rw [← hota]
    split
    · cases ref_type <;> rfl
    · rfl
  have hlook : ota.output_data_by_field field.id ref_type =
      ot.output_data_by_field field.id ref_type := by
    unfold Legacy.OutputTime.output_data_by_field
    rw [hvec]
  rcases h0 with h | ⟨h, hnew⟩
  · rw [hlook, h]
    simp only
    rw [hcopy]
    simp only
    have hfield : od0.field = field.id := by
      unfold Legacy.OutputTime.output_data_by_field at h
      have := List.find?_some h
      simpa using this
    have hstaged : (ota.set_data_vector ref_type
        (Legacy.update_by_field field.id (fun _ => od1) (ota.data_vector ref_type))
        ).output_data_by_field field.id ref_type = some od1 := by
      unfold Legacy.OutputTime.output_data_by_field
      rw [data_vector_set_data_vector, find_update_by_field, hvec]
      · unfold Legacy.OutputTime.output_data_by_field at h
        rw [h]; rfl
      · intro od _
        exact hshape.1.trans hfield
    split
    · exact ⟨_, rfl, by rw [hfind]; exact hstaged⟩
    · exact ⟨_, rfl, hstaged⟩
  · rw [hlook, h, hnew]
    simp only
    rw [hcopy]
    simp only
    have hfield : od0.field = field.id := by
      cases vt <;> simp [Legacy.new_output_data, Legacy.OutputData.construct] at hnew <;>
        (subst hnew; rfl)
    have hstaged : (ota.set_data_vector ref_type
        (ota.data_vector ref_type ++ [od1])).output_data_by_field field.id ref_type =
        some od1 := by
      unfold Legacy.OutputTime.output_data_by_field
      rw [data_vector_set_data_vector]
      apply find_append_new
      · rw [hvec]; exact h
      · exact hshape.1.trans hfield
    split
    · exact ⟨_, rfl, by rw [hfind]; exact hstaged⟩
    · exact ⟨_, rfl, hstaged⟩

/-- A value type known to the `typeid` tests gets a fresh buffer of 1 or 3
scalars per item, owned by the field. -/
theorem new_output_data_known {α : Type} (heap : Nat → α) (vt : Legacy.ValueType)
    (hvt : vt.known = true) (field n : Nat) :
    ∃ od, Legacy.new_output_data heap vt field n = Except.ok od ∧ od.field = field ∧
      od.items_count = n ∧ od._data.length = od.vector_items_count * od.items_count ∧
      (od.vector_items_count = 1 ∨ od.vector_items_count = 3) := by
  cases vt <;>
    first
    | exact absurd hvt (by decide)
    | exact ⟨_, rfl, rfl, rfl, by simp [Legacy.OutputData.construct], by
        simp [Legacy.OutputData.construct]⟩

/-- C8: on rank 0, for a value type known to the `typeid` tests and a buffer
(if one is already staged) with room for all corners, `compute_field_data`
with CORNER_DATA returns normally and the staged buffer holds, for every
element `e` and local node `j`, in slot (sum of `n_nodes` over the elements
before `e`) + `j`, the field value on element `e` at that node: the first
(sum of `n_nodes`) slots are exactly the corner values in
element-then-local-node order, each taken from one element, none averaged. -/
theorem corner_data_slots {P α : Type} [Zero α] [Add α] [CountDiv α]
    (heap : Nat → α) (heap_count : Nat → Nat) (vt : Legacy.ValueType)
    (field : Legacy.Field P α) (ot : Legacy.OutputTime P α)
    (hrank : ot.rank = 0) (hvt : vt.known = true)
    (hbuf : ∀ od, ot.output_data_by_field field.id Legacy.RefType.CORNER_DATA = some od →
      (field.mesh.element.map Legacy.Element.n_nodes).sum ≤ od._data.length) :
    ∃ ot1 od1,
      Legacy.compute_field_data heap heap_count vt Legacy.RefType.CORNER_DATA field (some ot) =
        Except.ok (some ot1) ∧
      ot1.output_data_by_field field.id Legacy.RefType.CORNER_DATA = some od1 ∧
      (∀ (e j : Nat) (he : e < field.mesh.element.length)
          (hj : j < (field.mesh.element[e]).node.length),
        od1._data[((field.mesh.element.take e).map Legacy.Element.n_nodes).sum + j]? =
          some (field.value ((field.mesh.element[e]).node[j]).point e)) ∧
      od1._data.take ((field.mesh.element.map Legacy.Element.n_nodes).sum) =
        Legacy.corner_values field 0 field.mesh.element := by
  -- the buffer the copy loop starts from, and its room
  obtain ⟨od0, h0, hroom⟩ : ∃ od0,
      (ot.output_data_by_field field.id Legacy.RefType.CORNER_DATA = some od0 ∨
        (ot.output_data_by_field field.id Legacy.RefType.CORNER_DATA = none ∧
          Legacy.new_output_data heap vt field.id
            (Legacy.item_count field.mesh Legacy.RefType.CORNER_DATA) = Except.ok od0)) ∧
      (field.mesh.element.map Legacy.Element.n_nodes).sum ≤ od0._data.length := by
    cases h : ot.output_data_by_field field.id Legacy.RefType.CORNER_DATA with
    | some od0 => exact ⟨od0, Or.inl rfl, hbuf od0 h⟩
    | none =>
      obtain ⟨od, h1, _, h3, h4, h5⟩ := new_output_data_known heap vt hvt field.id
        (Legacy.item_count field.mesh Legacy.RefType.CORNER_DATA)
      refine ⟨od, Or.inr ⟨rfl, h1⟩, ?_⟩
      rw [h4, h3, item_count_corner]
      rcases h5 with h5 | h5 <;> rw [h5] <;> omega
  obtain ⟨od1, hcopy⟩ : ∃ od1, Legacy.copy_data heap_count Legacy.RefType.CORNER_DATA vt field
      field.mesh (Legacy.item_count field.mesh Legacy.RefType.CORNER_DATA) od0 =
        Except.ok od1 := ⟨_, rfl⟩
  obtain ⟨ot1, hres, hstaged⟩ := compute_field_data_staged heap heap_count vt
    Legacy.RefType.CORNER_DATA field ot hrank od0 od1 h0 hcopy
  have hdata : od1._data =
      Legacy.write_run 0 (Legacy.corner_values field 0 field.mesh.element) od0._data := by
    simp only [Legacy.copy_data] at hcopy
    injection hcopy with hcopy
    rw [← hcopy, corner_copy_loop vt hvt]
  have hlen := length_corner_values field 0 field.mesh.element
  have hentry : ∀ k, k < (field.mesh.element.map Legacy.Element.n_nodes).sum →
      od1._data[k]? = (Legacy.corner_values field 0 field.mesh.element)[k]? := by
    intro k hk
    rw [hdata, getElem?_write_run, if_pos (by omega),
      List.getElem?_eq_getElem (show k < od0._data.length by omega)]
    rfl
  refine ⟨ot1, _, hres, hstaged, ?_, ?_⟩
  · intro e j he hj
    have hcv := corner_values_getElem? field field.mesh.element 0 e j he hj
    have hlt : ((field.mesh.element.take e).map Legacy.Element.n_nodes).sum + j <
        (field.mesh.element.map Legacy.Element.n_nodes).sum := by
      by_contra hcon
      rw [List.getElem?_eq_none (by omega)] at hcv
      cases hcv
    rw [hentry _ hlt, hcv, Nat.zero_add]
  · apply List.ext_getElem?
    intro k
    by_cases hk : k < (field.mesh.element.map Legacy.Element.n_nodes).sum
    · rw [List.getElem?_take_of_lt hk, hentry k hk]
    · rw [List.getElem?_eq_none (le_trans (List.length_take_le _ _) (by omega)),
        List.getElem?_eq_none (by omega)]

/-- Witness for C8: the two line elements of `sample_mesh`, nothing staged
before. -/
theorem corner_data_slots_witness :
    sample_output_time.rank = 0 ∧ Legacy.ValueType.Integer.known = true ∧
    ∃ ot1 od1,
      Legacy.compute_field_data zero_mem (fun _ => 0) Legacy.ValueType.Integer
        Legacy.RefType.CORNER_DATA sample_field (some sample_output_time) =
        Except.ok (some ot1) ∧
      ot1.output_data_by_field sample_field.id Legacy.RefType.CORNER_DATA = some od1 ∧
      od1._data.take ((sample_field.mesh.element.map Legacy.Element.n_nodes).sum) =
        Legacy.corner_values sample_field 0 sample_field.mesh.element := by
  refine ⟨rfl, rfl, ?_⟩
  obtain ⟨ot1, od1, h1, h2, _, h4⟩ := corner_data_slots zero_mem (fun _ => 0)
    Legacy.ValueType.Integer sample_field sample_output_time rfl rfl
    (by intro od h; cases h)
  exact ⟨ot1, od1, h1, h2, h4⟩

/-- On rank 0 and for a value type known to the `typeid` tests, a call of
`compute_field_data` whose copy loops run to their end (as they always do for
ELEM_DATA and CORNER_DATA, and for NODE_DATA when the division of the element
type is always defined) returns, and the buffer staged for the field has one
item per mesh element for ELEM_DATA, one per mesh node for NODE_DATA and (sum
over the elements of `n_nodes`) items for CORNER_DATA, and its array holds
`vector_items_count` scalars per item; a buffer staged by an earlier call with
those counts is reused with the counts unchanged. -/
theorem staged_counts {P α : Type} [Zero α] [Add α] [CountDiv α]
    (heap : Nat → α) (heap_count : Nat → Nat) (vt : Legacy.ValueType)
    (ref_type : Legacy.RefType) (field : Legacy.Field P α) (ot : Legacy.OutputTime P α)
    (hrank : ot.rank = 0) (hvt : vt.known = true)
    (hinv : ∀ od, ot.output_data_by_field field.id ref_type = some od →
      od.items_count = Legacy.item_count field.mesh ref_type ∧
      od._data.length = od.vector_items_count * od.items_count)
    (hdiv : ref_type = Legacy.RefType.NODE_DATA →
      ∀ (raw : α) (c : Nat), ∃ quotient, CountDiv.divCount raw c = some quotient) :
    ∃ ot1 od1,
      Legacy.compute_field_data heap heap_count vt ref_type field (some ot) =
        Except.ok (some ot1) ∧
      ot1.output_data_by_field field.id ref_type = some od1 ∧
      od1.items_count =
        (match ref_type with
          | Legacy.RefType.ELEM_DATA => field.mesh.n_elements
          | Legacy.RefType.NODE_DATA => field.mesh.n_nodes
          | Legacy.RefType.CORNER_DATA =>
            (field.mesh.element.map Legacy.Element.n_nodes).sum) ∧
      od1._data.length = od1.vector_items_count * od1.items_count := by
  obtain ⟨od0, h0, hcount, hlen⟩ : ∃ od0,
      (ot.output_data_by_field field.id ref_type = some od0 ∨
        (ot.output_data_by_field field.id ref_type = none ∧
          Legacy.new_output_data heap vt field.id (Legacy.item_count field.mesh ref_type) =
            Except.ok od0)) ∧
      od0.items_count = Legacy.item_count field.mesh ref_type ∧
      od0._data.length = od0.vector_items_count * od0.items_count := by
    cases h : ot.output_data_by_field field.id ref_type with
    | some od0 => exact ⟨od0, Or.inl rfl, hinv od0 h⟩
    | none =>
      obtain ⟨od, h1, _, h3, h4, _⟩ := new_output_data_known heap vt hvt field.id
        (Legacy.item_count field.mesh ref_type)
      exact ⟨od, Or.inr ⟨rfl, h1⟩, h3, h4⟩
  obtain ⟨od1, hcopy⟩ := copy_data_returns heap_count ref_type vt field field.mesh
    (Legacy.item_count field.mesh ref_type) od0 hdiv
  obtain ⟨ot1, hres, hstaged⟩ := compute_field_data_staged heap heap_count vt
    ref_type field ot hrank od0 od1 h0 hcopy
  obtain ⟨_, s2, s3, s4⟩ := copy_data_shape heap_count ref_type vt field field.mesh
    (Legacy.item_count field.mesh ref_type) od0 od1 hcopy
  refine ⟨ot1, od1, hres, hstaged, ?_, ?_⟩
  · rw [s2, hcount]
    cases ref_type
    · rfl
    · exact item_count_corner field.mesh
    · rfl
  · rw [s4, s3, s2, hlen]

/-- A loop whose every step appends to the stream a text that does not depend
on what the stream holds already, appends such a text as a whole. -/
theorem foldl_appends {β : Type} (step : String → β → String)
    (h : ∀ acc x, step acc x = acc ++ step "" x) (l : List β) (out : String) :
    l.foldl step out = out ++ l.foldl step "" := by
  induction l generalizing out with
  | nil => simp
  | cons x rest ih =>
    rw [List.foldl_cons, List.foldl_cons, ih (step out x), ih (step "" x), h out x,
      String.append_assoc]

/-- One printing step appends. -/
theorem put_elem_appends {α : Type} (fmt : α → String) (vec : List α) (acc : String) (i : Nat) :
    put_elem fmt vec acc i = acc ++ put_elem fmt vec "" i := by
  unfold put_elem
  cases vec[i]? <;> simp [String.append_assoc]

/-- One binary writing step appends. -/
theorem write_elem_appends {α : Type} (raw : α → String) (vec : List α) (acc : String)
    (i : Nat) : write_elem raw vec acc i = acc ++ write_elem raw vec "" i := by
  unfold write_elem
  cases vec[i]? <;> simp

/-- The inner loop over one slot appends when its body does. -/
theorem slot_loop_appends (n_elem_ idx : Nat) (body : String → Nat → String)
    (h : ∀ acc i, body acc i = acc ++ body "" i) (out : String) :
    slot_loop n_elem_ idx body out = out ++ slot_loop n_elem_ idx body "" := by
  unfold slot_loop
  exact foldl_appends body h _ out

/-- C10: `print_ascii`, `print_ascii_all`, `print_binary_all` and
`print_all_yaml` return the object as it was (buffer, `n_values`, `n_elem_` and
all other fields), and the text each appends to the stream does not depend on
what was written before; so a second call right after the first appends the
same text again. -/
theorem print_methods_read_only {α : Type} (fmt : α → String) (raw : α → String)
    (raw_size : Nat → String) (sizeof_elem : Nat) (to_yaml : List α → Nat → String)
    (d : OutputData α) (out : String) (idx precision : Nat) (print_data_size : Bool) :
    (d.print_ascii fmt out idx =
        Except.map (fun r => (d, out ++ r.2)) (d.print_ascii fmt "" idx)) ∧
    (d.print_ascii_all fmt out = (d, out ++ (d.print_ascii_all fmt "").2) ∧
      (d.print_ascii_all fmt out).1.print_ascii_all fmt (d.print_ascii_all fmt out).2 =
        (d, out ++ (d.print_ascii_all fmt "").2 ++ (d.print_ascii_all fmt "").2)) ∧
    (d.print_binary_all raw raw_size sizeof_elem out print_data_size =
        (d, out ++ (d.print_binary_all raw raw_size sizeof_elem "" print_data_size).2) ∧
      (d.print_binary_all raw raw_size sizeof_elem out print_data_size).1.print_binary_all
          raw raw_size sizeof_elem
          (d.print_binary_all raw raw_size sizeof_elem out print_data_size).2 print_data_size =
        (d, out ++ (d.print_binary_all raw raw_size sizeof_elem "" print_data_size).2 ++
          (d.print_binary_all raw raw_size sizeof_elem "" print_data_size).2)) ∧
    (d.print_all_yaml to_yaml out precision =
        (d, out ++ (d.print_all_yaml to_yaml "" precision).2) ∧
      (d.print_all_yaml to_yaml out precision).1.print_all_yaml to_yaml
          (d.print_all_yaml to_yaml out precision).2 precision =
        (d, out ++ (d.print_all_yaml to_yaml "" precision).2 ++
          (d.print_all_yaml to_yaml "" precision).2)) := by
  have hascii : ∀ o : String, d.print_ascii_all fmt o = (d, o ++ (d.print_ascii_all fmt "").2) := by
    intro o
    unfold OutputData.print_ascii_all
    rw [foldl_appends _
      (fun acc i => slot_loop_appends d.n_elem_ i _ (put_elem_appends fmt d.vec) acc)]
  have hbin : ∀ o : String, d.print_binary_all raw raw_size sizeof_elem o print_data_size =
      (d, o ++ (d.print_binary_all raw raw_size sizeof_elem "" print_data_size).2) := by
    intro o
    unfold OutputData.print_binary_all
    simp only
    rw [foldl_appends _
      (fun acc i => slot_loop_appends d.n_elem_ i _ (write_elem_appends raw d.vec) acc)]
    cases print_data_size
    · simp only [Bool.false_eq_true, if_false]
    · simp only [if_true]
      conv_rhs => rw [foldl_appends _
        (fun acc i => slot_loop_appends d.n_elem_ i _ (write_elem_appends raw d.vec) acc)]
      simp [String.append_assoc]
  have hyaml : ∀ o : String, d.print_all_yaml to_yaml o precision =
      (d, o ++ (d.print_all_yaml to_yaml "" precision).2) := by
    intro o
    unfold OutputData.print_all_yaml
    simp only
    have hstep : ∀ (acc : String) (i : Nat),
        (fun (out : String) (idx : Nat) =>
          (if idx ≠ 0 then out ++ ", " else out) ++
            to_yaml (d.vec.drop (d.n_elem_ * idx)) precision) acc i =
        acc ++ (fun (out : String) (idx : Nat) =>
          (if idx ≠ 0 then out ++ ", " else out) ++
            to_yaml (d.vec.drop (d.n_elem_ * idx)) precision) "" i := by
      intro acc i
      by_cases hi : i = 0 <;> simp [hi, String.append_assoc]
    rw [foldl_appends _ hstep]
    conv_rhs => rw [foldl_appends _ hstep]
    simp [String.append_assoc]
  refine ⟨?_, ⟨hascii out, ?_⟩, ⟨hbin out, ?_⟩, ⟨hyaml out, ?_⟩⟩
  · unfold OutputData.print_ascii
    by_cases h : idx < d.n_values
    · simp only [h, if_true, Except.map]
      rw [slot_loop_appends d.n_elem_ idx _ (put_elem_appends fmt d.vec)]
    · simp only [h, if_false, Except.map]
  · rw [hascii out]
    simp only
    rw [hascii]
  · rw [hbin out]
    simp only
    rw [hbin]
  · rw [hyaml out]
    simp only
    rw [hyaml]

/-! ## Value range -/

/-- C11 (evaluation at the failing input): for the buffer holding -1 and -2,
`get_min_max_range` leaves min = -2, the smallest stored value, but
max = `numeric_limits<double>::min()`, a positive number that is not stored,
instead of the largest stored value -1. -/
theorem get_min_max_range_all_negative :
    (sample_negative_data.get_min_max_range id).2 = (-2, numeric_limits_double_min) ∧
    0 < numeric_limits_double_min ∧
    sample_negative_data.vec = [-1, -2] := by
  refine ⟨?_, by unfold numeric_limits_double_min; positivity, rfl⟩
  have hmax : (0 : ℚ) < numeric_limits_double_max := by
    unfold numeric_limits_double_max; norm_num
  have hmin : (0 : ℚ) < numeric_limits_double_min := by
    unfold numeric_limits_double_min; positivity
  have h1 : ((-1 : ℚ) < numeric_limits_double_max) := by linarith
  have h2 : ¬ ((-1 : ℚ) > numeric_limits_double_min) := by
    intro h; have : (-1 : ℚ) > 0 := lt_trans hmin h; norm_num at this
  have h3 : ¬ ((-2 : ℚ) > numeric_limits_double_min) := by
    intro h; have : (-2 : ℚ) > 0 := lt_trans hmin h; norm_num at this
  simp [OutputData.get_min_max_range, sample_negative_data, slot_loop, OutputData.vec,
    List.range_succ, min_max_step, List.range', h1, h2, h3]

/-! ## GMSH writer: corner data lines -/

/-- The loop over the nodes of one element prints the corner indices from
`i_corner` on and advances `i_corner` by the node count. -/
theorem print_corners_eq {σ : Type} (print_ascii : σ → Nat → σ) (n_nodes : Nat)
    (s : CornerLoop σ) :
    print_corners print_ascii n_nodes s =
      { file := (List.range' s.i_corner n_nodes).foldl print_ascii s.file
        i_corner := s.i_corner + n_nodes } := by
  unfold print_corners
  induction n_nodes with
  | zero => rfl
  | succ n ih =>
    rw [List.range_succ, List.foldl_append, ih, List.range'_1_concat, List.foldl_append]
    rfl

/-- The loop over the elements, when there is one id per element, writes the
corner records and ends with `i_corner` at the total number of corners. -/
theorem corner_loop_eq {σ : Type} (os : OStream σ) (print_ascii : σ → Nat → σ)
    (id_vec : List Nat) (output_mesh : List OutputElement)
    (hlen : id_vec.length = output_mesh.length) (s : CornerLoop σ) :
    (List.range id_vec.length).foldl (corner_step os print_ascii output_mesh id_vec) s =
      { file := corner_records os print_ascii s.i_corner (id_vec.zip output_mesh) s.file
        i_corner := s.i_corner + (output_mesh.map OutputElement.n_nodes).sum } := by
  induction id_vec generalizing output_mesh s with
  | nil =>
    cases output_mesh with
    | nil => rfl
    | cons e rest => simp at hlen
  | cons id ids ih =>
    cases output_mesh with
    | nil => simp at hlen
    | cons e rest =>
      have hlen1 : ids.length = rest.length := by simpa using hlen
      have hshift : (fun (s : CornerLoop σ) (i : Nat) =>
          corner_step os print_ascii (e :: rest) (id :: ids) s (i + 1)) =
          corner_step os print_ascii rest ids := by
        funext s i
        simp [corner_step]
      rw [List.length_cons, List.range_succ_eq_map, List.foldl_cons, List.foldl_map]
      have hstep : (fun (s : CornerLoop σ) (i : Nat) =>
          corner_step os print_ascii (e :: rest) (id :: ids) s i.succ) =
          corner_step os print_ascii rest ids := hshift
      rw [hstep, ih rest hlen1]
      simp only [corner_step, print_corners_eq, List.getD_cons_zero, List.zip_cons_cons,
        corner_records, List.map_cons, List.sum_cons, Nat.add_assoc]
      rfl

/-- The recorded `print_ascii` indices of two runs of events, one behind the
other. -/
theorem printed_indices_append (l1 l2 : List StreamEvent) :
    printed_indices (l1 ++ l2) = printed_indices l1 ++ printed_indices l2 := by
  induction l1 with
  | nil => rfl
  | cons ev rest ih =>
    cases ev <;> simp [printed_indices, ih]

/-- A run of `print_ascii` calls on the recording stream records its indices. -/
theorem printed_indices_foldl (idxs : List Nat) (file : List StreamEvent) :
    printed_indices (idxs.foldl record_print_ascii file) = printed_indices file ++ idxs := by
  induction idxs generalizing file with
  | nil => simp
  | cons i rest ih =>
    rw [List.foldl_cons, ih, record_print_ascii, printed_indices_append]
    simp [printed_indices]

/-- The corner records on the recording stream call `print_ascii` with the
indices `i_corner, i_corner+1, ...`, one per corner. -/
theorem printed_indices_corner_records (recs : List (Nat × OutputElement)) (i_corner : Nat)
    (file : List StreamEvent) :
    printed_indices (corner_records recorder record_print_ascii i_corner recs file) =
      printed_indices file ++
        List.range' i_corner ((recs.map (fun r => r.2.n_nodes)).sum) := by
  induction recs generalizing i_corner file with
  | nil => simp [corner_records]
  | cons r rest ih =>
    obtain ⟨id, ele⟩ := r
    simp only [corner_records]
    rw [ih]
    simp only [recorder, printed_indices_append, printed_indices_foldl,
      printed_indices, List.append_nil, List.map_cons, List.sum_cons, List.append_assoc]
    rw [List.range'_append_1, Nat.add_comm]


/-- C12: in corner mode, when the id vector has one id per element of the
output mesh, `write_msh_ascii_data` writes (after setting the precision) one
line per element in mesh order, made of the element id, its node count `n`
and `print_ascii` for `n` consecutive corner indices; over the whole call
`print_ascii` is called with the indices 0, 1, ..., (sum of `n_nodes`) - 1, each
once, in increasing order. -/
theorem write_msh_ascii_data_corner {σ : Type} (os : OStream σ) (print_ascii : σ → Nat → σ)
    (n_values : Nat) (output_mesh : List OutputElement) (id_vec : List Nat) (file : σ)
    (hlen : id_vec.length = output_mesh.length) :
    write_msh_ascii_data os print_ascii n_values output_mesh id_vec file true =
      corner_records os print_ascii 0 (id_vec.zip output_mesh) (os.precision file 15) ∧
    printed_indices
        (write_msh_ascii_data recorder record_print_ascii n_values output_mesh id_vec [] true) =
      List.range ((output_mesh.map OutputElement.n_nodes).sum) := by
  have hgen : ∀ {τ : Type} (os1 : OStream τ) (pa : τ → Nat → τ) (f : τ),
      write_msh_ascii_data os1 pa n_values output_mesh id_vec f true =
        corner_records os1 pa 0 (id_vec.zip output_mesh) (os1.precision f 15) := by
    intro τ os1 pa f
    unfold write_msh_ascii_data
    simp only [if_true]
    rw [corner_loop_eq os1 pa id_vec output_mesh hlen]
  refine ⟨hgen os print_ascii file, ?_⟩
  rw [hgen, printed_indices_corner_records]
  have hsum : (List.map (fun r : Nat × OutputElement => r.2.n_nodes)
      (id_vec.zip output_mesh)).sum = (output_mesh.map OutputElement.n_nodes).sum := by
    have : (id_vec.zip output_mesh).map (fun r => r.2) = output_mesh := by
      exact List.map_snd_zip id_vec output_mesh (le_of_eq hlen.symm)
    conv_rhs => rw [← this]
    rw [List.map_map]
    rfl
  rw [hsum]
  simp [recorder, printed_indices, List.range_eq_range']

/-- Witness for C12: two elements with ids 11 and 12 and with 2 and 3 nodes;
the printed corner indices are 0, 1, 2, 3, 4. -/
theorem write_msh_ascii_data_corner_witness :
    [11, 12].length = [OutputElement.mk 2, OutputElement.mk 3].length ∧
    printed_indices
        (write_msh_ascii_data recorder record_print_ascii 5
          [OutputElement.mk 2, OutputElement.mk 3] [11, 12] [] true) = [0, 1, 2, 3, 4] :=
  ⟨rfl, (write_msh_ascii_data_corner recorder record_print_ascii 5
    [OutputElement.mk 2, OutputElement.mk 3] [11, 12] [] rfl).2.trans (by decide)⟩

/-! ## GMSH writer: placeholders for inactive fields -/

/-- Counterexample to C13: the first frame recorded the node fields "a", "b",
"c"; with "a" and "c" present before the call, the names after
`add_dummy_fields` are "a", "c", "b": the placeholder of "b" is appended, and
the order of the first frame is not kept. -/
theorem add_dummy_fields_appends :
    field_names (sample_msh.dummy_data_list_ DiscreteSpace.NODE_DATA) = ["a", "b", "c"] ∧
    field_names (sample_msh.output_data_vec_ DiscreteSpace.NODE_DATA) = ["a", "c"] ∧
    field_names (sample_msh.add_dummy_fields.output_data_vec_ DiscreteSpace.NODE_DATA) =
      ["a", "c", "b"] ∧
    field_names (sample_msh.add_dummy_fields.dummy_data_list_ DiscreteSpace.NODE_DATA) =
      ["a", "b", "c"] := by
  decide

/-- The result of `add_dummy_fields` in one of the three spaces it visits is
the result of the loop body on the two lists of that space. -/
theorem add_dummy_fields_at (m : OutputMSH) (sp : DiscreteSpace) (hsp : sp ∈ space_types) :
    m.add_dummy_fields.dummy_data_list_ sp =
      (add_dummy_fields_space (m.dummy_data_list_ sp) (m.output_data_vec_ sp)).1 ∧
    m.add_dummy_fields.output_data_vec_ sp =
      (add_dummy_fields_space (m.dummy_data_list_ sp) (m.output_data_vec_ sp)).2 := by
  unfold OutputMSH.add_dummy_fields space_types
  cases sp <;> simp [space_types] at hsp <;> simp [Function.update]

/-- The loop that collects the output fields turns each output data into its
placeholder, in order. -/
theorem collect_dummies (data_list acc : List ElementDataCacheBase) :
    data_list.foldl
        (fun acc out_ptr => acc ++ [DummyOutputData out_ptr.field_input_name_ out_ptr.n_elem_])
        acc =
      acc ++ data_list.map (fun p => DummyOutputData p.field_input_name_ p.n_elem_) := by
  induction data_list generalizing acc with
  | nil => simp
  | cons p rest ih => simp [ih]

/-- The entry right behind a prefix of a list. -/
theorem getElem?_append_cons_length {α : Type} (pre : List α) (x : α) (xs : List α) :
    (pre ++ x :: xs)[pre.length]? = some x := by
  rw [List.getElem?_append_right (le_refl _)]
  simp

/-- The loop over the recorded placeholders, started behind the entries `pre`
already passed by `data_it`, with the present entries `p2` still ahead and the
placeholders `pushed` appended so far: it appends the placeholders of the
recorded fields that are not among `p2`, and moves `data_it` behind `p2`. -/
theorem foldl_add_dummy_step (recorded : List ElementDataCacheBase) :
    ∀ (pre p2 pushed : List ElementDataCacheBase),
      (field_names p2).Sublist (field_names recorded) →
      (field_names recorded).Nodup →
      (∀ x ∈ pushed, x.field_input_name_ ∉ field_names recorded) →
      recorded.foldl add_dummy_step (pre ++ p2 ++ pushed, pre.length) =
        (pre ++ p2 ++ pushed ++
            recorded.filter (fun d => decide (d.field_input_name_ ∉ field_names p2)),
          pre.length + p2.length) := by
  induction recorded with
  | nil =>
    intro pre p2 pushed hsub _ _
    have : p2 = [] := by
      cases p2 with
      | nil => rfl
      | cons q rest => simp [field_names] at hsub
    subst this
    simp
  | cons d rest ih =>
    intro pre p2 pushed hsub hnodup hpushed
    have hd : d.field_input_name_ ∉ field_names rest := by
      have := hnodup
      simp only [field_names, List.map_cons, List.nodup_cons] at this
      exact this.1
    have hrest : (field_names rest).Nodup := by
      have := hnodup
      simp only [field_names, List.map_cons, List.nodup_cons] at this
      exact this.2
    rw [List.foldl_cons]
    cases p2 with
    | nil =>
      -- nothing present ahead: the placeholder is appended
      have hstep : add_dummy_step (pre ++ [] ++ pushed, pre.length) d =
          (pre ++ [] ++ (pushed ++ [d]), pre.length) := by
        unfold add_dummy_step
        cases pushed with
        | nil => simp
        | cons x xs =>
          have hx : d.field_input_name_ ≠ x.field_input_name_ := by
            intro h
            apply hpushed x (List.mem_cons_self _ _)
            simp [field_names, ← h]
          have hget : (pre ++ [] ++ x :: xs)[pre.length]? = some x := by
            rw [List.append_nil]
            exact getElem?_append_cons_length pre x xs
          simp only [hget]
          simp [hx]
      rw [hstep, ih pre [] (pushed ++ [d]) (by simp [field_names]) hrest]
      · simp [field_names]
      · intro x hx
        rcases List.mem_append.mp hx with h | h
        · intro hmem
          exact hpushed x h (by simp only [field_names, List.map_cons]; exact List.mem_cons_of_mem _ hmem)
        · simp only [List.mem_singleton] at h
          subst h
          exact hd
    | cons q p2r =>
      by_cases hq : d.field_input_name_ = q.field_input_name_
      · -- the recorded field is the next present one: the iterator advances
        have hstep : add_dummy_step (pre ++ q :: p2r ++ pushed, pre.length) d =
            ((pre ++ [q]) ++ p2r ++ pushed, (pre ++ [q]).length) := by
          unfold add_dummy_step
          have hget : (pre ++ q :: p2r ++ pushed)[pre.length]? = some q := by
            rw [List.append_assoc, List.cons_append]
            exact getElem?_append_cons_length pre q (p2r ++ pushed)
          simp only [hget]
          simp [hq]
        have hsub1 : (field_names p2r).Sublist (field_names rest) := by
          simp only [field_names, List.map_cons, ← hq] at hsub
          exact List.cons_sublist_cons.mp hsub
        rw [hstep, ih (pre ++ [q]) p2r pushed hsub1 hrest]
        · have hfilter : rest.filter
              (fun d => decide (d.field_input_name_ ∉ field_names p2r)) =
              rest.filter (fun d => decide (d.field_input_name_ ∉ field_names (q :: p2r))) := by
            apply List.filter_congr
            intro x hx
            have hxq : x.field_input_name_ ≠ q.field_input_name_ := by
              intro h
              apply hd
              rw [hq, ← h]
              exact List.mem_map_of_mem _ hx
            simp [field_names, hxq]
          rw [hfilter]
          simp [field_names, hq, Nat.add_assoc]
          omega
        · intro x hx hmem
          exact hpushed x hx (by
            simp only [field_names, List.map_cons]; exact List.mem_cons_of_mem _ hmem)
      · -- the recorded field is missing: its placeholder is appended
        have hstep : add_dummy_step (pre ++ q :: p2r ++ pushed, pre.length) d =
            (pre ++ q :: p2r ++ (pushed ++ [d]), pre.length) := by
          unfold add_dummy_step
          have hget : (pre ++ q :: p2r ++ pushed)[pre.length]? = some q := by
            rw [List.append_assoc, List.cons_append]
            exact getElem?_append_cons_length pre q (p2r ++ pushed)
          simp only [hget]
          simp [hq]
        have hsub1 : (field_names (q :: p2r)).Sublist (field_names rest) := by
          simp only [field_names, List.map_cons] at hsub ⊢
          rcases List.sublist_cons_iff.mp hsub with h | ⟨r, h1, _⟩
          · exact h
          · exact absurd (List.cons.inj h1).1.symm hq
        have hdq : d.field_input_name_ ∉ field_names (q :: p2r) := fun h => hd (hsub1.subset h)
        rw [hstep, ih pre (q :: p2r) (pushed ++ [d]) hsub1 hrest]
        · simp [hdq]
        · intro x hx
          rcases List.mem_append.mp hx with h | h
          · intro hmem
            exact hpushed x h (by
              simp only [field_names, List.map_cons]; exact List.mem_cons_of_mem _ hmem)
          · simp only [List.mem_singleton] at h
            subst h
            exact hd

/-- The names of the recorded placeholders whose field is not among `present`. -/
theorem field_names_filter (recorded : List ElementDataCacheBase) (present : List String) :
    field_names (recorded.filter (fun d => decide (d.field_input_name_ ∉ present))) =
      (field_names recorded).filter (fun n => decide (n ∉ present)) := by
  unfold field_names
  rw [List.filter_map]
  rfl

/-- C13 (amended): in each of the three spaces, when the recorded field names
are distinct and the fields present before the call are a subsequence of the
recorded ones, after `add_dummy_fields` the list `output_data_vec_` holds the
fields that were present, in their order, followed by the recorded
placeholders of the missing fields, in recorded order. Hence its field names
are a rearrangement of the recorded sequence, and they equal the recorded
sequence, in the same order, whenever the present fields are a leading part
of it (all fields present, or only trailing fields missing). -/
theorem add_dummy_fields_names (m : OutputMSH) (sp : DiscreteSpace) (hsp : sp ∈ space_types)
    (hnodup : (field_names (m.add_dummy_fields.dummy_data_list_ sp)).Nodup)
    (hsub : (field_names (m.output_data_vec_ sp)).Sublist
      (field_names (m.add_dummy_fields.dummy_data_list_ sp))) :
    m.add_dummy_fields.output_data_vec_ sp =
      m.output_data_vec_ sp ++
        (m.add_dummy_fields.dummy_data_list_ sp).filter
          (fun d => decide (d.field_input_name_ ∉ field_names (m.output_data_vec_ sp))) ∧
    (field_names (m.add_dummy_fields.output_data_vec_ sp)).Perm
      (field_names (m.add_dummy_fields.dummy_data_list_ sp)) ∧
    (∀ missing, field_names (m.add_dummy_fields.dummy_data_list_ sp) =
        field_names (m.output_data_vec_ sp) ++ missing →
      field_names (m.add_dummy_fields.output_data_vec_ sp) =
        field_names (m.add_dummy_fields.dummy_data_list_ sp)) := by
  obtain ⟨hdummy, hdata⟩ := add_dummy_fields_at m sp hsp
  have hrec : (add_dummy_fields_space (m.dummy_data_list_ sp) (m.output_data_vec_ sp)).2 =
      ((add_dummy_fields_space (m.dummy_data_list_ sp) (m.output_data_vec_ sp)).1.foldl
        add_dummy_step (m.output_data_vec_ sp, 0)).1 := rfl
  rw [← hdummy] at hrec
  have hfold := foldl_add_dummy_step (m.add_dummy_fields.dummy_data_list_ sp) []
    (m.output_data_vec_ sp) [] hsub hnodup (by simp)
  simp only [List.nil_append, List.append_nil, List.length_nil] at hfold
  have hresult : m.add_dummy_fields.output_data_vec_ sp =
      m.output_data_vec_ sp ++
        (m.add_dummy_fields.dummy_data_list_ sp).filter
          (fun d => decide (d.field_input_name_ ∉ field_names (m.output_data_vec_ sp))) := by
    rw [hdata, hrec, hfold]
  have hnames : field_names (m.add_dummy_fields.output_data_vec_ sp) =
      field_names (m.output_data_vec_ sp) ++
        (field_names (m.add_dummy_fields.dummy_data_list_ sp)).filter
          (fun n => decide (n ∉ field_names (m.output_data_vec_ sp))) := by
    rw [hresult, ← field_names_filter]
    simp [field_names]
  refine ⟨hresult, ?_, ?_⟩
  · rw [hnames]
    apply (List.perm_ext_iff_of_nodup ?_ hnodup).mpr
    · intro a
      constructor
      · intro ha
        rcases List.mem_append.mp ha with h | h
        · exact hsub.subset h
        · exact (List.mem_filter.mp h).1
      · intro ha
        by_cases hp : a ∈ field_names (m.output_data_vec_ sp)
        · exact List.mem_append_left _ hp
        · exact List.mem_append_right _ (List.mem_filter.mpr ⟨ha, by simpa using hp⟩)
    · rw [List.nodup_append]
      refine ⟨hsub.nodup hnodup, hnodup.filter _, ?_⟩
      intro a ha hb
      have := (List.mem_filter.mp hb).2
      simp at this
      exact this ha
  · intro missing hmissing
    rw [hnames, hmissing, List.filter_append]
    have hnd := hnodup
    rw [hmissing, List.nodup_append] at hnd
    have h1 : (field_names (m.output_data_vec_ sp)).filter
        (fun n => decide (n ∉ field_names (m.output_data_vec_ sp))) = [] := by
      rw [List.filter_eq_nil_iff]
      intro a ha
      simpa using ha
    have h2 : missing.filter
        (fun n => decide (n ∉ field_names (m.output_data_vec_ sp))) = missing := by
      rw [List.filter_eq_self]
      intro a ha
      have : a ∉ field_names (m.output_data_vec_ sp) := fun h => hnd.2.2 h ha
      simpa using this
    rw [h1, h2, List.nil_append]

/-- Witness for C13 (amended): the fields "a" and "c" present, "a", "b", "c"
recorded; afterwards the list holds "a", "c" and the placeholder of "b". -/
theorem add_dummy_fields_names_witness :
    DiscreteSpace.NODE_DATA ∈ space_types ∧
    (field_names (sample_msh.add_dummy_fields.dummy_data_list_ DiscreteSpace.NODE_DATA)).Nodup ∧
    (field_names (sample_msh.output_data_vec_ DiscreteSpace.NODE_DATA)).Sublist
      (field_names (sample_msh.add_dummy_fields.dummy_data_list_ DiscreteSpace.NODE_DATA)) ∧
    (field_names (sample_msh.add_dummy_fields.output_data_vec_ DiscreteSpace.NODE_DATA)).Perm
      (field_names (sample_msh.add_dummy_fields.dummy_data_list_ DiscreteSpace.NODE_DATA)) :=
  ⟨by decide, by decide, by decide,
   (add_dummy_fields_names sample_msh DiscreteSpace.NODE_DATA (by decide) (by decide)
      (by decide)).2.1⟩

/-- The loop of the placeholder's printing methods writes `n_elem_` tokens "0 ". -/
theorem dummy_print_loop (n : Nat) (out : String) :
    (List.range n).foldl (fun out _ => out ++ "0" ++ " ") out =
      (List.replicate n "0 ").foldl (fun out token => out ++ token) out := by
  induction n with
  | zero => rfl
  | succ n ih =>
    rw [List.range_succ, List.foldl_append, ih, List.replicate_succ', List.foldl_append]
    simp only [List.foldl_cons, List.foldl_nil, String.append_assoc]
    rfl

/-- C14: on the first call of `add_dummy_fields` for a space (no placeholder
recorded yet), the placeholder recorded for the `i`-th output data of that
space is a `DummyOutputData` with the same `field_input_name` and the same
`n_elem`, and its `print_ascii` (for any `idx`) and its `print_ascii_all` each
append exactly `n_elem` tokens "0 " to the stream. -/
theorem dummy_output_data_matches (m : OutputMSH) (sp : DiscreteSpace) (hsp : sp ∈ space_types)
    (hfirst : (m.dummy_data_list_ sp).length = 0) (i : Nat) (p : ElementDataCacheBase)
    (hp : (m.output_data_vec_ sp)[i]? = some p) :
    (m.add_dummy_fields.dummy_data_list_ sp)[i]? =
      some (DummyOutputData p.field_input_name_ p.n_elem_) ∧
    (DummyOutputData p.field_input_name_ p.n_elem_).field_input_name_ = p.field_input_name_ ∧
    (DummyOutputData p.field_input_name_ p.n_elem_).n_elem_ = p.n_elem_ ∧
    (DummyOutputData p.field_input_name_ p.n_elem_).is_dummy = true ∧
    (∀ (out : String) (idx : Nat),
      DummyOutputData.print_ascii (DummyOutputData p.field_input_name_ p.n_elem_) out idx =
        (List.replicate p.n_elem_ "0 ").foldl (fun out token => out ++ token) out) ∧
    (∀ out : String,
      DummyOutputData.print_ascii_all (DummyOutputData p.field_input_name_ p.n_elem_) out =
        (List.replicate p.n_elem_ "0 ").foldl (fun out token => out ++ token) out) := by
  refine ⟨?_, rfl, rfl, rfl, ?_, ?_⟩
  · rw [(add_dummy_fields_at m sp hsp).1]
    unfold add_dummy_fields_space
    simp only [hfirst, if_true, collect_dummies]
    have hnil : m.dummy_data_list_ sp = [] := List.length_eq_zero.mp hfirst
    rw [hnil, List.nil_append, List.getElem?_map, hp]
    rfl
  · intro out idx
    exact dummy_print_loop p.n_elem_ out
  · intro out
    exact dummy_print_loop p.n_elem_ out

/-- Witness for C14: the first frame with the node fields "a" and "b"; the
placeholder of "b" prints "0 ". -/
theorem dummy_output_data_matches_witness :
    DiscreteSpace.NODE_DATA ∈ space_types ∧
    (sample_msh_first.dummy_data_list_ DiscreteSpace.NODE_DATA).length = 0 ∧
    (sample_msh_first.output_data_vec_ DiscreteSpace.NODE_DATA)[1]? = some (sample_cache "b") ∧
    (sample_msh_first.add_dummy_fields.dummy_data_list_ DiscreteSpace.NODE_DATA)[1]? =
      some (DummyOutputData "b" 1) ∧
    DummyOutputData.print_ascii (DummyOutputData "b" 1) "" 3 = "0 " := by
  have h := dummy_output_data_matches sample_msh_first DiscreteSpace.NODE_DATA (by decide) rfl 1
    (sample_cache "b") rfl
  exact ⟨by decide, rfl, rfl, h.1, (h.2.2.2.2.1 "" 3).trans (by decide)⟩

/-! ## Common part of fields -/

/-- C15: whenever the time status is not `unknown`, `changed()` returns true
iff the status is `changed` or `changed_forced`, that is iff it is not
`constant`; after `set_time_result_changed()` the status is `changed_forced`
and `changed()` returns true, as it does in every state with that status;
`changed()` is a const method and yields only its result. -/
theorem changed_iff_not_constant {T : Type} (f : FieldCommon T)
    (h : f.set_time_result_ ≠ TimeStatus.unknown) :
    f.changed = Except.ok (decide (f.set_time_result_ = TimeStatus.changed ∨
      f.set_time_result_ = TimeStatus.changed_forced)) ∧
    f.changed = Except.ok (decide (f.set_time_result_ ≠ TimeStatus.constant)) ∧
    f.set_time_result_changed.set_time_result_ = TimeStatus.changed_forced ∧
    f.set_time_result_changed.changed = Except.ok true ∧
    (∀ g : FieldCommon T, g.set_time_result_ = TimeStatus.changed_forced →
      g.changed = Except.ok true) := by
  refine ⟨?_, ?_, rfl, ?_, ?_⟩
  · unfold FieldCommon.changed
    rw [if_pos h]
    cases f.set_time_result_ <;> simp
  · unfold FieldCommon.changed
    rw [if_pos h]
    cases hs : f.set_time_result_ <;> simp [hs] at h ⊢
  · simp [FieldCommon.changed, FieldCommon.set_time_result_changed]
  · intro g hg
    simp [FieldCommon.changed, hg]

/-- Witness for C15: a field whose last `set_time` found no change. -/
theorem changed_iff_not_constant_witness :
    sample_common.set_time_result_ ≠ TimeStatus.unknown ∧
    sample_common.changed = Except.ok false ∧
    sample_common.set_time_result_changed.changed = Except.ok true :=
  have h := changed_iff_not_constant sample_common (by decide)
  ⟨by decide, h.1, h.2.2.2.1⟩

/-- A status set from a flag makes `changed()` report that flag. -/
theorem changed_of_status {T : Type} (c : FieldCommon T) (b : Bool)
    (h : c.set_time_result_ = if b = true then TimeStatus.changed else TimeStatus.constant) :
    c.changed = Except.ok b := by
  cases b <;> simp [FieldCommon.changed, h]

/-- C16: when `set_time(t, s)` has returned, an immediate second call
`set_time(t, s)` returns the same result and leaves the whole state (active
algorithms, `last_time`, `last_limit_side` and the rest) as the first call
left it, and `changed()` reports the result of the first call. -/
theorem set_time_twice {T : Type} [LinearOrder T] (f f1 : Field T) (t : T) (s : LimitSide)
    (r1 : Bool) (h : f.set_time t s = Except.ok (f1, r1)) :
    f1.set_time t s = Except.ok (f1, r1) ∧ f1.common.changed = Except.ok r1 ∧
    f1.common.last_time_ = some t ∧ f1.common.last_limit_side_ = s := by
  unfold Field.set_time at h
  by_cases hsame : f.common.last_time_ = some t ∧ f.common.last_limit_side_ = s
  · -- the first call was itself the no-op
    rw [if_pos hsame] at h
    cases hc : f.common.changed with
    | error e => rw [hc] at h; cases h
    | ok c =>
      rw [hc] at h
      simp only [Except.ok.injEq, Prod.mk.injEq] at h
      obtain ⟨hf, hr⟩ := h
      subst hf; subst hr
      refine ⟨?_, hc, hsame.1, hsame.2⟩
      unfold Field.set_time
      rw [if_pos hsame, hc]
  · rw [if_neg hsame] at h
    split at h
    · cases h
    · split at h
      · cases h
      · simp only [Except.ok.injEq, Prod.mk.injEq] at h
        obtain ⟨hf, hr⟩ := h
        have hlast : f1.common.last_time_ = some t := by rw [← hf]
        have hside : f1.common.last_limit_side_ = s := by rw [← hf]
        have hchanged : f1.common.changed = Except.ok r1 := by
          rw [← hf, ← hr]
          exact changed_of_status _ _ rfl
        refine ⟨?_, hchanged, hlast, hside⟩
        unfold Field.set_time
        rw [if_pos ⟨hlast, hside⟩, hchanged]

/-- Witness for C16: the first `set_time(0, right)` of a field with one
descriptor at time 0 reports a change; the second call reports it again and
changes nothing. -/
theorem set_time_twice_witness :
    sample_time_field.set_time 0 LimitSide.right = Except.ok (sample_time_field_set, true) ∧
    sample_time_field_set.set_time 0 LimitSide.right =
      Except.ok (sample_time_field_set, true) :=
  ⟨by rfl,
   (set_time_twice sample_time_field sample_time_field_set 0 LimitSide.right true
      (by rfl)).1⟩

/-! ### Component names -/

/-- Algorithm `std::unique` never lengthens a list. -/
theorem length_std_unique_le : ∀ l : List String, (std_unique l).length ≤ l.length
  | [] => by simp [std_unique]
  | [a] => by simp [std_unique]
  | a :: b :: rest => by
    have ih := length_std_unique_le (b :: rest)
    by_cases h : a = b
    · simp only [std_unique, h, if_true, List.length_cons] at ih ⊢
      omega
    · simp only [std_unique, h, if_false, List.length_cons] at ih ⊢
      omega

/-- On an ascending list `std::unique` removes nothing iff no string occurs
twice. -/
theorem length_std_unique_eq_iff : ∀ l : List String, l.Sorted (fun a b => a ≤ b) →
    ((std_unique l).length = l.length ↔ l.Nodup)
  | [], _ => by simp [std_unique]
  | [a], _ => by simp [std_unique]
  | a :: b :: rest, hs => by
    have hs1 : (b :: rest).Sorted (fun a b => a ≤ b) := hs.of_cons
    have ih := length_std_unique_eq_iff (b :: rest) hs1
    have hle := length_std_unique_le (b :: rest)
    by_cases h : a = b
    · subst h
      simp only [std_unique, if_true, List.length_cons] at hle ⊢
      constructor
      · intro he; omega
      · intro hn
        exact absurd (List.mem_cons_self a rest) (List.nodup_cons.mp hn).1
    · simp only [std_unique, h, if_false, List.length_cons, Nat.add_right_cancel_iff]
      rw [show rest.length + 1 = (b :: rest).length from rfl, ih, List.nodup_cons (a := a)]
      constructor
      · intro hn
        refine ⟨?_, hn⟩
        intro hmem
        have hab : a ≤ b := List.rel_of_sorted_cons hs b (List.mem_cons_self _ _)
        have hlt : a < b := lt_of_le_of_ne hab h
        rcases List.mem_cons.mp hmem with hx | hx
        · exact h hx
        · have hbx : b ≤ a := List.rel_of_sorted_cons hs1 a hx
          exact absurd hlt (not_lt.mpr hbx)
      · intro hn
        exact hn.2

/-- The test of `set_components` for repeated names: sorting and `std::unique`
shorten the vector iff a name occurs twice. -/
theorem unique_sort_length (names : List String) :
    names.length ≠ (std_unique (std_sort names)).length ↔ ¬ names.Nodup := by
  have hsorted : (std_sort names).Sorted (fun a b => a ≤ b) :=
    List.sorted_insertionSort (fun a b : String => a ≤ b) names
  have hperm : (std_sort names).Perm names :=
    List.perm_insertionSort (fun a b : String => a ≤ b) names
  have hiff := length_std_unique_eq_iff (std_sort names) hsorted
  rw [hperm.nodup_iff, hperm.length_eq] at hiff
  constructor
  · intro hne hn
    exact hne (hiff.mpr hn).symm
  · intro hn he
    exact hn (hiff.mp he.symm)

/-- C19: on a multifield `set_components(names)` throws the input error iff
`names` holds two equal strings, and then the object is as it was; when it
does not throw, the stored component names are `names` and `n_comp()` is
`names.size()`, where a multifield gets `n_comp_ = names.size()` and a
non-multifield with `n_comp_` zero keeps `n_comp_` zero. -/
theorem set_components_spec {T : Type} (f : FieldCommon T) (names : List String) :
    (f.multifield_ = true → ¬ names.Nodup →
      f.set_components names =
        Except.error
          (FieldError.ExcInputMessage
            ("The field " ++ f.input_name ++ " has set non-unique names of components."), f)) ∧
    ((∃ e, f.set_components names = Except.error e) ↔
      (f.multifield_ = true ∧ ¬ names.Nodup)) ∧
    (∀ g, f.set_components names = Except.ok g →
      g.shared_.comp_names_ = names ∧ g.n_comp = names.length ∧
      (f.multifield_ = true → g.shared_.n_comp_ = names.length) ∧
      (f.multifield_ = false → f.shared_.n_comp_ = 0 → g.shared_.n_comp_ = 0)) := by
  have hthrow : f.multifield_ = true → ¬ names.Nodup →
      f.set_components names =
        Except.error
          (FieldError.ExcInputMessage
            ("The field " ++ f.input_name ++ " has set non-unique names of components."), f) := by
    intro hm hn
    unfold FieldCommon.set_components
    simp only [hm, if_true]
    rw [if_pos ((unique_sort_length names).mpr hn)]
  refine ⟨hthrow, ?_, ?_⟩
  · constructor
    · rintro ⟨e, he⟩
      unfold FieldCommon.set_components at he
      by_cases hm : f.multifield_ = true
      · refine ⟨hm, ?_⟩
        intro hn
        simp only [hm, if_true] at he
        rw [if_neg (fun h => (unique_sort_length names).mp h hn)] at he
        cases he
      · simp only [hm] at he
        cases he
    · rintro ⟨hm, hn⟩
      exact ⟨_, hthrow hm hn⟩
  · intro g hg
    unfold FieldCommon.set_components at hg
    by_cases hm : f.multifield_ = true
    · simp only [hm, if_true] at hg
      split at hg
      · cases hg
      · simp only [Except.ok.injEq] at hg
        subst hg
        exact ⟨rfl, rfl, fun _ => rfl, fun h => by simp [hm] at h⟩
    · simp only [hm] at hg
      simp only [Bool.false_eq_true, if_false, Except.ok.injEq] at hg
      subst hg
      refine ⟨rfl, rfl, fun h => absurd h hm, ?_⟩
      intro _ h0
      simp [h0]

/-- Witness for C19: the names "A", "A" on a multifield. -/
theorem set_components_spec_witness :
    sample_common.multifield_ = true ∧ ¬ ["A", "A"].Nodup ∧
    sample_common.set_components ["A", "A"] =
      Except.error
        (FieldError.ExcInputMessage "The field conc has set non-unique names of components.",
          sample_common) :=
  ⟨rfl, by decide,
   (set_components_spec sample_common ["A", "A"]).1 rfl (by decide)⟩

/-- C20: for every `i < n_comp()`, `full_comp_name(i)` is the field name when
the `i`-th component name is empty, and otherwise the `i`-th component name,
an underscore and the field name. -/
theorem full_comp_name_spec {T : Type} (f : FieldCommon T) (i : Nat) (hi : i < f.n_comp) :
    (f.shared_.comp_names_.get ⟨i, hi⟩ = "" → f.full_comp_name i = some f.name) ∧
    (f.shared_.comp_names_.get ⟨i, hi⟩ ≠ "" →
      f.full_comp_name i = some (f.shared_.comp_names_.get ⟨i, hi⟩ ++ "_" ++ f.name)) := by
  have hget : f.shared_.comp_names_[i]? = some (f.shared_.comp_names_.get ⟨i, hi⟩) :=
    List.getElem?_eq_getElem hi
  unfold FieldCommon.full_comp_name
  generalize f.shared_.comp_names_.get ⟨i, hi⟩ = c at hget
  rw [hget]
  constructor
  · intro h
    simp [h]
  · intro h
    simp [h]

/-- Witness for C20: the components "A" and "" of the field "conc". -/
theorem full_comp_name_spec_witness :
    0 < sample_common.n_comp ∧ 1 < sample_common.n_comp ∧
    sample_common.full_comp_name 0 = some "A_conc" ∧
    sample_common.full_comp_name 1 = some "conc" :=
  ⟨by decide, by decide,
   ((full_comp_name_spec sample_common 0 (by decide)).2 (by decide)).trans (by decide),
   (full_comp_name_spec sample_common 1 (by decide)).1 (by decide)⟩

/-! ## Pade approximant -/

/-- The loop of `factorial` multiplies the running product by `k!`, modulo
2^32. -/
theorem factorial_loop_eq (k fact : Nat) (h : fact < 2 ^ 32) :
    factorial_loop k fact = (fact * k.factorial) % 2 ^ 32 := by
  induction k generalizing fact with
  | zero =>
    simp only [factorial_loop, Nat.factorial_zero, Nat.mul_one]
    exact (Nat.mod_eq_of_lt h).symm
  | succ k ih =>
    unfold factorial_loop
    by_cases hk : k + 1 > 1
    · rw [if_pos hk, ih (umul fact (k + 1)) (Nat.mod_lt _ (by norm_num))]
      unfold umul
      rw [Nat.mod_mul_mod, Nat.factorial_succ, Nat.mul_assoc]
    · rw [if_neg hk]
      have hk0 : k = 0 := by omega
      subst hk0
      simp only [Nat.zero_add, Nat.factorial_one, Nat.mul_one]
      exact (Nat.mod_eq_of_lt h).symm

/-- The value of `factorial(k)` as a residue. -/
theorem factorial_eq_mod (k : Nat) :
    PadeApproximant.factorial (k : Int) = k.factorial % 2 ^ 32 := by
  unfold PadeApproximant.factorial
  rw [Int.toNat_ofNat, factorial_loop_eq k 1 (by norm_num), Nat.one_mul]

/-- C24: for every `k >= 0`, `factorial(k)` (a total function: the loop runs `k`
down to 1) returns `k!` modulo 2^32, and it is `k!` exactly for `k <= 12`. -/
theorem factorial_mod (k : Nat) :
    PadeApproximant.factorial (k : Int) = k.factorial % 2 ^ 32 ∧
    (k ≤ 12 → PadeApproximant.factorial (k : Int) = k.factorial) := by
  have h1 : PadeApproximant.factorial (k : Int) = k.factorial % 2 ^ 32 := factorial_eq_mod k
  refine ⟨h1, ?_⟩
  intro hk
  rw [h1]
  apply Nat.mod_eq_of_lt
  calc k.factorial ≤ (12 : Nat).factorial := Nat.factorial_le hk
    _ < 2 ^ 32 := by decide

/-- Witness for C24: 12! = 479001600. -/
theorem factorial_mod_witness :
    (12 : Nat) ≤ 12 ∧ PadeApproximant.factorial 12 = 479001600 :=
  ⟨le_refl _, ((factorial_mod 12).2 (le_refl _)).trans (by decide)⟩

/-- A run of assignments `v[j] = f(j)` over a list of indices leaves `f(k)` at
every listed position inside the vector, and the old content elsewhere. -/
theorem getElem?_foldl_set {α : Type} (f : Nat → α) (idxs : List Nat) (v : List α) (k : Nat) :
    (idxs.foldl (fun v j => v.set j (f j)) v)[k]? =
      if k ∈ idxs ∧ k < v.length then some (f k) else v[k]? := by
  induction idxs generalizing v with
  | nil => simp
  | cons j rest ih =>
    rw [List.foldl_cons, ih, List.length_set, List.getElem?_set]
    by_cases h1 : k ∈ rest ∧ k < v.length
    · have h2 : k ∈ j :: rest ∧ k < v.length := ⟨List.mem_cons_of_mem _ h1.1, h1.2⟩
      rw [if_pos h1, if_pos h2]
    · rw [if_neg h1]
      by_cases hjk : j = k
      · subst hjk
        by_cases hlt : j < v.length
        · have h2 : j ∈ j :: rest ∧ j < v.length := ⟨List.mem_cons_self _ _, hlt⟩
          simp [hlt, h2]
        · have h2 : ¬ (j ∈ j :: rest ∧ j < v.length) := fun h => hlt h.2
          rw [if_neg h2]
          simp [hlt, List.getElem?_eq_none (not_lt.mp hlt)]
      · have h2 : ¬ (k ∈ j :: rest ∧ k < v.length) := by
          rintro ⟨hm, hl⟩
          rcases List.mem_cons.mp hm with h | h
          · exact hjk h.symm
          · exact h1 ⟨h, hl⟩
        rw [if_neg h2]
        simp [hjk]

/-- When `k!` is below 2^32, `factorial(k)` is `k!`. -/
theorem factorial_exact (k : Nat) (h : k.factorial < 2 ^ 32) :
    PadeApproximant.factorial (k : Int) = k.factorial := by
  rw [factorial_eq_mod k, Nat.mod_eq_of_lt h]

/-- An `unsigned int` product below 2^32 is the product. -/
theorem umul_exact (a b : Nat) (h : a * b < 2 ^ 32) : umul a b = a * b :=
  Nat.mod_eq_of_lt h

/-- C22: called with `polynomial_matrix` initially zero,
`evaluate_matrix_polynomial` leaves in it the sum over `i = 0 .. n` of
`a_i * R^i` (exact arithmetic); in general the Horner loop adds to that sum the
initial matrix times `R^(n+1)`. -/
theorem evaluate_matrix_polynomial_horner {α : Type} [CommRing α] {n_substances_ : Nat}
    (polynomial_matrix reaction_matrix : Matrix (Fin n_substances_) (Fin n_substances_) α)
    (coefs : List α) :
    PadeApproximant.evaluate_matrix_polynomial 0 reaction_matrix coefs =
      ∑ i in Finset.range coefs.length, coefs.getD i 0 • reaction_matrix ^ i ∧
    PadeApproximant.evaluate_matrix_polynomial polynomial_matrix reaction_matrix coefs =
      ∑ i in Finset.range coefs.length, coefs.getD i 0 • reaction_matrix ^ i +
        polynomial_matrix * reaction_matrix ^ coefs.length := by
  have hgen : ∀ (cs : List α) (P : Matrix (Fin n_substances_) (Fin n_substances_) α),
      PadeApproximant.evaluate_matrix_polynomial P reaction_matrix cs =
        ∑ i in Finset.range cs.length, cs.getD i 0 • reaction_matrix ^ i +
          P * reaction_matrix ^ cs.length := by
    intro cs
    induction cs with
    | nil =>
      intro P
      simp [PadeApproximant.evaluate_matrix_polynomial]
    | cons a rest ih =>
      intro P
      have hstep : PadeApproximant.evaluate_matrix_polynomial P reaction_matrix (a :: rest) =
          a • (1 : Matrix (Fin n_substances_) (Fin n_substances_) α) +
            PadeApproximant.evaluate_matrix_polynomial P reaction_matrix rest *
              reaction_matrix := by
        unfold PadeApproximant.evaluate_matrix_polynomial
        simp only [List.length_cons]
        rw [List.range_succ_eq_map, List.reverse_cons, List.foldl_append, ← List.map_reverse,
          List.foldl_map]
        simp
      rw [hstep, ih P, List.length_cons, Finset.sum_range_succ']
      simp only [List.getD_cons_succ, List.getD_cons_zero, pow_zero, add_mul, Finset.sum_mul,
        smul_mul_assoc, ← pow_succ, Matrix.mul_assoc]
      abel
  refine ⟨?_, hgen coefs polynomial_matrix⟩
  rw [hgen coefs 0]
  simp

/-- Under the bound of C23 every factorial and every product that
`compute_exp_coefs` forms for the degree pair `(a, b)` at index `j <= a` is
below 2^32: the numerator `(a+b-j)! * a!` and the divisor
`(a+b)! * j! * (a-j)!`. -/
theorem pade_products_small (a b j : Nat) (hj : j ≤ a)
    (hbound : (a + b).factorial * a.factorial < 2 ^ 32) :
    (a + b - j).factorial * a.factorial < 2 ^ 32 ∧
    (a + b).factorial * j.factorial < 2 ^ 32 ∧
    (a + b).factorial * j.factorial * (a - j).factorial < 2 ^ 32 ∧
    (a + b - j).factorial < 2 ^ 32 ∧ a.factorial < 2 ^ 32 ∧ (a + b).factorial < 2 ^ 32 ∧
    j.factorial < 2 ^ 32 ∧ (a - j).factorial < 2 ^ 32 := by
  have hpos : ∀ n : Nat, 0 < n.factorial := Nat.factorial_pos
  have h1 : (a + b - j).factorial ≤ (a + b).factorial := Nat.factorial_le (Nat.sub_le _ _)
  have h2 : j.factorial * (a - j).factorial ≤ a.factorial :=
    Nat.le_of_dvd (hpos a) (Nat.factorial_mul_factorial_dvd_factorial hj)
  have h3 : j.factorial ≤ a.factorial := Nat.factorial_le hj
  have h4 : (a - j).factorial ≤ a.factorial := Nat.factorial_le (Nat.sub_le _ _)
  have h5 : a.factorial ≤ (a + b).factorial := Nat.factorial_le (Nat.le_add_right _ _)
  have h6 : (a + b).factorial ≤ (a + b).factorial * a.factorial :=
    Nat.le_mul_of_pos_right _ (hpos a)
  have e1 : (a + b - j).factorial * a.factorial ≤ (a + b).factorial * a.factorial :=
    Nat.mul_le_mul_right _ h1
  have e2 : (a + b).factorial * j.factorial ≤ (a + b).factorial * a.factorial :=
    Nat.mul_le_mul_left _ h3
  have e3 : (a + b).factorial * j.factorial * (a - j).factorial ≤
      (a + b).factorial * a.factorial := by
    rw [Nat.mul_assoc]
    exact Nat.mul_le_mul_left _ h2
  refine ⟨by omega, by omega, by omega, by omega, by omega, by omega, by omega, by omega⟩

/-- The value computed for `nominator_coefs[j]` when the member degrees are the
arguments `p`, `q` and nothing overflows. -/
theorem nominator_coef_exact (pa : PadeApproximant) (p q j : Nat) (hp : pa.nom_pol_deg = p)
    (hq : pa.den_pol_deg = q) (hj : j ≤ p)
    (hbound : (p + q).factorial * p.factorial < 2 ^ 32) :
    pa.nominator_coef (PadeApproximant.factorial p) (PadeApproximant.factorial (p + q : Nat)) j =
      ((p + q - j).factorial * p.factorial : ℚ) /
        ((p + q).factorial * j.factorial * (p - j).factorial) := by
  obtain ⟨b1, b2, b3, b4, b5, b6, b7, b8⟩ := pade_products_small p q j hj hbound
  have i1 : pa.nom_pol_deg + pa.den_pol_deg - (j : Int) = ((p + q - j : Nat) : Int) := by
    rw [hp, hq]; omega
  have i2 : pa.nom_pol_deg - (j : Int) = ((p - j : Nat) : Int) := by
    rw [hp]; omega
  unfold PadeApproximant.nominator_coef
  rw [i1, i2, factorial_exact _ b4, factorial_exact _ b5, factorial_exact _ b6,
    factorial_exact _ b7, factorial_exact _ b8, umul_exact _ _ b1, umul_exact _ _ b2,
    umul_exact _ _ b3]
  push_cast
  rfl

/-- The value computed for `denominator_coefs[i]` when the member degrees are
the arguments `p`, `q` and nothing overflows. -/
theorem denominator_coef_exact (pa : PadeApproximant) (p q i : Nat) (hp : pa.nom_pol_deg = p)
    (hq : pa.den_pol_deg = q) (hi : i ≤ q)
    (hbound : (p + q).factorial * q.factorial < 2 ^ 32) :
    pa.denominator_coef (PadeApproximant.factorial q) (PadeApproximant.factorial (p + q : Nat))
        i =
      (-1 : ℚ) ^ i * ((p + q - i).factorial * q.factorial) /
        ((p + q).factorial * i.factorial * (q - i).factorial) := by
  have hbound1 : (q + p).factorial * q.factorial < 2 ^ 32 := by rw [Nat.add_comm]; exact hbound
  obtain ⟨b1, b2, b3, b4, b5, b6, b7, b8⟩ := pade_products_small q p i hi hbound1
  rw [Nat.add_comm q p] at b1 b2 b3 b4 b6
  have i1 : pa.nom_pol_deg + pa.den_pol_deg - (i : Int) = ((p + q - i : Nat) : Int) := by
    rw [hp, hq]; omega
  have i2 : pa.den_pol_deg - (i : Int) = ((q - i : Nat) : Int) := by
    rw [hq]; omega
  have hsign : (((if i % 2 = 0 then 1 else -1 : Int)) : ℚ) = (-1 : ℚ) ^ i := by
    rcases Nat.even_or_odd i with he | ho
    · have : i % 2 = 0 := Nat.even_iff.mp he
      simp [this, he.neg_one_pow]
    · have : i % 2 = 1 := Nat.odd_iff.mp ho
      simp [this, ho.neg_one_pow]
  unfold PadeApproximant.denominator_coef
  simp only
  rw [hsign, i1, i2, factorial_exact _ b4, factorial_exact _ b5, factorial_exact _ b6,
    factorial_exact _ b7, factorial_exact _ b8, umul_exact _ _ b1, umul_exact _ _ b2,
    umul_exact _ _ b3]
  push_cast
  rfl

/-- C23: when the member degrees `nom_pol_deg = p` and `den_pol_deg = q` are
passed as the arguments, `(p+q)! * max(p,q)! < 2^32`, and the vectors have
`p+1` and `q+1` entries, `compute_exp_coefs` sets
`nominator_coefs[j] = (p+q-j)! p! / ((p+q)! j! (p-j)!)` for `j <= p` and
`denominator_coefs[i] = (-1)^i (p+q-i)! q! / ((p+q)! i! (q-i)!)` for `i <= q`
(exact arithmetic); both constant coefficients are 1. -/
theorem compute_exp_coefs_pade (pa : PadeApproximant) (p q : Nat)
    (hp : pa.nom_pol_deg = p) (hq : pa.den_pol_deg = q)
    (hbound : (p + q).factorial * (max p q).factorial < 2 ^ 32)
    (nominator_coefs denominator_coefs : List ℚ)
    (hn : nominator_coefs.length = p + 1) (hd : denominator_coefs.length = q + 1) :
    (∀ j, j ≤ p →
      (pa.compute_exp_coefs p q nominator_coefs denominator_coefs).1[j]? =
        some (((p + q - j).factorial * p.factorial : ℚ) /
          ((p + q).factorial * j.factorial * (p - j).factorial))) ∧
    (∀ i, i ≤ q →
      (pa.compute_exp_coefs p q nominator_coefs denominator_coefs).2[i]? =
        some ((-1 : ℚ) ^ i * ((p + q - i).factorial * q.factorial) /
          ((p + q).factorial * i.factorial * (q - i).factorial))) ∧
    (pa.compute_exp_coefs p q nominator_coefs denominator_coefs).1[0]? = some 1 ∧
    (pa.compute_exp_coefs p q nominator_coefs denominator_coefs).2[0]? = some 1 := by
  have hbp : (p + q).factorial * p.factorial < 2 ^ 32 :=
    lt_of_le_of_lt (Nat.mul_le_mul_left _ (Nat.factorial_le (le_max_left p q))) hbound
  have hbq : (p + q).factorial * q.factorial < 2 ^ 32 :=
    lt_of_le_of_lt (Nat.mul_le_mul_left _ (Nat.factorial_le (le_max_right p q))) hbound
  have hnom : ∀ j, j ≤ p →
      (pa.compute_exp_coefs p q nominator_coefs denominator_coefs).1[j]? =
        some (((p + q - j).factorial * p.factorial : ℚ) /
          ((p + q).factorial * j.factorial * (p - j).factorial)) := by
    intro j hj
    unfold PadeApproximant.compute_exp_coefs
    simp only
    rw [getElem?_foldl_set, if_pos ⟨by simp; omega, by omega⟩,
      nominator_coef_exact pa p q j hp hq hj hbp]
  have hden : ∀ i, i ≤ q →
      (pa.compute_exp_coefs p q nominator_coefs denominator_coefs).2[i]? =
        some ((-1 : ℚ) ^ i * ((p + q - i).factorial * q.factorial) /
          ((p + q).factorial * i.factorial * (q - i).factorial)) := by
    intro i hi
    unfold PadeApproximant.compute_exp_coefs
    simp only
    rw [getElem?_foldl_set, if_pos ⟨by simp; omega, by omega⟩,
      denominator_coef_exact pa p q i hp hq hi hbq]
  have hfact : ∀ n : Nat, (n.factorial : ℚ) ≠ 0 := fun n =>
    Nat.cast_ne_zero.mpr (Nat.factorial_ne_zero n)
  refine ⟨hnom, hden, ?_, ?_⟩
  · rw [hnom 0 (Nat.zero_le _)]
    congr 1
    have := hfact (p + q)
    have := hfact p
    simp only [Nat.sub_zero, Nat.factorial_zero, Nat.cast_one, mul_one]
    field_simp
  · rw [hden 0 (Nat.zero_le _)]
    congr 1
    have := hfact (p + q)
    have := hfact q
    simp only [Nat.sub_zero, Nat.factorial_zero, Nat.cast_one, mul_one, pow_zero, one_mul]
    field_simp

/-- Witness for C23: degrees 2 and 2; the constant coefficients are 1. -/
theorem compute_exp_coefs_pade_witness :
    sample_pade.nom_pol_deg = (2 : Nat) ∧ sample_pade.den_pol_deg = (2 : Nat) ∧
    (2 + 2).factorial * (max 2 2).factorial < 2 ^ 32 ∧
    [(0 : ℚ), 0, 0].length = 2 + 1 ∧
    (sample_pade.compute_exp_coefs 2 2 [0, 0, 0] [0, 0, 0]).1[0]? = some 1 ∧
    (sample_pade.compute_exp_coefs 2 2 [0, 0, 0] [0, 0, 0]).2[0]? = some 1 :=
  have h := compute_exp_coefs_pade sample_pade 2 2 rfl rfl (by decide) [0, 0, 0] [0, 0, 0]
    rfl rfl
  ⟨rfl, rfl, by decide, rfl, h.2.2.1, h.2.2.2⟩

/-! ## Intersection points -/

/-- C28: `operator<` of `IntersectionPoint<2,3>` is the lexicographic order on
the pair (`local_coords1[1]`, `local_coords1[2]`), and on linearly ordered
(non-NaN) coordinates it is a strict weak ordering: irreflexive, asymmetric,
transitive; two points are incomparable iff they agree on both coordinates,
and incomparability is transitive. -/
theorem intersection_point_lt_strict_weak {α : Type} [LinearOrder α]
    (a b c : IntersectionPoint α) :
    (a.lt b = true ↔
      Prod.Lex (fun x y => x < y) (fun x y => x < y)
        (a.local_coords1 1, a.local_coords1 2) (b.local_coords1 1, b.local_coords1 2)) ∧
    a.lt a = false ∧
    (a.lt b = true → b.lt a = false) ∧
    (a.lt b = true → b.lt c = true → a.lt c = true) ∧
    ((a.lt b = false ∧ b.lt a = false) ↔
      (a.local_coords1 1 = b.local_coords1 1 ∧ a.local_coords1 2 = b.local_coords1 2)) ∧
    (a.lt b = false → b.lt a = false → b.lt c = false → c.lt b = false →
      a.lt c = false ∧ c.lt a = false) := by
  have hdef : ∀ p q : IntersectionPoint α, p.lt q = true ↔
      (p.local_coords1 1 < q.local_coords1 1 ∨
        (p.local_coords1 1 = q.local_coords1 1 ∧ p.local_coords1 2 < q.local_coords1 2)) := by
    intro p q
    simp [IntersectionPoint.lt, IntersectionPoint.getLC1]
  have hfalse : ∀ p q : IntersectionPoint α, p.lt q = false ↔
      ¬ (p.local_coords1 1 < q.local_coords1 1 ∨
        (p.local_coords1 1 = q.local_coords1 1 ∧ p.local_coords1 2 < q.local_coords1 2)) := by
    intro p q
    rw [← hdef, Bool.not_eq_true]
  have hincomp : ∀ p q : IntersectionPoint α, (p.lt q = false ∧ q.lt p = false) ↔
      (p.local_coords1 1 = q.local_coords1 1 ∧ p.local_coords1 2 = q.local_coords1 2) := by
    intro p q
    rw [hfalse, hfalse]
    constructor
    · rintro ⟨h1, h2⟩
      have e1 : p.local_coords1 1 = q.local_coords1 1 :=
        le_antisymm (not_lt.mp fun h => h2 (Or.inl h)) (not_lt.mp fun h => h1 (Or.inl h))
      refine ⟨e1, le_antisymm (not_lt.mp fun h => h2 (Or.inr ⟨e1.symm, h⟩))
        (not_lt.mp fun h => h1 (Or.inr ⟨e1, h⟩))⟩
    · rintro ⟨e1, e2⟩
      rw [e1, e2]
      simp
  refine ⟨?_, ?_, ?_, ?_, hincomp a b, ?_⟩
  · rw [hdef, Prod.lex_def]
  · rw [hfalse]
    simp
  · intro h
    rw [hdef] at h
    rw [hfalse]
    rintro (h2 | ⟨h2, h3⟩)
    · rcases h with h | ⟨h, _⟩
      · exact lt_asymm h h2
      · rw [h] at h2; exact lt_irrefl _ h2
    · rcases h with h | ⟨_, h⟩
      · rw [h2] at h; exact lt_irrefl _ h
      · exact lt_asymm h h3
  · intro h1 h2
    rw [hdef] at h1 h2 ⊢
    rcases h1 with h1 | ⟨e1, h1⟩
    · rcases h2 with h2 | ⟨e2, _⟩
      · exact Or.inl (lt_trans h1 h2)
      · exact Or.inl (e2 ▸ h1)
    · rcases h2 with h2 | ⟨e2, h2⟩
      · exact Or.inl (e1 ▸ h2)
      · exact Or.inr ⟨e1.trans e2, lt_trans h1 h2⟩
  · intro h1 h2 h3 h4
    obtain ⟨e1, e2⟩ := (hincomp a b).mp ⟨h1, h2⟩
    obtain ⟨e3, e4⟩ := (hincomp b c).mp ⟨h3, h4⟩
    exact (hincomp a c).mpr ⟨e1.trans e3, e2.trans e4⟩

/-- Witness for C28: the points with coordinates (1, 5), (2, 0), (2, 3). -/
theorem intersection_point_lt_strict_weak_witness :
    (sample_ip 1 5).lt (sample_ip 2 0) = true ∧ (sample_ip 2 0).lt (sample_ip 2 3) = true ∧
    (sample_ip 1 5).lt (sample_ip 2 3) = true :=
  have h1 : (sample_ip 1 5).lt (sample_ip 2 0) = true := by decide
  have h2 : (sample_ip 2 0).lt (sample_ip 2 3) = true := by decide
  ⟨h1, h2,
   (intersection_point_lt_strict_weak (sample_ip 1 5) (sample_ip 2 0)
      (sample_ip 2 3)).2.2.2.1 h1 h2⟩

/-! ## Element geometry -/

/-- C21: `assembly_linear_system` treats the problem as steady exactly when the
storativity result over the bulk regions is `result_zeros`; the time-term
step (its timer, marking the solution as changed, and the swap of the
previous and the current solution) is carried out exactly when the problem is
not steady, and then once, after `set_matrix_changed`. -/
theorem assembly_linear_system_time_term (storativity_result : FieldResult)
    (has_balance is_bddc : Bool) :
    (is_steady storativity_result = true ↔ storativity_result = FieldResult.result_zeros) ∧
    (DarcyCall.VecSwap ∈ assembly_linear_system_calls storativity_result has_balance is_bddc ↔
      is_steady storativity_result = false) ∧
    (DarcyCall.set_solution_changed_for_scatter ∈
        assembly_linear_system_calls storativity_result has_balance is_bddc ↔
      is_steady storativity_result = false) ∧
    (DarcyCall.START_TIMER "fix time term" ∈
        assembly_linear_system_calls storativity_result has_balance is_bddc ↔
      is_steady storativity_result = false) ∧
    (is_steady storativity_result = false →
      ∃ before after : List DarcyCall,
        assembly_linear_system_calls storativity_result has_balance is_bddc =
          before ++ [DarcyCall.set_matrix_changed, DarcyCall.START_TIMER "fix time term",
            DarcyCall.set_solution_changed_for_scatter, DarcyCall.VecSwap] ++ after ∧
        DarcyCall.VecSwap ∉ before ∧ DarcyCall.VecSwap ∉ after ∧
        DarcyCall.set_solution_changed_for_scatter ∉ before ∧
        DarcyCall.set_solution_changed_for_scatter ∉ after) ∧
    (∀ (σ : Type) (exec : σ → DarcyCall → σ) (state : σ),
      assembly_linear_system exec storativity_result has_balance is_bddc state =
        (assembly_linear_system_calls storativity_result has_balance is_bddc).foldl exec
          state) := by
  refine ⟨?_, ?_, ?_, ?_, ?_, fun _ _ _ => rfl⟩
  · cases storativity_result <;> decide
  · cases storativity_result <;> cases has_balance <;> cases is_bddc <;> decide
  · cases storativity_result <;> cases has_balance <;> cases is_bddc <;> decide
  · cases storativity_result <;> cases has_balance <;> cases is_bddc <;> decide
  · intro h
    refine ⟨[DarcyCall.START_TIMER "RicharsLMH::assembly_linear_system"] ++
        (if has_balance then [DarcyCall.start_mass_assembly] else []) ++
        [DarcyCall.VecScatterBegin, DarcyCall.VecScatterEnd] ++
        [DarcyCall.START_TIMER "full assembly"] ++
        (if !is_bddc then [DarcyCall.start_add_assembly] else []) ++
        [DarcyCall.create_assembly, DarcyCall.mat_zero_entries, DarcyCall.rhs_zero_entries,
          DarcyCall.assembly_source_term, DarcyCall.assembly_mh_matrix,
          DarcyCall.finish_assembly],
      (if has_balance then [DarcyCall.finish_mass_assembly] else []), ?_, ?_, ?_, ?_, ?_⟩
    · simp [assembly_linear_system_calls, h]
    · cases has_balance <;> cases is_bddc <;> decide
    · cases has_balance <;> decide
    · cases has_balance <;> cases is_bddc <;> decide
    · cases has_balance <;> decide

/-! ## GMSH writer: the header is written once -/

/-- A key that is found is a key of the table. -/
theorem lookup_some_mem {β : Type} (table : List (String × β)) (key : String) (v : β)
    (h : table.lookup key = some v) : (key, v) ∈ table := by
  induction table with
  | nil => simp at h
  | cons e rest ih =>
    obtain ⟨k, b⟩ := e
    rw [List.lookup_cons] at h
    by_cases hk : key = k
    · subst hk
      simp at h
      simp [h]
    · have : (key == k) = false := by simpa using hk
      rw [this] at h
      exact List.mem_cons_of_mem _ (ih h)

/-- A key that is not found is not a key of the table. -/
theorem lookup_none_not_mem {β : Type} (table : List (String × β)) (key : String)
    (h : table.lookup key = none) : key ∉ table.map Prod.fst := by
  intro hmem
  rw [List.lookup_eq_none_iff] at h
  obtain ⟨e, he, hk⟩ := List.mem_map.mp hmem
  have := h e he
  simp [hk] at this

/-- One request keeps every entry of the table. -/
theorem after_request_keeps (extension : String → String) (ri : ReaderInstances)
    (mesh_rec : MeshRecord) (key : String) (reader : BaseMeshReader)
    (h : ri.reader_table_.lookup key = some reader) :
    (ri.after_request extension mesh_rec).reader_table_.lookup key = some reader := by
  unfold ReaderInstances.after_request ReaderInstances.get_reader
  cases hl : ri.reader_table_.lookup mesh_rec.mesh_file with
  | some found => simpa [hl] using h
  | none =>
    by_cases h1 : extension mesh_rec.mesh_file = ".msh"
    · simp [hl, h1, List.lookup_append, h]
    · by_cases h2 : extension mesh_rec.mesh_file = ".vtu"
      · simp [hl, h1, h2, List.lookup_append, h]
      · simpa [hl, h1, h2] using h

/-- A sequence of requests keeps every entry of the table. -/
theorem after_requests_keeps (extension : String → String) (requests : List MeshRecord)
    (ri : ReaderInstances) (key : String) (reader : BaseMeshReader)
    (h : ri.reader_table_.lookup key = some reader) :
    (ri.after_requests extension requests).reader_table_.lookup key = some reader := by
  induction requests generalizing ri with
  | nil => exact h
  | cons mesh_rec rest ih =>
    exact ih (ri.after_request extension mesh_rec)
      (after_request_keeps extension ri mesh_rec key reader h)

/-- A request that returns leaves its reader in the table under its path. -/
theorem get_reader_stored (extension : String → String) (ri : ReaderInstances)
    (mesh_rec : MeshRecord) (reader : BaseMeshReader) (ri1 : ReaderInstances)
    (h : ri.get_reader extension mesh_rec = Except.ok (reader, ri1)) :
    ri1.reader_table_.lookup mesh_rec.mesh_file = some reader := by
  unfold ReaderInstances.get_reader at h
  cases hl : ri.reader_table_.lookup mesh_rec.mesh_file with
  | some found =>
    simp only [hl] at h
    injection h with h
    injection h with h1 h2
    subst h1
    subst h2
    exact hl
  | none =>
    simp only [hl] at h
    by_cases h1 : extension mesh_rec.mesh_file = ".msh"
    · simp only [h1, if_true] at h
      injection h with h
      injection h with ha hb
      subst hb
      simp [List.lookup_append, hl, ha]
    · by_cases h2 : extension mesh_rec.mesh_file = ".vtu"
      · simp only [h1, h2, if_true, if_false] at h
        injection h with h
        injection h with ha hb
        subst hb
        simp [List.lookup_append, hl, ha]
      · simp [h1, h2] at h

/-- A request for a path in the table returns the stored reader and changes
nothing. -/
theorem get_reader_found (extension : String → String) (ri : ReaderInstances)
    (mesh_rec : MeshRecord) (reader : BaseMeshReader)
    (h : ri.reader_table_.lookup mesh_rec.mesh_file = some reader) :
    ri.get_reader extension mesh_rec = Except.ok (reader, ri) := by
  unfold ReaderInstances.get_reader
  simp [h]

/-- Adding an entry for an absent path with an accepted extension keeps the
paths distinct and their extensions accepted. -/
theorem insert_invariant (extension : String → String) (ri : ReaderInstances)
    (key : String) (made : BaseMeshReader) (hext : ri.extensions_ok extension)
    (hnodup : (ri.reader_table_.map Prod.fst).Nodup)
    (hnot : key ∉ ri.reader_table_.map Prod.fst)
    (hacc : extension key = ".msh" ∨ extension key = ".vtu") :
    ReaderInstances.extensions_ok extension
        { reader_table_ := ri.reader_table_ ++ [(key, made)], n_objects := ri.n_objects + 1 } ∧
      ((ri.reader_table_ ++ [(key, made)]).map Prod.fst).Nodup := by
  constructor
  · intro entry hentry
    rcases List.mem_append.mp hentry with hin | hin
    · exact hext entry hin
    · rw [List.mem_singleton] at hin
      subst hin
      exact hacc
  · rw [List.map_append, List.nodup_append]
    refine ⟨hnodup, by simp, ?_⟩
    intro a ha hb
    simp at hb
    subst hb
    exact hnot ha

/-- One request keeps the paths of the table distinct and their extensions
accepted. -/
theorem after_request_invariant (extension : String → String) (ri : ReaderInstances)
    (mesh_rec : MeshRecord) (hext : ri.extensions_ok extension)
    (hnodup : (ri.reader_table_.map Prod.fst).Nodup) :
    (ri.after_request extension mesh_rec).extensions_ok extension ∧
      ((ri.after_request extension mesh_rec).reader_table_.map Prod.fst).Nodup := by
  unfold ReaderInstances.after_request ReaderInstances.get_reader
  cases hl : ri.reader_table_.lookup mesh_rec.mesh_file with
  | some found =>
    simp only [hl]
    exact ⟨hext, hnodup⟩
  | none =>
    have hnot := lookup_none_not_mem _ _ hl
    by_cases h1 : extension mesh_rec.mesh_file = ".msh"
    · simp only [hl, h1, if_true]
      exact insert_invariant extension ri _ _ hext hnodup hnot (Or.inl h1)
    · by_cases h2 : extension mesh_rec.mesh_file = ".vtu"
      · simp only [hl, h1, h2, if_true, if_false]
        exact insert_invariant extension ri _ _ hext hnodup hnot (Or.inr h2)
      · simp only [hl, h1, h2, if_false]
        exact ⟨hext, hnodup⟩

/-- Every table reached from the empty one by requests has distinct paths with
accepted extensions. -/
theorem after_requests_invariant (extension : String → String) (requests : List MeshRecord)
    (ri : ReaderInstances) (hext : ri.extensions_ok extension)
    (hnodup : (ri.reader_table_.map Prod.fst).Nodup) :
    (ri.after_requests extension requests).extensions_ok extension ∧
      ((ri.after_requests extension requests).reader_table_.map Prod.fst).Nodup := by
  induction requests generalizing ri with
  | nil => exact ⟨hext, hnodup⟩
  | cons mesh_rec rest ih =>
    have h := after_request_invariant extension ri mesh_rec hext hnodup
    exact ih (ri.after_request extension mesh_rec) h.1 h.2

/-- C27: from a table whose paths are distinct and have accepted extensions,
a request that returns a reader leaves such a table, with at most one entry
more (none if the path was present), and the same reader is returned, with
the table unchanged, by any later request for the same path, whatever
requests come between; a request whose path has neither extension throws
`ExcWrongExtension` and leaves the table as it was. -/
theorem get_reader_table (extension : String → String) (ri : ReaderInstances)
    (mesh_rec : MeshRecord) (hext : ri.extensions_ok extension)
    (hnodup : (ri.reader_table_.map Prod.fst).Nodup) :
    (∀ reader ri1, ri.get_reader extension mesh_rec = Except.ok (reader, ri1) →
      ri1.extensions_ok extension ∧ (ri1.reader_table_.map Prod.fst).Nodup ∧
      ri1.reader_table_.length ≤ ri.reader_table_.length + 1 ∧
      (mesh_rec.mesh_file ∈ ri.reader_table_.map Prod.fst → ri1 = ri) ∧
      (∀ key stored, ri.reader_table_.lookup key = some stored →
        ri1.reader_table_.lookup key = some stored) ∧
      (∀ (requests : List MeshRecord) (again : MeshRecord),
        again.mesh_file = mesh_rec.mesh_file →
        (ri1.after_requests extension requests).get_reader extension again =
          Except.ok (reader, ri1.after_requests extension requests))) ∧
    (extension mesh_rec.mesh_file ≠ ".msh" → extension mesh_rec.mesh_file ≠ ".vtu" →
      ri.get_reader extension mesh_rec =
        Except.error (⟨extension mesh_rec.mesh_file, mesh_rec.mesh_file⟩, ri)) := by
  constructor
  · intro reader ri1 h
    have hstored := get_reader_stored extension ri mesh_rec reader ri1 h
    have hagain : ∀ (requests : List MeshRecord) (again : MeshRecord),
        again.mesh_file = mesh_rec.mesh_file →
        (ri1.after_requests extension requests).get_reader extension again =
          Except.ok (reader, ri1.after_requests extension requests) := by
      intro requests again hsame
      apply get_reader_found
      rw [hsame]
      exact after_requests_keeps extension requests ri1 _ reader hstored
    have hkeep : ∀ key stored, ri.reader_table_.lookup key = some stored →
        ri1.reader_table_.lookup key = some stored := by
      intro key stored hk
      have := after_request_keeps extension ri mesh_rec key stored hk
      unfold ReaderInstances.after_request at this
      rw [h] at this
      exact this
    unfold ReaderInstances.get_reader at h
    cases hl : ri.reader_table_.lookup mesh_rec.mesh_file with
    | some found =>
      simp only [hl] at h
      injection h with h
      injection h with h1 h2
      subst h2
      exact ⟨hext, hnodup, Nat.le_succ _, fun _ => rfl, hkeep, hagain⟩
    | none =>
      simp only [hl] at h
      have hnot := lookup_none_not_mem _ _ hl
      have key_step : ∀ made : BaseMeshReader,
          (extension mesh_rec.mesh_file = ".msh" ∨ extension mesh_rec.mesh_file = ".vtu") →
          ri1 = { reader_table_ := ri.reader_table_ ++ [(mesh_rec.mesh_file, made)]
                  n_objects := ri.n_objects + 1 } →
          ri1.extensions_ok extension ∧ (ri1.reader_table_.map Prod.fst).Nodup ∧
          ri1.reader_table_.length ≤ ri.reader_table_.length + 1 ∧
          (mesh_rec.mesh_file ∈ ri.reader_table_.map Prod.fst → ri1 = ri) := by
        intro made hacc hri
        subst hri
        have hins := insert_invariant extension ri mesh_rec.mesh_file made hext hnodup hnot hacc
        refine ⟨hins.1, hins.2, ?_, fun hin => absurd hin hnot⟩
        simp
      by_cases h1 : extension mesh_rec.mesh_file = ".msh"
      · simp only [h1, if_true] at h
        injection h with h
        injection h with ha hb
        obtain ⟨a, b, c, d⟩ := key_step _ (Or.inl h1) hb.symm
        exact ⟨a, b, c, d, hkeep, hagain⟩
      · by_cases h2 : extension mesh_rec.mesh_file = ".vtu"
        · simp only [h1, h2, if_true, if_false] at h
          injection h with h
          injection h with ha hb
          obtain ⟨a, b, c, d⟩ := key_step _ (Or.inr h2) hb.symm
          exact ⟨a, b, c, d, hkeep, hagain⟩
        · simp [h1, h2] at h
  · intro h1 h2
    unfold ReaderInstances.get_reader
    cases hl : ri.reader_table_.lookup mesh_rec.mesh_file with
    | some found =>
      exfalso
      have hmem := lookup_some_mem _ _ _ hl
      rcases hext _ hmem with h | h
      · exact h1 h
      · exact h2 h
    | none => simp [hl, h1, h2]

/-- Witness for C27: on the empty table a request for "a.txt" throws and
leaves the table empty; a request for "m.msh" makes the first reader. -/
theorem get_reader_table_witness :
    sample_readers.extensions_ok sample_extension ∧
    (sample_readers.reader_table_.map Prod.fst).Nodup ∧
    sample_readers.get_reader sample_extension ⟨"a.txt"⟩ =
      Except.error (⟨".txt", "a.txt"⟩, sample_readers) ∧
    sample_readers.get_reader sample_extension ⟨"m.msh"⟩ =
      Except.ok (⟨ReaderKind.GmshMeshReader, 0, ⟨"m.msh"⟩⟩,
        ⟨[("m.msh", ⟨ReaderKind.GmshMeshReader, 0, ⟨"m.msh"⟩⟩)], 1⟩) :=
  ⟨fun _ h => absurd h (List.not_mem_nil _), List.nodup_nil,
    (get_reader_table sample_extension sample_readers ⟨"a.txt"⟩
      (fun _ h => absurd h (List.not_mem_nil _)) List.nodup_nil).2 (by decide) (by decide),
    by rfl⟩

/-! ## Incidence of nodes and elements -/

/-- A loop over the entries of nested lists is the nested loop. -/
theorem foldlM_flatMap_option {γ β σ : Type} (f : σ → β → Option σ) (g : γ → List β)
    (l : List γ) (s : σ) :
    (l.flatMap g).foldlM f s = l.foldlM (fun s a => (g a).foldlM f s) s := by
  induction l generalizing s with
  | nil => rfl
  | cons a rest ih =>
    rw [List.flatMap_cons, List.foldlM_append, List.foldlM_cons]
    cases h : List.foldlM f s (g a) with
    | none => rfl
    | some s1 => exact ih s1

/-- The counting loop adds to every node the number of its occurrences. -/
theorem count_loop (ns : List Nat) (nodes : List Topology.Node)
    (h : ∀ nod ∈ ns, nod < nodes.length) :
    ∃ nodes1, ns.foldlM Topology.count_node nodes = some nodes1 ∧
      nodes1.length = nodes.length ∧
      ∀ k : Nat, nodes1[k]? =
        nodes[k]?.map (fun n : Topology.Node =>
          { n with n_elements := n.n_elements + ns.count k }) := by
  induction ns generalizing nodes with
  | nil =>
    refine ⟨nodes, rfl, rfl, ?_⟩
    intro k
    cases nodes[k]? <;> simp
  | cons nod rest ih =>
    have hnod : nod < nodes.length := h nod (List.mem_cons_self _ _)
    obtain ⟨nodes1, h1, h2, h3⟩ :=
      ih (nodes.modify (fun n => { n with n_elements := n.n_elements + 1 }) nod)
        (by
          intro x hx
          rw [List.length_modify]
          exact h x (List.mem_cons_of_mem _ hx))
    refine ⟨nodes1, ?_, ?_, ?_⟩
    · rw [List.foldlM_cons]
      simp only [Topology.count_node, if_pos hnod]
      exact h1
    · rw [h2, List.length_modify]
    · intro k
      rw [h3, List.getElem?_modify]
      cases nodes[k]? with
      | none => rfl
      | some n =>
        by_cases hk : nod = k
        · subst hk
          simp [List.count_cons]
          omega
        · have hk2 : ¬ (nod == k) = true := by simpa using hk
          simp [List.count_cons, hk, hk2]

/-- The incident elements of a list of pairs, by its first pair. -/
theorem incident_of_cons (p : Nat × Nat) (ps : List (Nat × Nat)) (k : Nat) :
    Topology.incident_of (p :: ps) k =
      if p.2 = k then p.1 :: Topology.incident_of ps k else Topology.incident_of ps k := by
  unfold Topology.incident_of
  by_cases h : p.2 = k <;> simp [List.filter_cons, h]

/-- The last loop writes the incident elements of every node into its array,
from position `aux` on, when the array has room for them. -/
theorem fill_loop (ps : List (Nat × Nat)) (nodes : List Topology.Node)
    (h : ∀ p ∈ ps, p.2 < nodes.length)
    (hroom : ∀ k n, nodes[k]? = some n → 0 < (Topology.incident_of ps k).length →
      n.aux + (Topology.incident_of ps k).length ≤ n.element.length) :
    ∃ nodes1, ps.foldlM (fun nv p => Topology.set_pointer p.1 nv p.2) nodes = some nodes1 ∧
      nodes1.length = nodes.length ∧
      ∀ k : Nat, nodes1[k]? =
        nodes[k]?.map (fun n : Topology.Node =>
          { n with
            element := Legacy.write_run n.aux ((Topology.incident_of ps k).map some) n.element
            aux := n.aux + (Topology.incident_of ps k).length }) := by
  induction ps generalizing nodes with
  | nil =>
    refine ⟨nodes, rfl, rfl, ?_⟩
    intro k
    cases nodes[k]? <;> simp [Topology.incident_of, Legacy.write_run]
  | cons p rest ih =>
    obtain ⟨e, nod⟩ := p
    have hnod : nod < nodes.length := h (e, nod) (List.mem_cons_self _ _)
    have hget : nodes[nod]? = some nodes[nod] := List.getElem?_eq_getElem hnod
    have hr := hroom nod nodes[nod] hget (by simp [incident_of_cons])
    rw [incident_of_cons, if_pos rfl, List.length_cons] at hr
    have haux : nodes[nod].aux < nodes[nod].element.length := by omega
    obtain ⟨nodes1, h1, h2, h3⟩ :=
      ih (nodes.set nod
          { nodes[nod] with
            element := nodes[nod].element.set nodes[nod].aux (some e)
            aux := nodes[nod].aux + 1 })
        (by
          intro x hx
          rw [List.length_set]
          exact h x (List.mem_cons_of_mem _ hx))
        (by
          intro k n hk hpos
          rw [List.getElem?_set] at hk
          by_cases hkn : nod = k
          · subst hkn
            simp [hnod] at hk
            subst hk
            simp only [List.length_set]
            omega
          · simp [hkn] at hk
            have := hroom k n hk (by
              rw [incident_of_cons]
              simp only [show ¬ nod = k from hkn, if_false]
              exact hpos)
            rw [incident_of_cons] at this
            simpa [show ¬ nod = k from hkn] using this)
    refine ⟨nodes1, ?_, ?_, ?_⟩
    · rw [List.foldlM_cons]
      simp only [Topology.set_pointer, hget, if_pos haux]
      exact h1
    · rw [h2, List.length_set]
    · intro k
      rw [h3, List.getElem?_set]
      by_cases hkn : nod = k
      · subst hkn
        simp only [if_true, hnod, hget, Option.map_some', incident_of_cons, List.map_cons,
          List.length_cons, Legacy.write_run, List.set_eq_modify]
        congr 2
        omega
      · simp only [hkn, if_false, incident_of_cons]

/-- The incident elements of two lists of pairs. -/
theorem incident_of_append (ps qs : List (Nat × Nat)) (k : Nat) :
    Topology.incident_of (ps ++ qs) k = Topology.incident_of ps k ++ Topology.incident_of qs k := by
  simp [Topology.incident_of]

/-- The pairs of a mesh, by its first element. -/
theorem pairs_cons (i : Nat) (ele : Topology.Element) (rest : List Topology.Element) :
    Topology.pairs i (ele :: rest) =
      ele.node.map (fun nod => (i, nod)) ++ Topology.pairs (i + 1) rest := by
  simp [Topology.pairs, List.enumFrom_cons, List.flatMap_cons]

/-- The number of occurrences of a node in the elements is the number of its
incident pairs. -/
theorem count_eq_incident (element : List Topology.Element) (i k : Nat) :
    (element.flatMap (fun ele => ele.node)).count k =
      (Topology.incident_of (Topology.pairs i element) k).length := by
  induction element generalizing i with
  | nil => rfl
  | cons ele rest ih =>
    rw [pairs_cons, incident_of_append, List.flatMap_cons, List.count_append, List.length_append,
      ih (i + 1)]
    congr 1
    induction ele.node with
    | nil => rfl
    | cons nod more ihn =>
      rw [List.map_cons, incident_of_cons, List.count_cons, ihn]
      by_cases h : nod = k
      · simp [h]
      · have h2 : ¬ (nod == k) = true := by simpa using h
        simp [h, h2]

/-- A run of assignments that covers the whole array leaves the values. -/
theorem write_run_full {α : Type} (xs l : List α) (h : xs.length = l.length) :
    Legacy.write_run 0 xs l = xs := by
  apply List.ext_getElem?
  intro k
  rw [getElem?_write_run]
  by_cases hk : k < xs.length
  · have hl : k < l.length := by omega
    rw [if_pos ⟨Nat.zero_le _, by omega⟩, List.getElem?_eq_getElem hl]
    simp
  · rw [if_neg (by omega)]
    rw [List.getElem?_eq_none (by omega), List.getElem?_eq_none (by omega)]

/-- The allocating loop at a node with elements. -/
theorem allocate_pos (n : Topology.Node) (h : ¬ n.n_elements = 0) :
    Topology.allocate n =
      { n with element := List.replicate n.n_elements none, aux := 0 } := by
  unfold Topology.allocate
  rw [if_neg h]

/-- The allocating loop at a node without elements. -/
theorem allocate_zero (n : Topology.Node) (h : n.n_elements = 0) :
    Topology.allocate n = n := by
  unfold Topology.allocate
  rw [if_pos h]

/-- C26: when every node of every element is a node of the mesh,
`node_to_element` completes (no access outside the node vector or outside an
`element` array); afterwards `n_elements` of every node is the number of the
(element, local node) pairs at that node; a node with `n_elements > 0` has
exactly its incident elements in its array, in mesh iteration order and every
entry assigned, with `aux = n_elements`; at a node with no element the array
and `aux` are left as they were. -/
theorem node_to_element_incident (mesh : Topology.Mesh)
    (hnodes : ∀ ele ∈ mesh.element, ∀ nod ∈ ele.node, nod < mesh.node_vector.length) :
    ∃ mesh1, Topology.node_to_element mesh = some mesh1 ∧
      mesh1.element = mesh.element ∧
      mesh1.node_vector.length = mesh.node_vector.length ∧
      ∀ (k : Nat) (old : Topology.Node), mesh.node_vector[k]? = some old →
        ∃ n, mesh1.node_vector[k]? = some n ∧
          n.n_elements = (Topology.incident mesh k).length ∧
          (0 < n.n_elements →
            n.element = (Topology.incident mesh k).map some ∧ n.aux = n.n_elements) ∧
          (n.n_elements = 0 → n.element = old.element ∧ n.aux = old.aux) := by
  have hvalid : ∀ nod ∈ mesh.element.flatMap (fun ele => ele.node),
      nod < (mesh.node_vector.map
        (fun nod : Topology.Node => { nod with n_elements := 0 })).length := by
    intro nod hmem
    rw [List.length_map]
    obtain ⟨ele, hele, hin⟩ := List.mem_flatMap.mp hmem
    exact hnodes ele hele nod hin
  obtain ⟨nodes1, hc1, hc2, hc3⟩ := count_loop _ _ hvalid
  rw [foldlM_flatMap_option] at hc1
  rw [List.length_map] at hc2
  have hpairs : ∀ p ∈ Topology.pairs 0 mesh.element, p.2 < (nodes1.map Topology.allocate).length := by
    intro p hp
    rw [List.length_map, hc2]
    unfold Topology.pairs at hp
    obtain ⟨e, he, hin⟩ := List.mem_flatMap.mp hp
    obtain ⟨nod, hnod, hpe⟩ := List.mem_map.mp hin
    subst hpe
    have hmem : e.2 ∈ mesh.element := List.snd_mem_of_mem_enumFrom he
    exact hnodes e.2 hmem nod hnod
  have hnode1 : ∀ k : Nat, nodes1[k]? = mesh.node_vector[k]?.map
      (fun old : Topology.Node =>
        { old with n_elements := (Topology.incident mesh k).length }) := by
    intro k
    rw [hc3, List.getElem?_map, count_eq_incident mesh.element 0 k]
    cases mesh.node_vector[k]? with
    | none => rfl
    | some old => simp [Topology.incident]
  have hroom : ∀ k n, (nodes1.map Topology.allocate)[k]? = some n →
      0 < (Topology.incident_of (Topology.pairs 0 mesh.element) k).length →
      n.aux + (Topology.incident_of (Topology.pairs 0 mesh.element) k).length ≤
        n.element.length := by
    intro k n hk hpos
    rw [List.getElem?_map, hnode1] at hk
    cases hold : mesh.node_vector[k]? with
    | none => simp [hold] at hk
    | some old =>
      simp only [hold, Option.map_some', Option.some.injEq] at hk
      subst hk
      have hne : ¬ (Topology.incident mesh k).length = 0 := by
        unfold Topology.incident
        omega
      rw [allocate_pos _ hne]
      show 0 + _ ≤ (List.replicate (Topology.incident mesh k).length none).length
      rw [List.length_replicate]
      unfold Topology.incident
      omega
  obtain ⟨nodes3, hf1, hf2, hf3⟩ := fill_loop _ _ hpairs hroom
  have hfill : mesh.element.enum.foldlM
      (fun nv (e : Nat × Topology.Element) => e.2.node.foldlM (Topology.set_pointer e.1) nv)
      (nodes1.map Topology.allocate) = some nodes3 := by
    rw [← hf1]
    unfold Topology.pairs
    rw [foldlM_flatMap_option]
    simp only [List.foldlM_map]
    rfl
  refine ⟨{ mesh with node_vector := nodes3 }, ?_, rfl, ?_, ?_⟩
  · unfold Topology.node_to_element
    simp only [bind, pure]
    rw [hc1]
    simp only [Option.bind]
    rw [hfill]
  · show nodes3.length = mesh.node_vector.length
    rw [hf2, List.length_map, hc2]
  · intro k old hold
    show ∃ n, nodes3[k]? = some n ∧ _
    rw [hf3, List.getElem?_map, hnode1, hold]
    simp only [Option.map_some']
    by_cases hz : (Topology.incident mesh k).length = 0
    · have hnil : Topology.incident_of (Topology.pairs 0 mesh.element) k = [] :=
        List.length_eq_zero.mp hz
      rw [allocate_zero _ hz]
      refine ⟨_, rfl, rfl, ?_, ?_⟩
      · intro hpos
        exact absurd hz (Nat.pos_iff_ne_zero.mp hpos)
      · intro _
        rw [hnil]
        exact ⟨rfl, rfl⟩
    · rw [allocate_pos _ hz]
      refine ⟨_, rfl, rfl, ?_, ?_⟩
      · intro _
        refine ⟨?_, Nat.zero_add _⟩
        exact write_run_full _ _ (by
          rw [List.length_map, List.length_replicate]
          rfl)
      · intro hzero
        exact absurd hzero hz

/-- Witness for C26: the sample mesh, whose node 1 lies in all three elements
and whose node 4 lies in none. -/
theorem node_to_element_incident_witness :
    (∀ ele ∈ sample_topology.element, ∀ nod ∈ ele.node,
      nod < sample_topology.node_vector.length) ∧
    Topology.node_to_element sample_topology =
      some { node_vector :=
               [⟨1, [some 0], 1⟩, ⟨3, [some 0, some 1, some 2], 3⟩, ⟨2, [some 0, some 1], 2⟩,
                 ⟨1, [some 1], 1⟩, ⟨0, [some 8], 2⟩]
             element := sample_topology.element } ∧
    ∃ mesh1, Topology.node_to_element sample_topology = some mesh1 ∧
      mesh1.element = sample_topology.element ∧
      mesh1.node_vector.length = sample_topology.node_vector.length ∧
      ∀ (k : Nat) (old : Topology.Node), sample_topology.node_vector[k]? = some old →
        ∃ n, mesh1.node_vector[k]? = some n ∧
          n.n_elements = (Topology.incident sample_topology k).length ∧
          (0 < n.n_elements →
            n.element = (Topology.incident sample_topology k).map some ∧
              n.aux = n.n_elements) ∧
          (n.n_elements = 0 → n.element = old.element ∧ n.aux = old.aux) :=
  ⟨by decide, by decide, node_to_element_incident sample_topology (by decide)⟩

end Flow123d
